import Mathlib

/-!
Verification development for the SyncDir repository (src/sync_folders.py).

The Python program mirrors a source directory tree into a replica directory
tree.  We give a shallow embedding of its synchronization engine:

* Directory trees are modelled by the inductive `Tree`, a first-child /
  next-sibling encoding of a forest of named entries, where an entry is a
  regular file (content, mtime, readable flag) or a directory.
* The MD5 content digest is modelled by `digestOf`, an injective fingerprint
  of the file content; `calculate_md5` reproduces the source function's
  observable behaviour: a digest on success, `none` plus an error-level log
  event when the file cannot be read (this also covers the IsADirectoryError
  raised when the path names a directory, which is an OSError = IOError).
* I/O fault injection is modelled by `Env`: per-attempt copy failures,
  per-path delete/mkdir/rmdir failures.  `noFaultEnv` injects nothing.
* `copy_file_with_retries` reproduces the retry loop of the source: up to
  `max_retries` attempts, a warning-level event after each failed attempt,
  and one error-level event after the loop when every attempt failed.
* `perform_sync` reproduces the two-pass engine: the forward pass walks the
  source tree (per directory: ensure the replica directory exists, then its
  files, then descend, exactly like topdown `os.walk`), the backward pass
  walks the replica deepest-first (subdirectory subtrees first, then the
  files of the directory, then the `rmdir` decision for the directory
  itself, exactly like `os.walk(..., topdown=False)`).  Uncaught Python
  exceptions (`os.makedirs` / `os.rmdir` failures) are modelled by the
  `Except` error branch, which carries the log/trace state accumulated up
  to the fault, since a raised exception does not roll back the filesystem.
* Every filesystem mutation is recorded in a trace (`Mut`), tagged with the
  root (`Root.src` / `Root.rep`) it targets.  The source writes replica
  paths by replacing the source root with the replica root at the start of
  each walked path; in the embedding an absolute path is a root tag plus
  the path relative to that root, and that translation maps tag `.src` to
  tag `.rep` keeping the relative part.
* `sync_loop` models the scheduler loop: `try` around the whole `while`,
  catching only `KeyboardInterrupt`; any other fault propagates out of the
  loop.

Events record the calls to the process-wide logger (severity, kind, path).
`time.sleep` delays are irrelevant to the properties and are not modelled,
though the `delay` argument is kept.
-/

namespace SyncDir

/-- Which root of the mirrored pair an absolute filesystem path lives under. -/
inductive Root where
  | src
  | rep
deriving DecidableEq, Repr

/-- A path relative to one of the two roots, as a list of name components. -/
abbrev Path := List String

/-- An absolute location: a root tag plus a root-relative path. -/
structure Loc where
  root : Root
  path : Path
deriving DecidableEq, Repr

/-- The byte content, modification time and readability of a regular file.
The readable flag injects the "open for reading raises IOError" fault. -/
structure FileData where
  content : String
  mtime : Nat
  readable : Bool
deriving DecidableEq, Repr

/-- A content digest; `digestOf` models MD5 as an injective fingerprint. -/
structure Digest where
  val : String
deriving DecidableEq, Repr

def digestOf (s : String) : Digest := ⟨s⟩

/-- Severity of a logged event, mirroring logging.info/warning/error. -/
inductive Sev where
  | info
  | warning
  | error
deriving DecidableEq, Repr

/-- The kind of a logged event, one per logging call site in the source. -/
inductive EvKind where
  | dirCreated
  | fileCreated
  | fileUpdated
  | fileDeleted
  | dirDeleted
  | md5Unreadable
  | copyAttemptFailed (attempt : Nat)
  | copyFailed
  | deleteFailed
deriving DecidableEq, Repr

/-- One call to the logger: severity, kind and the path it reports. -/
structure Event where
  sev : Sev
  kind : EvKind
  loc : Loc
deriving DecidableEq, Repr

/-- The kind of a filesystem mutation performed by the engine. -/
inductive MutKind where
  | mkdirM
  | writeM
  | removeM
  | rmdirM
deriving DecidableEq, Repr

/-- One filesystem mutation and the absolute location it targets. -/
structure Mut where
  kind : MutKind
  loc : Loc
deriving DecidableEq, Repr

/-- An uncaught Python exception inside one engine run: a failed
`os.makedirs` or a failed `os.rmdir` (neither call sits in a try block). -/
inductive Fault where
  | mkdirFault (p : Path)
  | rmdirFault (p : Path)
deriving DecidableEq, Repr

/-- The observable side effects accumulated during one engine run: the
`changes` flag, the log events, the `source_files` set (the source walks it
as a Python set of path strings; we keep the insertion list), and the trace
of filesystem mutations. -/
structure St where
  changed : Bool
  events : List Event
  srcFiles : List Path
  trace : List Mut
deriving DecidableEq, Repr

def St.init : St := ⟨false, [], [], []⟩

def St.push (st : St) (evs : List Event) : St := { st with events := st.events ++ evs }

def St.addSrc (st : St) (p : Path) : St := { st with srcFiles := st.srcFiles ++ [p] }

def St.mark (st : St) : St := { st with changed := true }

def St.addMut (st : St) (m : Mut) : St := { st with trace := st.trace ++ [m] }

/-- Injected I/O faults: which copy attempts at a replica path raise
IOError, and which remove/mkdir/rmdir calls raise. -/
structure Env where
  copyFails : Path → Nat → Bool
  removeFails : Path → Bool
  mkdirFails : Path → Bool
  rmdirFails : Path → Bool

/-- The environment that injects no I/O failure. -/
def noFaultEnv : Env := ⟨fun _ _ => false, fun _ => false, fun _ => false, fun _ => false⟩

/-- A forest of named directory entries in first-child / next-sibling form:
`ffile n d rest` is a regular file entry named `n` followed by its sibling
entries, `fdir n c rest` a directory entry with children forest `c`. -/
inductive Tree where
  | fnil : Tree
  | ffile (name : String) (data : FileData) (rest : Tree) : Tree
  | fdir (name : String) (children : Tree) (rest : Tree) : Tree
deriving DecidableEq, Repr

/-- What a directory slot holds: a regular file or a subdirectory. -/
inductive Slot where
  | sfile (d : FileData)
  | sdir (c : Tree)
deriving DecidableEq, Repr

/-- First entry named `n` in the forest, as a slot. -/
def lookupT : Tree → String → Option Slot
  | .fnil, _ => none
  | .ffile m d r, n => if m = n then some (.sfile d) else lookupT r n
  | .fdir m c r, n => if m = n then some (.sdir c) else lookupT r n

/-- Overwrite the first entry named `n` with the given slot, appending a new
entry at the end when the name is absent (a fresh directory listing entry). -/
def setSlotT : Tree → String → Slot → Tree
  | .fnil, n, .sfile d => .ffile n d .fnil
  | .fnil, n, .sdir c => .fdir n c .fnil
  | .ffile m d r, n, s =>
      if m = n then
        match s with
        | .sfile d2 => .ffile n d2 r
        | .sdir c2 => .fdir n c2 r
      else .ffile m d (setSlotT r n s)
  | .fdir m c r, n, s =>
      if m = n then
        match s with
        | .sfile d2 => .ffile n d2 r
        | .sdir c2 => .fdir n c2 r
      else .fdir m c (setSlotT r n s)

/-- The entry names of a forest, in listing order. -/
def namesT : Tree → List String
  | .fnil => []
  | .ffile n _ r => n :: namesT r
  | .fdir n _ r => n :: namesT r

/-- Well-formed forest: entry names are distinct at every level (true of
every real directory listing). -/
def WfT : Tree → Bool
  | .fnil => true
  | .ffile n _ r => !((namesT r).contains n) && WfT r
  | .fdir n c r => !((namesT r).contains n) && WfT c && WfT r

/-- Every file in the forest is readable (no injected read fault). -/
def AllReadableT : Tree → Bool
  | .fnil => true
  | .ffile _ d r => d.readable && AllReadableT r
  | .fdir _ c r => AllReadableT c && AllReadableT r

/-- Resolve a nonempty relative path in a forest. -/
def findT : Tree → Path → Option Slot
  | _, [] => none
  | t, n :: p =>
      match lookupT t n, p with
      | none, _ => none
      | some s, [] => some s
      | some (.sdir c), _ :: _ => findT c p
      | some (.sfile _), _ :: _ => none

/-- The file stored at a relative path, if any. -/
def fileAt (t : Tree) (p : Path) : Option FileData :=
  match findT t p with
  | some (.sfile d) => some d
  | _ => none

/-- Whether a directory sits at a relative path. -/
def dirAt (t : Tree) (p : Path) : Bool :=
  match findT t p with
  | some (.sdir _) => true
  | _ => false

/-- Whether the forest is empty. -/
def isNilT : Tree → Bool
  | .fnil => true
  | _ => false

/-- The MD5 computation of the source, on the slot found at the given
location: a digest when the slot is a readable file, otherwise `none`
together with the error-level log event the except branch emits (an
unreadable file, or a directory, for which `open` raises). -/
def calculate_md5 (l : Loc) (s : Slot) : Option Digest × List Event :=
  match s with
  | .sfile d =>
      if d.readable then (some (digestOf d.content), [])
      else (none, [⟨.error, .md5Unreadable, l⟩])
  | .sdir _ => (none, [⟨.error, .md5Unreadable, l⟩])

/-- The retry loop of `copy_file_with_retries`: `ok a` tells whether the
copy attempt numbered `a` succeeds.  Returns the success flag, the number
of attempts actually made, and the events logged: one warning per failed
attempt, plus one final error when the whole loop failed. -/
def copyLoop (ok : Nat → Bool) (dst : Loc) : Nat → Nat → Bool × Nat × List Event
  | _, 0 => (false, 0, [⟨.error, .copyFailed, dst⟩])
  | attempt, k + 1 =>
      if ok attempt then (true, 1, [])
      else
        let r := copyLoop ok dst (attempt + 1) k
        (r.1, r.2.1 + 1, ⟨.warning, .copyAttemptFailed attempt, dst⟩ :: r.2.2)

/-- Attempt to copy a file with retries on IOError, as in the source:
attempts are numbered 1 .. max_retries; each failure logs a warning; when
every attempt failed an error is logged and failure is returned.  The
`delay` of `time.sleep` has no observable effect in the model. -/
def copy_file_with_retries (ok : Nat → Bool) (src dst : Loc)
    (max_retries : Nat) (delay : Nat) : Bool × Nat × List Event :=
  copyLoop ok dst 1 max_retries

/-- Whether a copy attempt at replica path `p` succeeds: the source file
must be readable (copy2 reads it) and no fault may be injected for this
attempt. -/
def copyOk (env : Env) (readable : Bool) (p : Path) : Nat → Bool :=
  fun a => readable && !(env.copyFails p a)

/-- The replica-side context of the directory currently walked: either the
matching replica directory's forest, or `blocked` when a regular file sits
where the directory path says (so every path below it fails `os.path.exists`
and every copy into it raises). -/
inductive FwdCtx where
  | ctxDir (t : Tree)
  | blocked
deriving DecidableEq, Repr

def ctxTree : FwdCtx → Tree
  | .ctxDir t => t
  | .blocked => .fnil

/-- The file loop of the forward pass (lines 114-128 of the source), for the
files listed in one walked source directory `rp`: record each source file
path, then create the replica file when absent, otherwise compare MD5
digests and copy only when they differ.  When the replica slot holds a
directory, both the MD5 call on it and `shutil.copy2` reproduce the Python
behaviour: the digest call fails with an error event, and a successful copy
drops the file inside that directory under the file's own name. -/
def fwdFiles (env : Env) (rp : Path) : Tree → FwdCtx → St → FwdCtx × St
  | .fnil, ctx, st => (ctx, st)
  | .fdir _ _ rest, ctx, st => fwdFiles env rp rest ctx st
  | .ffile n d rest, ctx, st =>
      let p := rp ++ [n]
      let st0 := st.addSrc p
      match ctx with
      | .blocked =>
          let r := copy_file_with_retries (fun _ => false) ⟨.src, p⟩ ⟨.rep, p⟩ 3 2
          fwdFiles env rp rest .blocked (st0.push r.2.2)
      | .ctxDir t =>
          match lookupT t n with
          | none =>
              let r := copy_file_with_retries (copyOk env d.readable p) ⟨.src, p⟩ ⟨.rep, p⟩ 3 2
              if r.1 then
                let st2 := (((st0.push r.2.2).push [⟨.info, .fileCreated, ⟨.rep, p⟩⟩]).mark).addMut
                  ⟨.writeM, ⟨.rep, p⟩⟩
                fwdFiles env rp rest (.ctxDir (setSlotT t n (.sfile ⟨d.content, d.mtime, true⟩))) st2
              else fwdFiles env rp rest (.ctxDir t) (st0.push r.2.2)
          | some (.sfile dd) =>
              let m1 := calculate_md5 ⟨.src, p⟩ (.sfile d)
              let m2 := calculate_md5 ⟨.rep, p⟩ (.sfile dd)
              let st2 := (st0.push m1.2).push m2.2
              if m1.1 ≠ m2.1 then
                let r := copy_file_with_retries (copyOk env d.readable p) ⟨.src, p⟩ ⟨.rep, p⟩ 3 2
                if r.1 then
                  let st3 := (((st2.push r.2.2).push [⟨.info, .fileUpdated, ⟨.rep, p⟩⟩]).mark).addMut
                    ⟨.writeM, ⟨.rep, p⟩⟩
                  fwdFiles env rp rest
                    (.ctxDir (setSlotT t n (.sfile ⟨d.content, d.mtime, true⟩))) st3
                else fwdFiles env rp rest (.ctxDir t) (st2.push r.2.2)
              else fwdFiles env rp rest (.ctxDir t) st2
          | some (.sdir c) =>
              let m1 := calculate_md5 ⟨.src, p⟩ (.sfile d)
              let m2 := calculate_md5 ⟨.rep, p⟩ (.sdir c)
              let st2 := (st0.push m1.2).push m2.2
              if m1.1 ≠ m2.1 then
                let r := copy_file_with_retries (copyOk env d.readable p) ⟨.src, p⟩ ⟨.rep, p⟩ 3 2
                if r.1 then
                  let st3 := (((st2.push r.2.2).push [⟨.info, .fileUpdated, ⟨.rep, p⟩⟩]).mark).addMut
                    ⟨.writeM, ⟨.rep, p ++ [n]⟩⟩
                  fwdFiles env rp rest
                    (.ctxDir (setSlotT t n (.sdir (setSlotT c n (.sfile ⟨d.content, d.mtime, true⟩)))))
                    st3
                else fwdFiles env rp rest (.ctxDir t) (st2.push r.2.2)
              else fwdFiles env rp rest (.ctxDir t) st2

/-- The directory descent of the forward pass: for each subdirectory of the
walked source directory, ensure the replica directory exists (creating it
when the slot is empty; `os.makedirs` is skipped when anything exists at
the path, even a regular file, in which case descent continues `blocked`),
then process the subdirectory's files and descend, as topdown `os.walk`
does.  A failed `os.makedirs` is an uncaught exception. -/
def fwdWalk (env : Env) (rp : Path) : Tree → FwdCtx → St → Except (Fault × St) (FwdCtx × St)
  | .fnil, ctx, st => .ok (ctx, st)
  | .ffile _ _ rest, ctx, st => fwdWalk env rp rest ctx st
  | .fdir n c rest, ctx, st =>
      let p := rp ++ [n]
      match ctx with
      | .blocked => .error (.mkdirFault p, st)
      | .ctxDir t =>
          match lookupT t n with
          | some (.sfile _) =>
              let r1 := fwdFiles env p c .blocked st
              match fwdWalk env p c r1.1 r1.2 with
              | .error e => .error e
              | .ok r2 => fwdWalk env rp rest (.ctxDir t) r2.2
          | some (.sdir w) =>
              let r1 := fwdFiles env p c (.ctxDir w) st
              match fwdWalk env p c r1.1 r1.2 with
              | .error e => .error e
              | .ok (ctx2, st2) =>
                  fwdWalk env rp rest (.ctxDir (setSlotT t n (.sdir (ctxTree ctx2)))) st2
          | none =>
              if env.mkdirFails p then .error (.mkdirFault p, st)
              else
                let st1 := (st.push [⟨.info, .dirCreated, ⟨.rep, p⟩⟩]).addMut ⟨.mkdirM, ⟨.rep, p⟩⟩
                let t1 := setSlotT t n (.sdir .fnil)
                let r1 := fwdFiles env p c (.ctxDir .fnil) st1
                match fwdWalk env p c r1.1 r1.2 with
                | .error e => .error e
                | .ok (ctx2, st2) =>
                    fwdWalk env rp rest (.ctxDir (setSlotT t1 n (.sdir (ctxTree ctx2)))) st2

/-- The file loop of the backward pass (lines 133-142): delete every replica
file whose source-side path is not in the `source_files` set; a failed
`os.remove` is caught and logged as an error. -/
def bwdFiles (env : Env) (srcFiles : List Path) (rp : Path) : Tree → St → Tree × St
  | .fnil, st => (.fnil, st)
  | .fdir n c rest, st =>
      let r := bwdFiles env srcFiles rp rest st
      (.fdir n c r.1, r.2)
  | .ffile n d rest, st =>
      let p := rp ++ [n]
      if p ∈ srcFiles then
        let r := bwdFiles env srcFiles rp rest st
        (.ffile n d r.1, r.2)
      else if env.removeFails p then
        let r := bwdFiles env srcFiles rp rest (st.push [⟨.error, .deleteFailed, ⟨.rep, p⟩⟩])
        (.ffile n d r.1, r.2)
      else
        let st2 := ((st.push [⟨.info, .fileDeleted, ⟨.rep, p⟩⟩]).mark).addMut ⟨.removeM, ⟨.rep, p⟩⟩
        bwdFiles env srcFiles rp rest st2

/-- The directory traversal of the backward pass, deepest-first as
`os.walk(..., topdown=False)`: for each replica subdirectory, first process
its whole subtree (its subdirectories, then its files), then, when nothing
exists at the corresponding source path, call `os.rmdir` on it — which
raises (an uncaught exception) when a fault is injected or the directory is
not empty.  `sctx` is the matching source directory's forest when the source
has a directory here; otherwise every source-side existence test below
fails. -/
def bwdDirs (env : Env) (srcFiles : List Path) (rp : Path) :
    Option Tree → Tree → St → Except (Fault × St) (Tree × St)
  | _, .fnil, st => .ok (.fnil, st)
  | sctx, .ffile n d rest, st =>
      match bwdDirs env srcFiles rp sctx rest st with
      | .error e => .error e
      | .ok (rest2, st2) => .ok (.ffile n d rest2, st2)
  | sctx, .fdir n c rest, st =>
      let p := rp ++ [n]
      let srcSlot : Option Slot :=
        match sctx with
        | some s => lookupT s n
        | none => none
      let childCtx : Option Tree :=
        match srcSlot with
        | some (.sdir sc) => some sc
        | _ => none
      match bwdDirs env srcFiles p childCtx c st with
      | .error e => .error e
      | .ok (c1, st1) =>
          let r2 := bwdFiles env srcFiles p c1 st1
          match srcSlot with
          | some _ =>
              match bwdDirs env srcFiles rp sctx rest r2.2 with
              | .error e => .error e
              | .ok (rest2, st3) => .ok (.fdir n r2.1 rest2, st3)
          | none =>
              if env.rmdirFails p || !(isNilT r2.1) then .error (.rmdirFault p, r2.2)
              else
                let st3 := ((r2.2.push [⟨.info, .dirDeleted, ⟨.rep, p⟩⟩]).mark).addMut
                  ⟨.rmdirM, ⟨.rep, p⟩⟩
                match bwdDirs env srcFiles rp sctx rest st3 with
                | .error e => .error e
                | .ok (rest2, st4) => .ok (rest2, st4)

/-- One engine run (`perform_sync`): the forward pass over the source tree
(the replica root is given and exists, so the first `os.makedirs` guard is
skipped for it), then the backward pass over the resulting replica tree
(the source root exists, so the replica root itself is never removed).
The valid result carries the final replica tree, the returned `changes`
flag and the accumulated side effects; the error result is an uncaught
exception together with the side effects up to the fault. -/
def perform_sync (env : Env) (source replica : Tree) :
    Except (Fault × St) (Tree × Bool × St) :=
  let r1 := fwdFiles env [] source (.ctxDir replica) St.init
  match fwdWalk env [] source r1.1 r1.2 with
  | .error e => .error e
  | .ok (ctx2, st2) =>
      match bwdDirs env st2.srcFiles [] (some source) (ctxTree ctx2) st2 with
      | .error e => .error e
      | .ok (rep2, st3) =>
          let r4 := bwdFiles env st3.srcFiles [] rep2 st3
          .ok (r4.1, r4.2.changed, r4.2)

/-- The outcome of one scheduled pass as the loop body observes it. -/
inductive TickOutcome where
  | passOk (changed : Bool)
  | kbInterrupt
  | passFault (f : Fault)
deriving DecidableEq, Repr

/-- How the scheduler loop ends. -/
inductive SchedExit where
  | stopSignal
  | userInterrupted
  | uncaughtFault (f : Fault)
deriving DecidableEq, Repr

/-- The scheduler loop (`sync_loop`): the `try` wraps the whole `while`, so
a `KeyboardInterrupt` raised in a pass is caught and ends the loop, and any
other fault propagates out of the loop uncaught; an exhausted outcome list
models the stop event being observed.  Returns how the loop ended and how
many passes ran. -/
def sync_loop : List TickOutcome → SchedExit × Nat
  | [] => (.stopSignal, 0)
  | .passOk _ :: rest =>
      let r := sync_loop rest
      (r.1, r.2 + 1)
  | .kbInterrupt :: _ => (.userInterrupted, 1)
  | .passFault f :: _ => (.uncaughtFault f, 1)

/-- Whether an event is one of the four whose call sites set the `changes`
flag in the source (directory creation logs but does not set it). -/
def isChangeEv (e : Event) : Bool :=
  match e.kind with
  | .fileCreated => true
  | .fileUpdated => true
  | .fileDeleted => true
  | .dirDeleted => true
  | _ => false

/-- Number of warning-level events in a log. -/
def warnCount (evs : List Event) : Nat :=
  (evs.filter (fun e => e.sev == Sev.warning)).length

/-- Number of error-level events in a log. -/
def countErrors (evs : List Event) : Nat :=
  (evs.filter (fun e => e.sev == Sev.error)).length

/-- Whether every event is informational (no warning, no error was logged). -/
def allInfo (evs : List Event) : Bool := evs.all (fun e => e.sev == Sev.info)

/-- The side-effect state carried by either branch of a pass result. -/
def resSt {α : Type} : Except (Fault × St) (α × St) → St
  | .ok (_, st) => st
  | .error (_, st) => st

/-- The side-effect state of a full engine run, faulted or not. -/
def runSt : Except (Fault × St) (Tree × Bool × St) → St
  | .ok (_, _, st) => st
  | .error (_, st) => st

/-- Whether every recorded filesystem mutation targets the replica root. -/
def repOnly (l : List Mut) : Bool := l.all (fun m => m.loc.root == Root.rep)

/-- Whether an event kind reports a copy attempt on a file: a successful
update, a failed attempt, or the final copy failure. -/
def isCopyKind : EvKind → Bool
  | .fileUpdated => true
  | .copyFailed => true
  | .copyAttemptFailed _ => true
  | _ => false

/-- Whether the log shows some copy attempt targeted replica path `p`. -/
def copyTouched (evs : List Event) (p : Path) : Bool :=
  evs.any (fun e => e.loc == Loc.mk Root.rep p && isCopyKind e.kind)

/-- The digest comparison value the engine obtains for a file: a digest of
its content when it is readable, `none` otherwise. -/
def md5Opt (d : FileData) : Option Digest :=
  if d.readable then some (digestOf d.content) else none

/-- Relation between the side-effect state before and after a piece of the
engine: events only grow, and the `changes` flag is set exactly when a
change event was appended. -/
def evChanged (a b : St) : Prop :=
  ∃ l, b.events = a.events ++ l ∧ b.changed = (a.changed || l.any isChangeEv)

/-- Environment whose injected fault makes every copy to replica path "a"
raise IOError. -/
def exEnvCopyA : Env := { noFaultEnv with copyFails := fun p _ => p == ["a"] }

/-- Environment whose injected fault makes os.makedirs at replica path "a"
raise. -/
def exEnvMkdirA : Env := { noFaultEnv with mkdirFails := fun p => p == ["a"] }

/-- Environment whose injected fault makes os.rmdir at replica path "x"
raise. -/
def exEnvRmdirX : Env := { noFaultEnv with rmdirFails := fun p => p == ["x"] }

/-- Environment whose injected fault makes os.remove at replica path "y"
raise IOError. -/
def exEnvRemoveY : Env := { noFaultEnv with removeFails := fun p => p == ["y"] }

/-- Source tree holding one unreadable file "a" with content "p". -/
def exSrcU : Tree := .ffile "a" ⟨"p", 1, false⟩ .fnil

/-- Replica tree holding one unreadable file "a" with different content "q". -/
def exRepU : Tree := .ffile "a" ⟨"q", 2, false⟩ .fnil

/-- Source tree with an empty directory "a" (whose replica directory creation
will be made to fail) followed by a directory "b" holding a file. -/
def exSrcC5 : Tree := .fdir "a" .fnil (.fdir "b" (.ffile "f" ⟨"x", 0, true⟩ .fnil) .fnil)

/-- Source tree with one file "a" and one directory "d" holding file "b",
used as a concrete convergence witness. -/
def exSrcC1 : Tree := .fdir "d" (.ffile "b" ⟨"w", 1, true⟩ .fnil) (.ffile "a" ⟨"h", 0, true⟩ .fnil)

/-- The file data `shutil.copy2` materializes at the destination: same
content, preserved mtime, and readable. -/
def copyD (d : FileData) : FileData := ⟨d.content, d.mtime, true⟩

/-- Concatenation of two forests (sibling lists). -/
def appendT : Tree → Tree → Tree
  | .fnil, u => u
  | .ffile n d r, u => .ffile n d (appendT r u)
  | .fdir n c r, u => .fdir n c (appendT r u)

/-- The one-entry forest holding the given slot under the given name. -/
def oneT (n : String) : Slot → Tree
  | .sfile d => .ffile n d .fnil
  | .sdir c => .fdir n c .fnil

/-- The file entries of one level, with the data a copy materializes. -/
def filesCopyT : Tree → Tree
  | .fnil => .fnil
  | .ffile n d r => .ffile n (copyD d) (filesCopyT r)
  | .fdir _ _ r => filesCopyT r

/-- The directory entries of one level, each replaced by the forest the
forward pass materializes for it in an initially empty replica: the
directory's files first (as the file loop appends them), then its
subdirectories, recursively. -/
def dirsMirrorT : Tree → Tree
  | .fnil => .fnil
  | .ffile _ _ r => dirsMirrorT r
  | .fdir n c r => .fdir n (appendT (filesCopyT c) (dirsMirrorT c)) (dirsMirrorT r)

/-- The replica forest one forward pass builds from a source forest into an
initially empty replica directory. -/
def fwdMirror (t : Tree) : Tree := appendT (filesCopyT t) (dirsMirrorT t)

/-- Names of the file entries of one level, in listing order. -/
def levelFileNamesT : Tree → List String
  | .fnil => []
  | .ffile n _ r => n :: levelFileNamesT r
  | .fdir _ _ r => levelFileNamesT r

/-- The directory entries of one level, in listing order. -/
def levelDirsT : Tree → List (String × Tree)
  | .fnil => []
  | .ffile _ _ r => levelDirsT r
  | .fdir n c r => (n, c) :: levelDirsT r

/-- The file paths the walk records below the directories of one level (the
paths of depth at least two), in walk order. -/
def subPathsR : Tree → List Path
  | .fnil => []
  | .ffile _ _ r => subPathsR r
  | .fdir n c r =>
      (((levelFileNamesT c).map (fun m => [m]) ++ subPathsR c).map (fun p => n :: p)) ++
        subPathsR r

/-- All file paths of a forest in the order `os.walk` visits them: the
current level's files first, then each subdirectory's subtree. -/
def walkPathsR (t : Tree) : List Path :=
  (levelFileNamesT t).map (fun n => [n]) ++ subPathsR t

/-- Whether the backward pass keeps every entry of the replica forest `rep`
(rooted at relative path `rp`, with `sctx` the matching source forest if
any): every file's source path is in the recorded source-file set, and
every directory has a matching source directory, recursively. -/
def BwdKeeps (srcFiles : List Path) : Path → Tree → Option Tree → Bool
  | _, .fnil, _ => true
  | rp, .ffile n _ r, s => decide ((rp ++ [n]) ∈ srcFiles) && BwdKeeps srcFiles rp r s
  | rp, .fdir n c r, s =>
      (match s with
        | some sf =>
            match lookupT sf n with
            | some (.sdir sc) => BwdKeeps srcFiles (rp ++ [n]) c (some sc)
            | _ => false
        | none => false) && BwdKeeps srcFiles rp r s

/-- The replica forest after the file loop of the forward pass on one
walked directory. -/
def fwdFilesT (env : Env) (rp : Path) (src u : Tree) (st : St) : Tree :=
  ctxTree (fwdFiles env rp src (.ctxDir u) st).1

/-- Whether an event reports the given absolute relative path (under either
root: the source-side digest error and the replica-side events of one file
share the same relative path). -/
def atP (P : Path) (e : Event) : Bool := e.loc.path == P

/-- The replica file data left at a path present as a file in both trees
after the forward pass visits it with no injected fault: the engine
overwrites with the copied source data exactly when the digest comparison
says the contents differ (a failed digest counts as a differing digest),
and the copy succeeds exactly when the source file is readable. -/
def fileStepSlot (ds dd : FileData) : FileData :=
  if ds.readable then
    (if dd.readable && (ds.content == dd.content) then dd else copyD ds)
  else dd

/-- The events the forward pass logs for a path present as a file in both
trees, with no injected fault, by readability case: digest errors for the
unreadable sides, then the update on successful copy, or the three warnings
and the final error when the source side cannot be read. -/
def fileStepEvents (P : Path) (ds dd : FileData) : List Event :=
  if ds.readable then
    (if dd.readable then
      (if ds.content = dd.content then []
       else [⟨.info, .fileUpdated, ⟨.rep, P⟩⟩])
     else [⟨.error, .md5Unreadable, ⟨.rep, P⟩⟩, ⟨.info, .fileUpdated, ⟨.rep, P⟩⟩])
  else
    (if dd.readable then
      [⟨.error, .md5Unreadable, ⟨.src, P⟩⟩,
       ⟨.warning, .copyAttemptFailed 1, ⟨.rep, P⟩⟩,
       ⟨.warning, .copyAttemptFailed 2, ⟨.rep, P⟩⟩,
       ⟨.warning, .copyAttemptFailed 3, ⟨.rep, P⟩⟩,
       ⟨.error, .copyFailed, ⟨.rep, P⟩⟩]
     else [⟨.error, .md5Unreadable, ⟨.src, P⟩⟩, ⟨.error, .md5Unreadable, ⟨.rep, P⟩⟩])

/-- The whole forward pass on one directory pair: the file loop, then the
walk of the subdirectories, as `perform_sync` runs them at the roots and
`fwdWalk` runs them at every subdirectory. -/
def fwdPhase (env : Env) (rp : Path) (src u : Tree) (st : St) :
    Except (Fault × St) (Tree × St) :=
  match fwdWalk env rp src (fwdFiles env rp src (.ctxDir u) st).1
      (fwdFiles env rp src (.ctxDir u) st).2 with
  | .error e => .error e
  | .ok (ctx2, st2) => .ok (ctxTree ctx2, st2)

/-- A state predicate closed under the four atomic state transformations
the engine performs: pushing non-change events, recording a source file
path, a successful change (change event + flag + replica mutation), and a
non-change mutation step (directory creation: event + replica mutation,
flag untouched). -/
def StepClosed (P : St → Prop) : Prop :=
  (∀ st evs, evs.any isChangeEv = false → P st → P (st.push evs)) ∧
  (∀ st p, P st → P (st.addSrc p)) ∧
  (∀ st e m, isChangeEv e = true → m.loc.root = Root.rep → P st →
    P (((st.push [e]).mark).addMut m)) ∧
  (∀ st e m, isChangeEv e = false → m.loc.root = Root.rep → P st →
    P ((st.push [e]).addMut m))

/-- Well-formedness of the replica-side walk context. -/
def ctxWf : FwdCtx → Bool
  | .ctxDir t => WfT t
  | .blocked => true

/-- Whether a forest holds no file at all (only, possibly, directories). -/
def noFilesT : Tree → Bool
  | .fnil => true
  | .ffile _ _ _ => false
  | .fdir _ c r => noFilesT c && noFilesT r

/-- Source-side half of the "next run is clean" check: every source file has
a readable replica file with equal content at the same path, and every
source directory has either a matching replica directory (recursively
clean) or no replica entry at all but then no file anywhere below it (so
the next run only creates directories). -/
def srcSideB : Tree → Tree → Bool
  | .fnil, _ => true
  | .ffile n ds r, u =>
      (match lookupT u n with
       | some (.sfile dd) => ds.readable && dd.readable && (ds.content == dd.content)
       | _ => false) && srcSideB r u
  | .fdir n c r, u =>
      (match lookupT u n with
       | some (.sdir w) => srcSideB c w
       | some (.sfile _) => false
       | none => noFilesT c) && srcSideB r u

/-- Replica-side half of the "next run is clean" check: every replica file
sits at a source file path and every replica directory at a source
directory path, recursively (so the backward pass deletes nothing). -/
def repSideB : Tree → Tree → Bool
  | _, .fnil => true
  | s, .ffile n _ r =>
      (match lookupT s n with
       | some (.sfile _) => true
       | _ => false) && repSideB s r
  | s, .fdir n w r =>
      (match lookupT s n with
       | some (.sdir c) => repSideB c w
       | _ => false) && repSideB s r

/-- Source-side invariant of the replica forest after the forward pass of a
run whose log holds only informational events: every source file has a
readable replica copy with equal content, and every source directory has
either a replica directory satisfying the invariant recursively or (only
when the source directory is completely empty, so the blocked descent had
nothing to copy) a stale replica regular file at its path. -/
def srcSideA : Tree → Tree → Bool
  | .fnil, _ => true
  | .ffile n ds r, u =>
      (match lookupT u n with
       | some (.sfile dd) => ds.readable && dd.readable && (dd.content == ds.content)
       | _ => false) && srcSideA r u
  | .fdir n c r, u =>
      (match lookupT u n with
       | some (.sdir w) => srcSideA c w
       | some (.sfile _) => isNilT c
       | none => false) && srcSideA r u

/-- Replica-side invariant after such a forward pass: every replica
directory sits either at a source directory path (recursively invariant) or
at a path where the source has no entry at all (a leftover replica-only
directory, which the backward pass removes wholesale). -/
def repSideA : Tree → Tree → Bool
  | _, .fnil => true
  | s, .ffile _ _ r => repSideA s r
  | s, .fdir n w r =>
      (match lookupT s n with
       | some (.sdir c) => repSideA c w
       | some (.sfile _) => false
       | none => true) && repSideA s r

/-- Source tree for the C7 counterexample: a directory "d" holding one
readable file "f". -/
def exSrcC7 : Tree := .fdir "d" (.ffile "f" ⟨"x", 0, true⟩ .fnil) .fnil

/-- Replica tree for the C7 counterexample and witness: a regular file
sitting at the source's directory path "d". -/
def exRepC7 : Tree := .ffile "d" ⟨"y", 0, true⟩ .fnil

/-- Source tree for the C7 witness: one empty directory "d". -/
def exSrcC7w : Tree := .fdir "d" .fnil .fnil

@[simp] theorem St.push_changed (st : St) (evs : List Event) : (st.push evs).changed = st.changed := rfl

@[simp] theorem St.push_events (st : St) (evs : List Event) : (st.push evs).events = st.events ++ evs := rfl

@[simp] theorem St.push_srcFiles (st : St) (evs : List Event) : (st.push evs).srcFiles = st.srcFiles := rfl

@[simp] theorem St.push_trace (st : St) (evs : List Event) : (st.push evs).trace = st.trace := rfl

@[simp] theorem St.addSrc_changed (st : St) (p : Path) : (st.addSrc p).changed = st.changed := rfl

@[simp] theorem St.addSrc_events (st : St) (p : Path) : (st.addSrc p).events = st.events := rfl

@[simp] theorem St.addSrc_srcFiles (st : St) (p : Path) : (st.addSrc p).srcFiles = st.srcFiles ++ [p] := rfl

@[simp] theorem St.addSrc_trace (st : St) (p : Path) : (st.addSrc p).trace = st.trace := rfl

@[simp] theorem St.mark_changed (st : St) : st.mark.changed = true := rfl

@[simp] theorem St.mark_events (st : St) : st.mark.events = st.events := rfl

@[simp] theorem St.mark_srcFiles (st : St) : st.mark.srcFiles = st.srcFiles := rfl

@[simp] theorem St.mark_trace (st : St) : st.mark.trace = st.trace := rfl

@[simp] theorem St.addMut_changed (st : St) (m : Mut) : (st.addMut m).changed = st.changed := rfl

@[simp] theorem St.addMut_events (st : St) (m : Mut) : (st.addMut m).events = st.events := rfl

@[simp] theorem St.addMut_srcFiles (st : St) (m : Mut) : (st.addMut m).srcFiles = st.srcFiles := rfl

@[simp] theorem St.addMut_trace (st : St) (m : Mut) : (st.addMut m).trace = st.trace ++ [m] := rfl

@[simp] theorem repOnly_append (l1 l2 : List Mut) :
    repOnly (l1 ++ l2) = (repOnly l1 && repOnly l2) := by
  simp [repOnly]

@[simp] theorem repOnly_rep_singleton (k : MutKind) (p : Path) :
    repOnly [⟨k, ⟨Root.rep, p⟩⟩] = true := by
  simp [repOnly]

theorem copyLoop_noChange (ok : Nat → Bool) (dst : Loc) :
    ∀ (a k : Nat), (copyLoop ok dst a k).2.2.any isChangeEv = false := by
  intro a k
  induction k generalizing a with
  | zero => simp [copyLoop, isChangeEv]
  | succ k ih =>
      simp only [copyLoop]
      split
      · simp
      · simp [isChangeEv, ih]

theorem copy_noChange (ok : Nat → Bool) (s d : Loc) (m dl : Nat) :
    (copy_file_with_retries ok s d m dl).2.2.any isChangeEv = false :=
  copyLoop_noChange ok d 1 m

theorem md5_noChange (l : Loc) (s : Slot) :
    (calculate_md5 l s).2.any isChangeEv = false := by
  cases s with
  | sfile d =>
      simp only [calculate_md5]
      split <;> simp [isChangeEv]
  | sdir c => simp [calculate_md5, isChangeEv]

theorem fwdFiles_st (P : St → Prop) (hP : StepClosed P) (env : Env) (rp : Path) :
    ∀ (src : Tree) (ctx : FwdCtx) (st : St), P st → P (fwdFiles env rp src ctx st).2 := by
  intro src
  induction src with
  | fnil => intro ctx st h; simpa [fwdFiles] using h
  | ffile n d rest ih =>
      intro ctx st h
      cases ctx with
      | blocked =>
          simp only [fwdFiles]
          exact ih _ _ (hP.1 _ _ (copy_noChange _ _ _ _ _) (hP.2.1 _ _ h))
      | ctxDir t =>
          cases hl : lookupT t n with
          | none =>
              simp only [fwdFiles, hl]
              split
              · exact ih _ _ (hP.2.2.1 _ _ _ rfl rfl
                  (hP.1 _ _ (copy_noChange _ _ _ _ _) (hP.2.1 _ _ h)))
              · exact ih _ _ (hP.1 _ _ (copy_noChange _ _ _ _ _) (hP.2.1 _ _ h))
          | some s =>
              have hst2 : P ((((st.addSrc (rp ++ [n])).push
                  (calculate_md5 ⟨Root.src, rp ++ [n]⟩ (.sfile d)).2)).push
                  (calculate_md5 ⟨Root.rep, rp ++ [n]⟩ s).2) :=
                hP.1 _ _ (md5_noChange _ _)
                  (hP.1 _ _ (md5_noChange _ _) (hP.2.1 _ _ h))
              cases s with
              | sfile dd =>
                  simp only [fwdFiles, hl]
                  split
                  · split
                    · exact ih _ _ (hP.2.2.1 _ _ _ rfl rfl
                        (hP.1 _ _ (copy_noChange _ _ _ _ _) hst2))
                    · exact ih _ _ (hP.1 _ _ (copy_noChange _ _ _ _ _) hst2)
                  · exact ih _ _ hst2
              | sdir c =>
                  simp only [fwdFiles, hl]
                  split
                  · split
                    · exact ih _ _ (hP.2.2.1 _ _ _ rfl rfl
                        (hP.1 _ _ (copy_noChange _ _ _ _ _) hst2))
                    · exact ih _ _ (hP.1 _ _ (copy_noChange _ _ _ _ _) hst2)
                  · exact ih _ _ hst2
  | fdir n c rest ihc ihr =>
      intro ctx st h
      simp only [fwdFiles]
      exact ihr _ _ h

theorem fwdWalk_st (P : St → Prop) (hP : StepClosed P) (env : Env) :
    ∀ (src : Tree) (rp : Path) (ctx : FwdCtx) (st : St), P st →
      P (resSt (fwdWalk env rp src ctx st)) := by
  intro src
  induction src with
  | fnil => intro rp ctx st h; simpa [fwdWalk, resSt] using h
  | ffile n d rest ih =>
      intro rp ctx st h
      simp only [fwdWalk]
      exact ih _ _ _ h
  | fdir n c rest ihc ihr =>
      intro rp ctx st h
      cases ctx with
      | blocked => simpa [fwdWalk, resSt] using h
      | ctxDir t =>
          cases hl : lookupT t n with
          | some s =>
              cases s with
              | sfile dd =>
                  have h1 : P (fwdFiles env (rp ++ [n]) c .blocked st).2 :=
                    fwdFiles_st P hP env _ _ _ _ h
                  have h2 := ihc (rp ++ [n]) (fwdFiles env (rp ++ [n]) c .blocked st).1
                    (fwdFiles env (rp ++ [n]) c .blocked st).2 h1
                  cases hw : fwdWalk env (rp ++ [n]) c (fwdFiles env (rp ++ [n]) c .blocked st).1
                      (fwdFiles env (rp ++ [n]) c .blocked st).2 with
                  | error e =>
                      rw [hw] at h2
                      simpa [fwdWalk, hl, hw, resSt] using h2
                  | ok r2 =>
                      rw [hw] at h2
                      simp only [fwdWalk, hl, hw]
                      exact ihr _ _ _ (by simpa [resSt] using h2)
              | sdir w =>
                  have h1 : P (fwdFiles env (rp ++ [n]) c (.ctxDir w) st).2 :=
                    fwdFiles_st P hP env _ _ _ _ h
                  have h2 := ihc (rp ++ [n]) (fwdFiles env (rp ++ [n]) c (.ctxDir w) st).1
                    (fwdFiles env (rp ++ [n]) c (.ctxDir w) st).2 h1
                  cases hw : fwdWalk env (rp ++ [n]) c (fwdFiles env (rp ++ [n]) c (.ctxDir w) st).1
                      (fwdFiles env (rp ++ [n]) c (.ctxDir w) st).2 with
                  | error e =>
                      rw [hw] at h2
                      simpa [fwdWalk, hl, hw, resSt] using h2
                  | ok r2 =>
                      rw [hw] at h2
                      obtain ⟨ctx2, st2⟩ := r2
                      simp only [fwdWalk, hl, hw]
                      exact ihr _ _ _ (by simpa [resSt] using h2)
          | none =>
              cases hmk : env.mkdirFails (rp ++ [n]) with
              | true => simpa [fwdWalk, hl, hmk, resSt] using h
              | false =>
                  have h0 : P ((st.push [⟨Sev.info, EvKind.dirCreated, ⟨Root.rep, rp ++ [n]⟩⟩]).addMut
                      ⟨MutKind.mkdirM, ⟨Root.rep, rp ++ [n]⟩⟩) :=
                    hP.2.2.2 _ _ _ rfl rfl h
                  have h1 := fwdFiles_st P hP env (rp ++ [n]) c (.ctxDir .fnil) _ h0
                  have h2 := ihc (rp ++ [n])
                    (fwdFiles env (rp ++ [n]) c (.ctxDir .fnil)
                      ((st.push [⟨Sev.info, EvKind.dirCreated, ⟨Root.rep, rp ++ [n]⟩⟩]).addMut
                        ⟨MutKind.mkdirM, ⟨Root.rep, rp ++ [n]⟩⟩)).1
                    (fwdFiles env (rp ++ [n]) c (.ctxDir .fnil)
                      ((st.push [⟨Sev.info, EvKind.dirCreated, ⟨Root.rep, rp ++ [n]⟩⟩]).addMut
                        ⟨MutKind.mkdirM, ⟨Root.rep, rp ++ [n]⟩⟩)).2 h1
                  cases hw : fwdWalk env (rp ++ [n]) c
                      (fwdFiles env (rp ++ [n]) c (.ctxDir .fnil)
                        ((st.push [⟨Sev.info, EvKind.dirCreated, ⟨Root.rep, rp ++ [n]⟩⟩]).addMut
                          ⟨MutKind.mkdirM, ⟨Root.rep, rp ++ [n]⟩⟩)).1
                      (fwdFiles env (rp ++ [n]) c (.ctxDir .fnil)
                        ((st.push [⟨Sev.info, EvKind.dirCreated, ⟨Root.rep, rp ++ [n]⟩⟩]).addMut
                          ⟨MutKind.mkdirM, ⟨Root.rep, rp ++ [n]⟩⟩)).2 with
                  | error e =>
                      rw [hw] at h2
                      simpa [fwdWalk, hl, hmk, hw, resSt] using h2
                  | ok r2 =>
                      rw [hw] at h2
                      obtain ⟨ctx2, st2⟩ := r2
                      simp only [fwdWalk, hl, hmk, hw]
                      exact ihr _ _ _ (by simpa [resSt] using h2)

theorem bwdFiles_st (P : St → Prop) (hP : StepClosed P) (env : Env)
    (srcFiles : List Path) (rp : Path) :
    ∀ (rep : Tree) (st : St), P st → P (bwdFiles env srcFiles rp rep st).2 := by
  intro rep
  induction rep with
  | fnil => intro st h; simpa [bwdFiles] using h
  | ffile n d rest ih =>
      intro st h
      simp only [bwdFiles]
      split
      · exact ih _ h
      · split
        · exact ih _ (hP.1 _ _ (by simp [isChangeEv]) h)
        · exact ih _ (hP.2.2.1 _ _ _ rfl rfl h)
  | fdir n c rest ihc ihr =>
      intro st h
      simp only [bwdFiles]
      exact ihr _ h

theorem bwdDirs_st (P : St → Prop) (hP : StepClosed P) (env : Env)
    (srcFiles : List Path) :
    ∀ (rep : Tree) (rp : Path) (sctx : Option Tree) (st : St), P st →
      P (resSt (bwdDirs env srcFiles rp sctx rep st)) := by
  intro rep
  induction rep with
  | fnil => intro rp sctx st h; simpa [bwdDirs, resSt] using h
  | ffile n d rest ih =>
      intro rp sctx st h
      have h2 := ih rp sctx st h
      cases hw : bwdDirs env srcFiles rp sctx rest st with
      | error e =>
          rw [hw] at h2
          simpa [bwdDirs, hw, resSt] using h2
      | ok r2 =>
          rw [hw] at h2
          obtain ⟨rest2, st2⟩ := r2
          simpa [bwdDirs, hw, resSt] using h2
  | fdir n c rest ihc ihr =>
      intro rp sctx st h
      have hkeep : ∀ (cctx : Option Tree) (c1 : Tree) (st1 : St),
          P st1 →
          P (resSt (match bwdDirs env srcFiles rp sctx rest
              (bwdFiles env srcFiles (rp ++ [n]) c1 st1).2 with
            | .error e => .error e
            | .ok (rest2, st3) =>
                .ok (Tree.fdir n (bwdFiles env srcFiles (rp ++ [n]) c1 st1).1 rest2, st3))) := by
        intro cctx c1 st1 h1
        have h3 : P (bwdFiles env srcFiles (rp ++ [n]) c1 st1).2 :=
          bwdFiles_st P hP env srcFiles (rp ++ [n]) c1 st1 h1
        have h4 := ihr rp sctx (bwdFiles env srcFiles (rp ++ [n]) c1 st1).2 h3
        cases hw2 : bwdDirs env srcFiles rp sctx rest
            (bwdFiles env srcFiles (rp ++ [n]) c1 st1).2 with
        | error e =>
            rw [hw2] at h4
            simpa [resSt] using h4
        | ok r2 =>
            rw [hw2] at h4
            obtain ⟨rest2, st3⟩ := r2
            simpa [resSt] using h4
      have hdrop : ∀ (c1 : Tree) (st1 : St), P st1 →
          P (resSt (if env.rmdirFails (rp ++ [n]) ||
              !(isNilT (bwdFiles env srcFiles (rp ++ [n]) c1 st1).1) then
              (.error (.rmdirFault (rp ++ [n]), (bwdFiles env srcFiles (rp ++ [n]) c1 st1).2) :
                Except (Fault × St) (Tree × St))
            else
              match bwdDirs env srcFiles rp sctx rest
                  ((((bwdFiles env srcFiles (rp ++ [n]) c1 st1).2.push
                    [⟨Sev.info, EvKind.dirDeleted, ⟨Root.rep, rp ++ [n]⟩⟩]).mark).addMut
                    ⟨MutKind.rmdirM, ⟨Root.rep, rp ++ [n]⟩⟩) with
              | .error e => .error e
              | .ok (rest2, st4) => .ok (rest2, st4))) := by
        intro c1 st1 h1
        have h3 : P (bwdFiles env srcFiles (rp ++ [n]) c1 st1).2 :=
          bwdFiles_st P hP env srcFiles (rp ++ [n]) c1 st1 h1
        cases hrm : (env.rmdirFails (rp ++ [n]) || !(isNilT (bwdFiles env srcFiles
            (rp ++ [n]) c1 st1).1)) with
        | true => simpa [hrm, resSt] using h3
        | false =>
            have h4' : P ((((bwdFiles env srcFiles (rp ++ [n]) c1 st1).2.push
                [⟨Sev.info, EvKind.dirDeleted, ⟨Root.rep, rp ++ [n]⟩⟩]).mark).addMut
                ⟨MutKind.rmdirM, ⟨Root.rep, rp ++ [n]⟩⟩) :=
              hP.2.2.1 _ _ _ rfl rfl h3
            have h4 := ihr rp sctx _ h4'
            cases hw2 : bwdDirs env srcFiles rp sctx rest
                ((((bwdFiles env srcFiles (rp ++ [n]) c1 st1).2.push
                  [⟨Sev.info, EvKind.dirDeleted, ⟨Root.rep, rp ++ [n]⟩⟩]).mark).addMut
                  ⟨MutKind.rmdirM, ⟨Root.rep, rp ++ [n]⟩⟩) with
            | error e =>
                rw [hw2] at h4
                simpa [hrm, hw2, resSt] using h4
            | ok r2 =>
                rw [hw2] at h4
                obtain ⟨rest2, st3⟩ := r2
                simpa [hrm, hw2, resSt] using h4
      cases sctx with
      | none =>
          have h2 := ihc (rp ++ [n]) none st h
          cases hw : bwdDirs env srcFiles (rp ++ [n]) none c st with
          | error e =>
              rw [hw] at h2
              simpa [bwdDirs, hw, resSt] using h2
          | ok r1 =>
              rw [hw] at h2
              obtain ⟨c1, st1⟩ := r1
              have := hdrop c1 st1 (by simpa [resSt] using h2)
              simpa [bwdDirs, hw, resSt] using this
      | some s =>
          cases hls : lookupT s n with
          | none =>
              have h2 := ihc (rp ++ [n]) none st h
              cases hw : bwdDirs env srcFiles (rp ++ [n]) none c st with
              | error e =>
                  rw [hw] at h2
                  simpa [bwdDirs, hls, hw, resSt] using h2
              | ok r1 =>
                  rw [hw] at h2
                  obtain ⟨c1, st1⟩ := r1
                  have := hdrop c1 st1 (by simpa [resSt] using h2)
                  simpa [bwdDirs, hls, hw, resSt] using this
          | some s0 =>
              cases s0 with
              | sfile d0 =>
                  have h2 := ihc (rp ++ [n]) none st h
                  cases hw : bwdDirs env srcFiles (rp ++ [n]) none c st with
                  | error e =>
                      rw [hw] at h2
                      simpa [bwdDirs, hls, hw, resSt] using h2
                  | ok r1 =>
                      rw [hw] at h2
                      obtain ⟨c1, st1⟩ := r1
                      have := hkeep none c1 st1 (by simpa [resSt] using h2)
                      simpa [bwdDirs, hls, hw, resSt] using this
              | sdir sc =>
                  have h2 := ihc (rp ++ [n]) (some sc) st h
                  cases hw : bwdDirs env srcFiles (rp ++ [n]) (some sc) c st with
                  | error e =>
                      rw [hw] at h2
                      simpa [bwdDirs, hls, hw, resSt] using h2
                  | ok r1 =>
                      rw [hw] at h2
                      obtain ⟨c1, st1⟩ := r1
                      have := hkeep (some sc) c1 st1 (by simpa [resSt] using h2)
                      simpa [bwdDirs, hls, hw, resSt] using this

theorem perform_sync_st (P : St → Prop) (hP : StepClosed P) (env : Env)
    (source replica : Tree) (h : P St.init) :
    P (runSt (perform_sync env source replica)) := by
  have h1 : P (fwdFiles env [] source (.ctxDir replica) St.init).2 :=
    fwdFiles_st P hP env [] source _ _ h
  have h2 := fwdWalk_st P hP env source [] (fwdFiles env [] source (.ctxDir replica) St.init).1
    (fwdFiles env [] source (.ctxDir replica) St.init).2 h1
  cases hw : fwdWalk env [] source (fwdFiles env [] source (.ctxDir replica) St.init).1
      (fwdFiles env [] source (.ctxDir replica) St.init).2 with
  | error e =>
      rw [hw] at h2
      simpa [perform_sync, hw, resSt, runSt] using h2
  | ok r2 =>
      rw [hw] at h2
      obtain ⟨ctx2, st2⟩ := r2
      have h3 := bwdDirs_st P hP env st2.srcFiles (ctxTree ctx2) [] (some source) st2
        (by simpa [resSt] using h2)
      cases hw2 : bwdDirs env st2.srcFiles [] (some source) (ctxTree ctx2) st2 with
      | error e =>
          rw [hw2] at h3
          simpa [perform_sync, hw, hw2, resSt, runSt] using h3
      | ok r3 =>
          rw [hw2] at h3
          obtain ⟨rep2, st3⟩ := r3
          have h4 : P (bwdFiles env st3.srcFiles [] rep2 st3).2 :=
            bwdFiles_st P hP env st3.srcFiles [] rep2 st3 (by simpa [resSt] using h3)
          simpa [perform_sync, hw, hw2, runSt] using h4

theorem repOnly_closed : StepClosed (fun st => repOnly st.trace = true) := by
  refine ⟨?_, ?_, ?_, ?_⟩
  · intro st evs _ h
    simpa using h
  · intro st p h
    simpa using h
  · intro st e m _ hm h
    have hm1 : repOnly [m] = true := by simp [repOnly, hm]
    simp [h, hm1]
  · intro st e m _ hm h
    have hm1 : repOnly [m] = true := by simp [repOnly, hm]
    simp [h, hm1]

theorem evChanged_closed (st0 : St) : StepClosed (evChanged st0) := by
  refine ⟨?_, ?_, ?_, ?_⟩
  · rintro st evs hno ⟨l, h1, h2⟩
    exact ⟨l ++ evs, by simp [h1], by simp [h2, List.any_append, hno, Bool.or_assoc]⟩
  · rintro st p ⟨l, h1, h2⟩
    exact ⟨l, by simpa using h1, by simpa using h2⟩
  · rintro st e m he _ ⟨l, h1, h2⟩
    refine ⟨l ++ [e], by simp [h1], ?_⟩
    simp [List.any_append, he]
  · rintro st e m he _ ⟨l, h1, h2⟩
    refine ⟨l ++ [e], by simp [h1], ?_⟩
    simp [h2, List.any_append, he, Bool.or_assoc]

theorem perform_sync_changed (env : Env) (s r t : Tree) (b : Bool) (st : St)
    (h : perform_sync env s r = .ok (t, b, st)) : b = st.changed := by
  simp only [perform_sync] at h
  split at h
  · simp at h
  · split at h
    · simp at h
    · simp only [Except.ok.injEq, Prod.mk.injEq] at h
      obtain ⟨-, hb, hs⟩ := h
      subst hb
      subst hs
      rfl

/-- C10: every filesystem mutation an engine run performs — directory
creation, file write, file removal, directory removal — targets a location
under the replica root: the trace of a run, faulted or not, contains only
replica-rooted mutations, so the source tree is never created into,
modified or deleted from. -/
theorem C10_run_mutates_replica_only (env : Env) (source replica : Tree) :
    repOnly (runSt (perform_sync env source replica)).trace = true :=
  perform_sync_st (fun st => repOnly st.trace = true) repOnly_closed env source replica rfl

/-- C9: the `changes` flag returned by a completed run is set exactly when
some change event (file created, file updated, file deleted, directory
deleted) was logged.  In particular a file whose copy failed after the
retries contributes only warning/copy-failure events, which are not change
events (`isChangeEv` is false on them), so it does not set the flag by
itself, while any successful create, update or delete in the same run
forces the flag to true. -/
theorem C9_changed_iff_change_event (env : Env) (s r t : Tree) (b : Bool) (st : St)
    (h : perform_sync env s r = .ok (t, b, st)) :
    b = st.events.any isChangeEv := by
  have hch := perform_sync_changed env s r t b st h
  have hev := perform_sync_st (evChanged St.init) (evChanged_closed St.init) env s r
    ⟨[], by simp [St.init], by simp [St.init]⟩
  rw [h] at hev
  obtain ⟨l, h1, h2⟩ := hev
  have hl : l = st.events := by simpa [runSt, St.init] using h1.symm
  have h2' : st.changed = l.any isChangeEv := by simpa [runSt, St.init] using h2
  rw [hch, h2', hl]

/-- Witness for C9 at a concrete run: one source file, empty replica. -/
theorem C9_witness :
    perform_sync noFaultEnv (.ffile "a" ⟨"h", 0, true⟩ .fnil) .fnil =
      .ok (.ffile "a" ⟨"h", 0, true⟩ .fnil, true,
        ⟨true, [⟨.info, .fileCreated, ⟨.rep, ["a"]⟩⟩], [["a"]], [⟨.writeM, ⟨.rep, ["a"]⟩⟩]⟩) ∧
    true = (St.mk true [⟨.info, .fileCreated, ⟨.rep, ["a"]⟩⟩] [["a"]]
      [⟨.writeM, ⟨.rep, ["a"]⟩⟩]).events.any isChangeEv :=
  have h : perform_sync noFaultEnv (.ffile "a" ⟨"h", 0, true⟩ .fnil) .fnil =
      .ok (.ffile "a" ⟨"h", 0, true⟩ .fnil, true,
        ⟨true, [⟨.info, .fileCreated, ⟨.rep, ["a"]⟩⟩], [["a"]], [⟨.writeM, ⟨.rep, ["a"]⟩⟩]⟩) := rfl
  ⟨h, C9_changed_iff_change_event noFaultEnv _ _ _ _ _ h⟩

/-- C3 counterexample: when every copy attempt fails with max_retries = 3,
the copier logs one warning per failed attempt, hence 3 warnings — not
max_retries - 1 = 2 as the claim states. -/
theorem C3_counterexample :
    warnCount (copy_file_with_retries (fun _ => false) ⟨.src, ["a"]⟩ ⟨.rep, ["a"]⟩ 3 2).2.2 = 3 ∧
    warnCount (copy_file_with_retries (fun _ => false) ⟨.src, ["a"]⟩ ⟨.rep, ["a"]⟩ 3 2).2.2 ≠ 3 - 1 := by
  constructor
  · rfl
  · decide

/-- C3 (amended): when every attempt fails the copier makes exactly 3
attempts, logs exactly 3 warnings and 1 error and returns failure; and the
engine run still completes and reports the other successful changes (here
the copy of "a" fails every attempt while directory "d" and file "d/b" are
still created and the run returns changed = true). -/
theorem C3_retry_then_fail :
    (∀ ok : Nat → Bool, (∀ a, 1 ≤ a → a ≤ 3 → ok a = false) → ∀ (s d : Loc) (dl : Nat),
      copy_file_with_retries ok s d 3 dl =
        (false, 3, [⟨.warning, .copyAttemptFailed 1, d⟩, ⟨.warning, .copyAttemptFailed 2, d⟩,
          ⟨.warning, .copyAttemptFailed 3, d⟩, ⟨.error, .copyFailed, d⟩])) ∧
    (∀ (c1 c2 : String) (m1 m2 : Nat),
      perform_sync exEnvCopyA
        (.ffile "a" ⟨c1, m1, true⟩ (.fdir "d" (.ffile "b" ⟨c2, m2, true⟩ .fnil) .fnil)) .fnil =
        .ok (.fdir "d" (.ffile "b" ⟨c2, m2, true⟩ .fnil) .fnil, true, ⟨true,
          [⟨.warning, .copyAttemptFailed 1, ⟨.rep, ["a"]⟩⟩,
           ⟨.warning, .copyAttemptFailed 2, ⟨.rep, ["a"]⟩⟩,
           ⟨.warning, .copyAttemptFailed 3, ⟨.rep, ["a"]⟩⟩,
           ⟨.error, .copyFailed, ⟨.rep, ["a"]⟩⟩,
           ⟨.info, .dirCreated, ⟨.rep, ["d"]⟩⟩,
           ⟨.info, .fileCreated, ⟨.rep, ["d", "b"]⟩⟩],
          [["a"], ["d", "b"]],
          [⟨.mkdirM, ⟨.rep, ["d"]⟩⟩, ⟨.writeM, ⟨.rep, ["d", "b"]⟩⟩]⟩)) := by
  constructor
  · intro ok h s d dl
    have h1 := h 1 (by norm_num) (by norm_num)
    have h2 := h 2 (by norm_num) (by norm_num)
    have h3 := h 3 (by norm_num) (by norm_num)
    simp [copy_file_with_retries, copyLoop, h1, h2, h3]
  · intro c1 c2 m1 m2
    rfl

/-- Witness for C3 (amended), discharging the all-attempts-fail hypothesis
at the constant-false attempt oracle. -/
theorem C3_witness :
    (∀ a, 1 ≤ a → a ≤ 3 → (fun _ => false : Nat → Bool) a = false) ∧
    copy_file_with_retries (fun _ => false) ⟨.src, ["s"]⟩ ⟨.rep, ["t"]⟩ 3 2 =
      (false, 3, [⟨.warning, .copyAttemptFailed 1, ⟨.rep, ["t"]⟩⟩,
        ⟨.warning, .copyAttemptFailed 2, ⟨.rep, ["t"]⟩⟩,
        ⟨.warning, .copyAttemptFailed 3, ⟨.rep, ["t"]⟩⟩,
        ⟨.error, .copyFailed, ⟨.rep, ["t"]⟩⟩]) :=
  ⟨fun _ _ _ => rfl, C3_retry_then_fail.1 _ (fun _ _ _ => rfl) _ _ 2⟩

/-- C5 counterexample: with an injected `os.makedirs` failure at replica
path "a", the run raises an uncaught fault (it is fatal), logs no error
event at all, and never processes the remaining entries (directory "b" and
file "b/f" produce no events, no source-file record, no mutation). -/
theorem C5_counterexample :
    perform_sync exEnvMkdirA exSrcC5 .fnil = .error (.mkdirFault ["a"], St.init) ∧
    countErrors (runSt (perform_sync exEnvMkdirA exSrcC5 .fnil)).events = 0 ∧
    (runSt (perform_sync exEnvMkdirA exSrcC5 .fnil)).srcFiles = [] :=
  ⟨rfl, rfl, rfl⟩

/-- C5 (amended): a directory creation or removal failure during a run is an
uncaught fault that aborts the run at that point with no error event (first
two conjuncts: an injected mkdir failure aborts before any content of the
directory is visited, whatever that content is; an injected rmdir failure
aborts before the remaining replica files are processed), whereas a file
delete failure is caught, reported as an error event, and the rest of the
pass still runs (third conjunct: "y" fails to delete and is reported, "z"
is still deleted and the run completes). -/
theorem C5_dirop_failures_are_fatal :
    (∀ c : Tree, perform_sync exEnvMkdirA (.fdir "a" c .fnil) .fnil =
      .error (.mkdirFault ["a"], St.init)) ∧
    (perform_sync exEnvRmdirX .fnil (.fdir "x" .fnil (.ffile "z" ⟨"z", 0, true⟩ .fnil)) =
      .error (.rmdirFault ["x"], St.init)) ∧
    (perform_sync exEnvRemoveY .fnil (.ffile "y" ⟨"y", 0, true⟩ (.ffile "z" ⟨"z", 0, true⟩ .fnil)) =
      .ok (.ffile "y" ⟨"y", 0, true⟩ .fnil, true, ⟨true,
        [⟨.error, .deleteFailed, ⟨.rep, ["y"]⟩⟩, ⟨.info, .fileDeleted, ⟨.rep, ["z"]⟩⟩],
        [], [⟨.removeM, ⟨.rep, ["z"]⟩⟩]⟩)) :=
  ⟨fun _ => rfl, rfl, rfl⟩

/-- C6 counterexample: a pass fault is not caught and does not let the loop
continue: with a faulting first pass and a second pass available, the
scheduler loop ends by the uncaught fault after one tick — the second tick
never runs. -/
theorem C6_counterexample :
    sync_loop [.passFault (.mkdirFault ["a"]), .passOk true] =
      (.uncaughtFault (.mkdirFault ["a"]), 1) := rfl

/-- C6 (amended): the scheduler loop guards only `KeyboardInterrupt`, and
even that terminates the loop rather than continuing; any other pass fault
propagates uncaught and terminates the loop at that tick, regardless of the
ticks that would have followed. -/
theorem C6_loop_stops_at_first_fault (pre post : List TickOutcome) (f : Fault)
    (h : ∀ t ∈ pre, ∃ b, t = TickOutcome.passOk b) :
    sync_loop (pre ++ TickOutcome.passFault f :: post) = (.uncaughtFault f, pre.length + 1) ∧
    sync_loop (pre ++ TickOutcome.kbInterrupt :: post) = (.userInterrupted, pre.length + 1) := by
  induction pre with
  | nil => exact ⟨rfl, rfl⟩
  | cons t rest ih =>
      obtain ⟨b, rfl⟩ := h t (by simp)
      have hr := ih (fun u hu => h u (by simp [hu]))
      refine ⟨?_, ?_⟩
      · simp [sync_loop, hr.1]
      · simp [sync_loop, hr.2]

/-- Witness for C6 (amended): one successful tick, then the fault. -/
theorem C6_witness :
    (∀ t ∈ [TickOutcome.passOk false], ∃ b, t = TickOutcome.passOk b) ∧
    sync_loop [TickOutcome.passOk false, TickOutcome.passFault (.mkdirFault []),
      TickOutcome.passOk true] = (.uncaughtFault (.mkdirFault []), 2) ∧
    sync_loop [TickOutcome.passOk false, TickOutcome.kbInterrupt,
      TickOutcome.passOk true] = (.userInterrupted, 2) := by
  refine ⟨fun t ht => ⟨false, by simpa using ht⟩, ?_⟩
  have h := C6_loop_stops_at_first_fault [TickOutcome.passOk false]
    [TickOutcome.passOk true] (.mkdirFault []) (fun t ht => ⟨false, by simpa using ht⟩)
  exact ⟨h.1, h.2⟩

/-- C8 counterexample: the run result does not carry an error count — no
function of the returned value recovers the number of error events, since
two runs returning the same value (changed = false) log 0 and 2 error
events respectively (the second compares two unreadable files). -/
theorem C8_counterexample :
    ¬ ∃ f : Bool → Nat, ∀ (env : Env) (s r t : Tree) (b : Bool) (st : St),
      perform_sync env s r = .ok (t, b, st) → countErrors st.events = f b := by
  rintro ⟨f, hf⟩
  have h1 := hf noFaultEnv (.ffile "a" ⟨"x", 1, true⟩ .fnil) (.ffile "a" ⟨"x", 2, true⟩ .fnil)
    (.ffile "a" ⟨"x", 2, true⟩ .fnil) false ⟨false, [], [["a"]], []⟩ rfl
  have h2 := hf noFaultEnv exSrcU exRepU exRepU false
    ⟨false, [⟨.error, .md5Unreadable, ⟨.src, ["a"]⟩⟩, ⟨.error, .md5Unreadable, ⟨.rep, ["a"]⟩⟩],
      [["a"]], []⟩ rfl
  simp [countErrors] at h1 h2
  omega

/-- C8 (amended): `perform_sync` returns only the boolean changed flag; the
errors encountered are logged as events but no count of them is part of the
returned value: two runs with the same returned flag (false) log 0 and 2
error-level events respectively. -/
theorem C8_returns_only_changed_flag :
    perform_sync noFaultEnv (.ffile "a" ⟨"x", 1, true⟩ .fnil) (.ffile "a" ⟨"x", 2, true⟩ .fnil) =
      .ok (.ffile "a" ⟨"x", 2, true⟩ .fnil, false, ⟨false, [], [["a"]], []⟩) ∧
    perform_sync noFaultEnv exSrcU exRepU =
      .ok (exRepU, false, ⟨false,
        [⟨.error, .md5Unreadable, ⟨.src, ["a"]⟩⟩, ⟨.error, .md5Unreadable, ⟨.rep, ["a"]⟩⟩],
        [["a"]], []⟩) ∧
    countErrors [] = 0 ∧
    countErrors [⟨.error, .md5Unreadable, ⟨.src, ["a"]⟩⟩,
      ⟨.error, .md5Unreadable, ⟨.rep, ["a"]⟩⟩] = 2 :=
  ⟨rfl, rfl, rfl, rfl⟩

@[simp] theorem appendT_fnil_left (u : Tree) : appendT .fnil u = u := rfl

theorem appendT_assoc (a b u : Tree) :
    appendT (appendT a b) u = appendT a (appendT b u) := by
  induction a with
  | fnil => rfl
  | ffile n d r ih => simp [appendT, ih]
  | fdir n c r ihc ihr => simp [appendT, ihr]

@[simp] theorem appendT_fnil_right (a : Tree) : appendT a .fnil = a := by
  induction a with
  | fnil => rfl
  | ffile n d r ih => simp [appendT, ih]
  | fdir n c r ihc ihr => simp [appendT, ihr]

theorem namesT_append (a b : Tree) : namesT (appendT a b) = namesT a ++ namesT b := by
  induction a with
  | fnil => rfl
  | ffile n d r ih => simp [appendT, namesT, ih]
  | fdir n c r ihc ihr => simp [appendT, namesT, ihr]

theorem lookupT_append (a b : Tree) (n : String) :
    lookupT (appendT a b) n =
      match lookupT a n with
      | none => lookupT b n
      | some s => some s := by
  induction a with
  | fnil => rfl
  | ffile m d r ih =>
      by_cases h : m = n
      · simp [appendT, lookupT, h]
      · simp [appendT, lookupT, h, ih]
  | fdir m c r ihc ihr =>
      by_cases h : m = n
      · simp [appendT, lookupT, h]
      · simp [appendT, lookupT, h, ihr]

theorem lookupT_eq_none_iff (t : Tree) (n : String) :
    lookupT t n = none ↔ ¬ n ∈ namesT t := by
  induction t with
  | fnil => simp [lookupT, namesT]
  | ffile m d r ih =>
      by_cases h : m = n
      · simp [lookupT, namesT, h]
      · have h2 : ¬ n = m := fun he => h he.symm
        simp [lookupT, namesT, h, h2, ih]
  | fdir m c r ihc ihr =>
      by_cases h : m = n
      · simp [lookupT, namesT, h]
      · have h2 : ¬ n = m := fun he => h he.symm
        simp [lookupT, namesT, h, h2, ihr]

theorem setSlotT_absent (t : Tree) (n : String) (s : Slot) (h : lookupT t n = none) :
    setSlotT t n s = appendT t (oneT n s) := by
  induction t with
  | fnil => cases s <;> rfl
  | ffile m d r ih =>
      rw [lookupT] at h
      by_cases hm : m = n
      · simp [hm] at h
      · simp [hm] at h
        simp [setSlotT, hm, appendT, ih h]
  | fdir m c r ihc ihr =>
      rw [lookupT] at h
      by_cases hm : m = n
      · simp [hm] at h
      · simp [hm] at h
        simp [setSlotT, hm, appendT, ihr h]

theorem setSlotT_append_one (u : Tree) (n : String) (s0 s1 : Slot)
    (h : lookupT u n = none) :
    setSlotT (appendT u (oneT n s0)) n s1 = appendT u (oneT n s1) := by
  induction u with
  | fnil =>
      cases s0 <;> cases s1 <;> simp [appendT, oneT, setSlotT]
  | ffile m d r ih =>
      rw [lookupT] at h
      by_cases hm : m = n
      · simp [hm] at h
      · simp [hm] at h
        simp [appendT, setSlotT, hm, ih h]
  | fdir m c r ihc ihr =>
      rw [lookupT] at h
      by_cases hm : m = n
      · simp [hm] at h
      · simp [hm] at h
        simp [appendT, setSlotT, hm, ihr h]

theorem sizeOf_of_lookup_sdir (t : Tree) (n : String) (c : Tree)
    (h : lookupT t n = some (.sdir c)) : sizeOf c < sizeOf t := by
  induction t with
  | fnil => simp [lookupT] at h
  | ffile m d r ih =>
      rw [lookupT] at h
      by_cases hm : m = n
      · simp [hm] at h
      · simp [hm] at h
        have := ih h
        simp only [Tree.ffile.sizeOf_spec]
        omega
  | fdir m c0 r ihc ihr =>
      rw [lookupT] at h
      by_cases hm : m = n
      · simp [hm] at h
        subst h
        simp only [Tree.fdir.sizeOf_spec]
        omega
      · simp [hm] at h
        have := ihr h
        simp only [Tree.fdir.sizeOf_spec]
        omega

theorem WfT_rest_file (n : String) (d : FileData) (r : Tree) (h : WfT (.ffile n d r) = true) :
    WfT r = true := by
  simp [WfT] at h
  exact h.2

theorem WfT_rest_dir (n : String) (c r : Tree) (h : WfT (.fdir n c r) = true) :
    WfT r = true := by
  simp [WfT] at h
  exact h.2

theorem WfT_child (t : Tree) (n : String) (c : Tree) (hw : WfT t = true)
    (h : lookupT t n = some (.sdir c)) : WfT c = true := by
  induction t with
  | fnil => simp [lookupT] at h
  | ffile m d r ih =>
      rw [lookupT] at h
      by_cases hm : m = n
      · simp [hm] at h
      · simp [hm] at h
        exact ih (WfT_rest_file m d r hw) h
  | fdir m c0 r ihc ihr =>
      rw [lookupT] at h
      by_cases hm : m = n
      · simp [hm] at h
        subst h
        simp [WfT] at hw
        exact hw.1.2
      · simp [hm] at h
        exact ihr (WfT_rest_dir m c0 r hw) h

theorem levelFileNames_sub (t : Tree) (n : String) (h : n ∈ levelFileNamesT t) :
    n ∈ namesT t := by
  induction t with
  | fnil => simp [levelFileNamesT] at h
  | ffile m d r ih =>
      rw [levelFileNamesT] at h
      rcases List.mem_cons.mp h with h1 | h1
      · simp [namesT, h1]
      · simp [namesT, ih h1]
  | fdir m c r ihc ihr =>
      rw [levelFileNamesT] at h
      simp [namesT, ihr h]

theorem levelDirs_sub (t : Tree) (n : String) (c : Tree) (h : (n, c) ∈ levelDirsT t) :
    n ∈ namesT t := by
  induction t with
  | fnil => simp [levelDirsT] at h
  | ffile m d r ih =>
      rw [levelDirsT] at h
      simp [namesT, ih h]
  | fdir m c0 r ihc ihr =>
      rw [levelDirsT] at h
      rcases List.mem_cons.mp h with h1 | h1
      · simp only [Prod.mk.injEq] at h1
        simp [namesT, h1.1]
      · simp [namesT, ihr h1]

theorem lookup_levelFile (t : Tree) (n : String) (hw : WfT t = true)
    (h : n ∈ levelFileNamesT t) : ∃ d, lookupT t n = some (.sfile d) := by
  induction t with
  | fnil => simp [levelFileNamesT] at h
  | ffile m d r ih =>
      rw [levelFileNamesT] at h
      rcases List.mem_cons.mp h with h1 | h1
      · exact ⟨d, by simp [lookupT, h1]⟩
      · have hm : ¬ m = n := by
          intro he
          subst he
          simp [WfT] at hw
          exact hw.1 (levelFileNames_sub r m h1)
        obtain ⟨d2, hd2⟩ := ih (WfT_rest_file m d r hw) h1
        exact ⟨d2, by simp [lookupT, hm, hd2]⟩
  | fdir m c r ihc ihr =>
      rw [levelFileNamesT] at h
      have hm : ¬ m = n := by
        intro he
        subst he
        simp [WfT] at hw
        exact hw.1.1 (levelFileNames_sub r m h)
      obtain ⟨d2, hd2⟩ := ihr (WfT_rest_dir m c r hw) h
      exact ⟨d2, by simp [lookupT, hm, hd2]⟩

theorem lookup_levelDir (t : Tree) (n : String) (c : Tree) (hw : WfT t = true)
    (h : (n, c) ∈ levelDirsT t) : lookupT t n = some (.sdir c) := by
  induction t with
  | fnil => simp [levelDirsT] at h
  | ffile m d r ih =>
      rw [levelDirsT] at h
      have hm : ¬ m = n := by
        intro he
        subst he
        simp [WfT] at hw
        exact hw.1 (levelDirs_sub r m c h)
      simp [lookupT, hm, ih (WfT_rest_file m d r hw) h]
  | fdir m c0 r ihc ihr =>
      rw [levelDirsT] at h
      rcases List.mem_cons.mp h with h1 | h1
      · simp only [Prod.mk.injEq] at h1
        obtain ⟨h2, h3⟩ := h1
        subst h2
        subst h3
        simp [lookupT]
      · have hm : ¬ m = n := by
          intro he
          subst he
          simp [WfT] at hw
          exact hw.1.1 (levelDirs_sub r m c h1)
        simp [lookupT, hm, ihr (WfT_rest_dir m c0 r hw) h1]

theorem allReadable_lookup_file (t : Tree) (n : String) (d : FileData)
    (ha : AllReadableT t = true) (h : lookupT t n = some (.sfile d)) :
    d.readable = true := by
  induction t with
  | fnil => simp [lookupT] at h
  | ffile m d0 r ih =>
      rw [lookupT] at h
      simp [AllReadableT] at ha
      by_cases hm : m = n
      · simp [hm] at h
        subst h
        exact ha.1
      · simp [hm] at h
        exact ih ha.2 h
  | fdir m c r ihc ihr =>
      rw [lookupT] at h
      simp [AllReadableT] at ha
      by_cases hm : m = n
      · simp [hm] at h
      · simp [hm] at h
        exact ihr ha.2 h

theorem allReadable_lookup_dir (t : Tree) (n : String) (c : Tree)
    (ha : AllReadableT t = true) (h : lookupT t n = some (.sdir c)) :
    AllReadableT c = true := by
  induction t with
  | fnil => simp [lookupT] at h
  | ffile m d0 r ih =>
      rw [lookupT] at h
      simp [AllReadableT] at ha
      by_cases hm : m = n
      · simp [hm] at h
      · simp [hm] at h
        exact ih ha.2 h
  | fdir m c0 r ihc ihr =>
      rw [lookupT] at h
      simp [AllReadableT] at ha
      by_cases hm : m = n
      · simp [hm] at h
        subst h
        exact ha.1
      · simp [hm] at h
        exact ihr ha.2 h

@[simp] theorem findT_nil (t : Tree) : findT t [] = none := by
  cases t <;> rfl

theorem findT_cons_none (t : Tree) (n : String) (q : Path) (h : lookupT t n = none) :
    findT t (n :: q) = none := by
  cases q <;> simp [findT, h]

theorem findT_cons_file (t : Tree) (n : String) (q : Path) (d : FileData)
    (h : lookupT t n = some (.sfile d)) :
    findT t (n :: q) = if q = [] then some (.sfile d) else none := by
  cases q <;> simp [findT, h]

theorem findT_cons_dir (t : Tree) (n : String) (q : Path) (c : Tree)
    (h : lookupT t n = some (.sdir c)) :
    findT t (n :: q) = if q = [] then some (.sdir c) else findT c q := by
  cases q <;> simp [findT, h]

@[simp] theorem fileAt_nil (t : Tree) : fileAt t [] = none := by
  simp [fileAt]

theorem fileAt_cons_none (t : Tree) (n : String) (q : Path) (h : lookupT t n = none) :
    fileAt t (n :: q) = none := by
  simp [fileAt, findT_cons_none, h]

theorem fileAt_cons_file (t : Tree) (n : String) (q : Path) (d : FileData)
    (h : lookupT t n = some (.sfile d)) :
    fileAt t (n :: q) = if q = [] then some d else none := by
  simp only [fileAt, findT_cons_file t n q d h]
  by_cases hq : q = [] <;> simp [hq]

theorem fileAt_cons_dir (t : Tree) (n : String) (q : Path) (c : Tree)
    (h : lookupT t n = some (.sdir c)) :
    fileAt t (n :: q) = if q = [] then none else fileAt c q := by
  simp only [fileAt, findT_cons_dir t n q c h]
  by_cases hq : q = [] <;> simp [hq, fileAt]

@[simp] theorem dirAt_nil (t : Tree) : dirAt t [] = false := by
  simp [dirAt]

theorem dirAt_cons_none (t : Tree) (n : String) (q : Path) (h : lookupT t n = none) :
    dirAt t (n :: q) = false := by
  simp [dirAt, findT_cons_none, h]

theorem dirAt_cons_file (t : Tree) (n : String) (q : Path) (d : FileData)
    (h : lookupT t n = some (.sfile d)) :
    dirAt t (n :: q) = false := by
  simp only [dirAt, findT_cons_file t n q d h]
  by_cases hq : q = [] <;> simp [hq]

theorem dirAt_cons_dir (t : Tree) (n : String) (q : Path) (c : Tree)
    (h : lookupT t n = some (.sdir c)) :
    dirAt t (n :: q) = if q = [] then true else dirAt c q := by
  simp only [dirAt, findT_cons_dir t n q c h]
  by_cases hq : q = [] <;> simp [hq, dirAt]

theorem subPaths_shape (t : Tree) :
    ∀ p ∈ subPathsR t, ∃ m q, p = m :: q ∧ m ∈ namesT t ∧ q ≠ [] := by
  induction t with
  | fnil => simp [subPathsR]
  | ffile n d r ih =>
      intro p hp
      rw [subPathsR] at hp
      obtain ⟨m, q, h1, h2, h3⟩ := ih p hp
      exact ⟨m, q, h1, by simp [namesT, h2], h3⟩
  | fdir n c r ihc ihr =>
      intro p hp
      rw [subPathsR] at hp
      rcases List.mem_append.mp hp with hp1 | hp1
      · obtain ⟨q, hq, rfl⟩ := List.mem_map.mp hp1
        refine ⟨n, q, rfl, by simp [namesT], ?_⟩
        rcases List.mem_append.mp hq with hq1 | hq1
        · obtain ⟨m2, hm2, rfl⟩ := List.mem_map.mp hq1
          simp
        · obtain ⟨m2, q2, rfl, hm2, hq2⟩ := ihc q hq1
          simp
      · obtain ⟨m, q, h1, h2, h3⟩ := ihr p hp1
        exact ⟨m, q, h1, by simp [namesT, h2], h3⟩

theorem walkPaths_shape (t : Tree) :
    ∀ p ∈ walkPathsR t, ∃ m q, p = m :: q ∧ m ∈ namesT t := by
  intro p hp
  rw [walkPathsR] at hp
  rcases List.mem_append.mp hp with hp1 | hp1
  · obtain ⟨m, hm, rfl⟩ := List.mem_map.mp hp1
    exact ⟨m, [], rfl, levelFileNames_sub t m hm⟩
  · obtain ⟨m, q, h1, h2, h3⟩ := subPaths_shape t p hp1
    exact ⟨m, q, h1, h2⟩

theorem lookupT_ffile (n m : String) (d : FileData) (r : Tree) :
    lookupT (.ffile n d r) m = if n = m then some (.sfile d) else lookupT r m := rfl

theorem lookupT_fdir (n m : String) (c r : Tree) :
    lookupT (.fdir n c r) m = if n = m then some (.sdir c) else lookupT r m := rfl

theorem findT_head_congr (t1 t2 : Tree) (m : String) (q : Path)
    (h : lookupT t1 m = lookupT t2 m) : findT t1 (m :: q) = findT t2 (m :: q) := by
  cases hl : lookupT t2 m with
  | none => rw [findT_cons_none _ _ _ (h.trans hl), findT_cons_none _ _ _ hl]
  | some s =>
      cases s with
      | sfile d => rw [findT_cons_file _ _ _ _ (h.trans hl), findT_cons_file _ _ _ _ hl]
      | sdir c => rw [findT_cons_dir _ _ _ _ (h.trans hl), findT_cons_dir _ _ _ _ hl]

theorem fileAt_head_congr (t1 t2 : Tree) (m : String) (q : Path)
    (h : lookupT t1 m = lookupT t2 m) : fileAt t1 (m :: q) = fileAt t2 (m :: q) := by
  simp [fileAt, findT_head_congr t1 t2 m q h]

theorem dirAt_head_congr (t1 t2 : Tree) (m : String) (q : Path)
    (h : lookupT t1 m = lookupT t2 m) : dirAt t1 (m :: q) = dirAt t2 (m :: q) := by
  simp [dirAt, findT_head_congr t1 t2 m q h]

theorem mem_walkPathsR (t : Tree) (hw : WfT t = true) :
    ∀ p, p ∈ walkPathsR t ↔ (fileAt t p).isSome = true := by
  induction t with
  | fnil =>
      intro p
      cases p with
      | nil => simp [walkPathsR, levelFileNamesT, subPathsR]
      | cons n q =>
          simp [walkPathsR, levelFileNamesT, subPathsR,
            fileAt_cons_none _ _ _ (show lookupT .fnil n = none from rfl)]
  | ffile n d r ih =>
      intro p
      have hw' : ¬ n ∈ namesT r ∧ WfT r = true := by simpa [WfT] using hw
      have hlr : lookupT r n = none := (lookupT_eq_none_iff r n).mpr hw'.1
      have ihr := ih hw'.2
      have hwalk : walkPathsR (.ffile n d r) = [n] :: walkPathsR r := by
        simp [walkPathsR, levelFileNamesT, subPathsR]
      rw [hwalk]
      cases p with
      | nil =>
          simp only [List.mem_cons]
          rw [ihr []]
          simp
      | cons m q =>
          by_cases hm : n = m
          · subst hm
            rw [fileAt_cons_file _ _ _ d (by simp [lookupT_ffile])]
            cases q with
            | nil => simp
            | cons a b =>
                simp only [List.mem_cons]
                rw [ihr (n :: a :: b), fileAt_cons_none _ _ _ hlr]
                simp
          · rw [fileAt_head_congr (.ffile n d r) r m q (by simp [lookupT_ffile, hm])]
            simp only [List.mem_cons]
            rw [ihr (m :: q)]
            have hne : ¬ (m :: q = [n]) := by
              intro he
              rw [List.cons.injEq] at he
              exact hm he.1.symm
            simp [hne]
  | fdir n c r ihc ihr =>
      intro p
      have hw' : (¬ n ∈ namesT r ∧ WfT c = true) ∧ WfT r = true := by simpa [WfT] using hw
      have hlr : lookupT r n = none := (lookupT_eq_none_iff r n).mpr hw'.1.1
      have ihc2 := ihc hw'.1.2
      have ihr2 := ihr hw'.2
      have hsub : subPathsR (.fdir n c r) =
          (walkPathsR c).map (fun p0 => n :: p0) ++ subPathsR r := by
        rw [subPathsR, walkPathsR]
      have hmem : ∀ x, x ∈ walkPathsR (.fdir n c r) ↔
          (x ∈ walkPathsR r ∨ ∃ q0 ∈ walkPathsR c, n :: q0 = x) := by
        intro x
        constructor
        · intro hx
          rw [walkPathsR] at hx
          rcases List.mem_append.mp hx with h1 | h1
          · exact Or.inl (List.mem_append.mpr (Or.inl h1))
          · rw [hsub] at h1
            rcases List.mem_append.mp h1 with h2 | h2
            · obtain ⟨q0, hq0, rfl⟩ := List.mem_map.mp h2
              exact Or.inr ⟨q0, hq0, rfl⟩
            · exact Or.inl (List.mem_append.mpr (Or.inr h2))
        · rintro (h1 | ⟨q0, hq0, rfl⟩)
          · rw [walkPathsR]
            rcases List.mem_append.mp h1 with h2 | h2
            · exact List.mem_append.mpr (Or.inl h2)
            · refine List.mem_append.mpr (Or.inr ?_)
              rw [hsub]
              exact List.mem_append.mpr (Or.inr h2)
          · rw [walkPathsR]
            refine List.mem_append.mpr (Or.inr ?_)
            rw [hsub]
            exact List.mem_append.mpr (Or.inl (List.mem_map.mpr ⟨q0, hq0, rfl⟩))
      rw [hmem p]
      cases p with
      | nil =>
          rw [ihr2 []]
          simp
      | cons m q =>
          by_cases hm : n = m
          · subst hm
            rw [fileAt_cons_dir _ _ _ c (by simp [lookupT_fdir])]
            rw [ihr2 (n :: q), fileAt_cons_none _ _ _ hlr]
            cases q with
            | nil =>
                constructor
                · rintro (h1 | ⟨q0, hq0, he⟩)
                  · simp at h1
                  · rw [List.cons.injEq] at he
                    rw [he.2] at hq0
                    rw [ihc2 []] at hq0
                    simp at hq0
                · intro h1
                  simp at h1
            | cons a b =>
                constructor
                · rintro (h1 | ⟨q0, hq0, he⟩)
                  · simp at h1
                  · rw [List.cons.injEq] at he
                    rw [he.2] at hq0
                    rw [ihc2 (a :: b)] at hq0
                    simpa using hq0
                · intro h1
                  refine Or.inr ⟨a :: b, ?_, rfl⟩
                  rw [ihc2 (a :: b)]
                  simpa using h1
          · rw [fileAt_head_congr (.fdir n c r) r m q (by simp [lookupT_fdir, hm])]
            rw [ihr2 (m :: q)]
            constructor
            · rintro (h1 | ⟨q0, hq0, he⟩)
              · exact h1
              · rw [List.cons.injEq] at he
                exact absurd he.1 hm
            · exact Or.inl

theorem fwdFiles_srcFiles (env : Env) (rp : Path) :
    ∀ (src : Tree) (ctx : FwdCtx) (st : St),
      (fwdFiles env rp src ctx st).2.srcFiles =
        st.srcFiles ++ (levelFileNamesT src).map (fun n => rp ++ [n]) := by
  intro src
  induction src with
  | fnil => intro ctx st; simp [fwdFiles, levelFileNamesT]
  | ffile n d rest ih =>
      intro ctx st
      cases ctx with
      | blocked => simp [fwdFiles, ih, levelFileNamesT]
      | ctxDir t =>
          cases hl : lookupT t n with
          | none =>
              simp only [fwdFiles, hl]
              split <;> simp [ih, levelFileNamesT]
          | some s =>
              cases s with
              | sfile dd =>
                  simp only [fwdFiles, hl]
                  split
                  · split <;> simp [ih, levelFileNamesT]
                  · simp [ih, levelFileNamesT]
              | sdir c =>
                  simp only [fwdFiles, hl]
                  split
                  · split <;> simp [ih, levelFileNamesT]
                  · simp [ih, levelFileNamesT]
  | fdir n c rest ihc ihr =>
      intro ctx st
      simp [fwdFiles, ihr, levelFileNamesT]

theorem fwdWalk_srcFiles (env : Env) :
    ∀ (src : Tree) (rp : Path) (ctx : FwdCtx) (st : St) (ctx2 : FwdCtx) (st2 : St),
      fwdWalk env rp src ctx st = .ok (ctx2, st2) →
      st2.srcFiles = st.srcFiles ++ (subPathsR src).map (fun p => rp ++ p) := by
  intro src
  induction src with
  | fnil =>
      intro rp ctx st ctx2 st2 h
      simp only [fwdWalk, Except.ok.injEq, Prod.mk.injEq] at h
      rw [← h.2]
      simp [subPathsR]
  | ffile n d rest ih =>
      intro rp ctx st ctx2 st2 h
      simp only [fwdWalk] at h
      rw [ih rp ctx st ctx2 st2 h]
      simp [subPathsR]
  | fdir n c rest ihc ihr =>
      intro rp ctx st ctx2 st2 h
      cases ctx with
      | blocked => simp [fwdWalk] at h
      | ctxDir t =>
          cases hl : lookupT t n with
          | some s =>
              cases s with
              | sfile dd =>
                  simp only [fwdWalk, hl] at h
                  cases hw : fwdWalk env (rp ++ [n]) c (fwdFiles env (rp ++ [n]) c .blocked st).1
                      (fwdFiles env (rp ++ [n]) c .blocked st).2 with
                  | error e => rw [hw] at h; simp at h
                  | ok r2 =>
                      rw [hw] at h
                      simp only [] at h
                      have h1 := ihc (rp ++ [n]) _ _ _ _ hw
                      have h2 := ihr rp _ _ _ _ h
                      rw [h2, h1, fwdFiles_srcFiles env (rp ++ [n]) c .blocked st]
                      simp [subPathsR, List.append_assoc, Function.comp_def]
              | sdir w =>
                  simp only [fwdWalk, hl] at h
                  cases hw : fwdWalk env (rp ++ [n]) c (fwdFiles env (rp ++ [n]) c (.ctxDir w) st).1
                      (fwdFiles env (rp ++ [n]) c (.ctxDir w) st).2 with
                  | error e => rw [hw] at h; simp at h
                  | ok r2 =>
                      rw [hw] at h
                      obtain ⟨cc2, cst2⟩ := r2
                      simp only [] at h
                      have h1 := ihc (rp ++ [n]) _ _ _ _ hw
                      have h2 := ihr rp _ _ _ _ h
                      rw [h2, h1, fwdFiles_srcFiles env (rp ++ [n]) c (.ctxDir w) st]
                      simp [subPathsR, List.append_assoc, Function.comp_def]
          | none =>
              cases hmk : env.mkdirFails (rp ++ [n]) with
              | true => simp [fwdWalk, hl, hmk] at h
              | false =>
                  simp only [fwdWalk, hl, hmk, Bool.false_eq_true, if_false] at h
                  cases hw : fwdWalk env (rp ++ [n]) c
                      (fwdFiles env (rp ++ [n]) c (.ctxDir .fnil)
                        ((st.push [⟨Sev.info, EvKind.dirCreated, ⟨Root.rep, rp ++ [n]⟩⟩]).addMut
                          ⟨MutKind.mkdirM, ⟨Root.rep, rp ++ [n]⟩⟩)).1
                      (fwdFiles env (rp ++ [n]) c (.ctxDir .fnil)
                        ((st.push [⟨Sev.info, EvKind.dirCreated, ⟨Root.rep, rp ++ [n]⟩⟩]).addMut
                          ⟨MutKind.mkdirM, ⟨Root.rep, rp ++ [n]⟩⟩)).2 with
                  | error e => rw [hw] at h; simp at h
                  | ok r2 =>
                      rw [hw] at h
                      obtain ⟨cc2, cst2⟩ := r2
                      simp only [] at h
                      have h1 := ihc (rp ++ [n]) _ _ _ _ hw
                      have h2 := ihr rp _ _ _ _ h
                      rw [h2, h1, fwdFiles_srcFiles env (rp ++ [n]) c (.ctxDir .fnil)]
                      simp [subPathsR, List.append_assoc, Function.comp_def]

@[simp] theorem noFaultEnv_copy (p : Path) (a : Nat) : noFaultEnv.copyFails p a = false := rfl

@[simp] theorem noFaultEnv_remove (p : Path) : noFaultEnv.removeFails p = false := rfl

@[simp] theorem noFaultEnv_mkdir (p : Path) : noFaultEnv.mkdirFails p = false := rfl

@[simp] theorem noFaultEnv_rmdir (p : Path) : noFaultEnv.rmdirFails p = false := rfl

theorem copy_ok_noFault (p : Path) (s d : Loc) :
    copy_file_with_retries (copyOk noFaultEnv true p) s d 3 2 = (true, 1, []) := by
  simp [copy_file_with_retries, copyLoop, copyOk, noFaultEnv]

theorem namesT_filesCopy (t : Tree) : namesT (filesCopyT t) = levelFileNamesT t := by
  induction t with
  | fnil => rfl
  | ffile n d r ih => simp [filesCopyT, namesT, levelFileNamesT, ih]
  | fdir n c r ihc ihr => simp [filesCopyT, namesT, levelFileNamesT, ihr]

theorem levelDir_not_levelFile (t : Tree) (n : String) (c0 : Tree) (hw : WfT t = true)
    (h : (n, c0) ∈ levelDirsT t) : ¬ n ∈ levelFileNamesT t := by
  intro hf
  obtain ⟨d, hd⟩ := lookup_levelFile t n hw hf
  rw [lookup_levelDir t n c0 hw h] at hd
  simp at hd

theorem appendT_one_file (n : String) (d : FileData) (w : Tree) :
    appendT (.ffile n d .fnil) w = .ffile n d w := by
  simp [appendT]

theorem appendT_one_dir (n : String) (c w : Tree) :
    appendT (.fdir n c .fnil) w = .fdir n c w := by
  simp [appendT]

theorem fwdFiles_create (rp : Path) :
    ∀ (src u : Tree) (st : St),
      WfT src = true → AllReadableT src = true →
      (∀ n, n ∈ namesT src → lookupT u n = none) →
      ∃ st2, fwdFiles noFaultEnv rp src (.ctxDir u) st =
        (.ctxDir (appendT u (filesCopyT src)), st2) := by
  intro src
  induction src with
  | fnil =>
      intro u st _ _ _
      exact ⟨st, by simp [fwdFiles, filesCopyT]⟩
  | ffile n d rest ih =>
      intro u st hw ha hn
      have hlu : lookupT u n = none := hn n (by simp [namesT])
      have ha' : d.readable = true ∧ AllReadableT rest = true := by
        simpa [AllReadableT] using ha
      have hw' : ¬ n ∈ namesT rest ∧ WfT rest = true := by simpa [WfT] using hw
      simp only [fwdFiles, hlu, ha'.1, copy_ok_noFault]
      have hmm : ∀ m, m ∈ namesT rest →
          lookupT (setSlotT u n (.sfile ⟨d.content, d.mtime, true⟩)) m = none := by
        intro m hm
        rw [setSlotT_absent u n _ hlu, lookupT_append]
        have hmn : ¬ n = m := fun he => hw'.1 (he ▸ hm)
        rw [hn m (by simp [namesT, hm])]
        simp [oneT, lookupT, hmn]
      obtain ⟨st2, hrec⟩ := ih (setSlotT u n (.sfile ⟨d.content, d.mtime, true⟩))
        ((((st.addSrc (rp ++ [n])).push []).push
          [⟨Sev.info, EvKind.fileCreated, ⟨Root.rep, rp ++ [n]⟩⟩]).mark.addMut
          ⟨MutKind.writeM, ⟨Root.rep, rp ++ [n]⟩⟩)
        hw'.2 ha'.2 hmm
      refine ⟨st2, ?_⟩
      rw [hrec, setSlotT_absent u n _ hlu]
      rw [filesCopyT, appendT_assoc, oneT, appendT_one_file]
      rfl
  | fdir n c rest ihc ihr =>
      intro u st hw ha hn
      simp only [fwdFiles]
      exact ihr u st (WfT_rest_dir n c rest hw)
        (by simp [AllReadableT] at ha; exact ha.2)
        (fun m hm => hn m (by simp [namesT, hm]))

theorem fwdWalk_create :
    ∀ (src : Tree) (rp : Path) (u : Tree) (st : St),
      WfT src = true → AllReadableT src = true →
      (∀ n c0, (n, c0) ∈ levelDirsT src → lookupT u n = none) →
      ∃ st2, fwdWalk noFaultEnv rp src (.ctxDir u) st =
        .ok (.ctxDir (appendT u (dirsMirrorT src)), st2) := by
  intro src
  induction src with
  | fnil =>
      intro rp u st _ _ _
      exact ⟨st, by simp [fwdWalk, dirsMirrorT]⟩
  | ffile n d rest ih =>
      intro rp u st hw ha hn
      simp only [fwdWalk]
      have := ih rp u st (WfT_rest_file n d rest hw)
        (by simp [AllReadableT] at ha; exact ha.2)
        (fun m c0 hm => hn m c0 (by simp [levelDirsT, hm]))
      simpa [dirsMirrorT] using this
  | fdir n c rest ihc ihr =>
      intro rp u st hw ha hn
      have hw' : (¬ n ∈ namesT rest ∧ WfT c = true) ∧ WfT rest = true := by
        simpa [WfT] using hw
      have ha' : AllReadableT c = true ∧ AllReadableT rest = true := by
        simpa [AllReadableT] using ha
      have hlu : lookupT u n = none := hn n c (by simp [levelDirsT])
      simp only [fwdWalk, hlu, noFaultEnv_mkdir, Bool.false_eq_true, if_false]
      obtain ⟨stf, hff⟩ := fwdFiles_create (rp ++ [n]) c .fnil
        ((st.push [⟨Sev.info, EvKind.dirCreated, ⟨Root.rep, rp ++ [n]⟩⟩]).addMut
          ⟨MutKind.mkdirM, ⟨Root.rep, rp ++ [n]⟩⟩)
        hw'.1.2 ha'.1 (fun m _ => rfl)
      rw [hff]
      have hdn : ∀ m c0, (m, c0) ∈ levelDirsT c →
          lookupT (appendT .fnil (filesCopyT c)) m = none := by
        intro m c0 hm
        rw [appendT_fnil_left, lookupT_eq_none_iff, namesT_filesCopy]
        exact levelDir_not_levelFile c m c0 hw'.1.2 hm
      obtain ⟨stw, hfw⟩ := ihc (rp ++ [n]) (appendT .fnil (filesCopyT c)) stf
        hw'.1.2 ha'.1 hdn
      rw [hfw]
      simp only [ctxTree]
      have hone : setSlotT (setSlotT u n (.sdir .fnil)) n
          (.sdir (appendT (appendT .fnil (filesCopyT c)) (dirsMirrorT c))) =
          appendT u (oneT n (.sdir (fwdMirror c))) := by
        rw [setSlotT_absent u n _ hlu]
        rw [setSlotT_append_one u n (.sdir .fnil) _ hlu]
        simp [fwdMirror]
      rw [hone]
      have hrn : ∀ m c0, (m, c0) ∈ levelDirsT rest →
          lookupT (appendT u (oneT n (.sdir (fwdMirror c)))) m = none := by
        intro m c0 hm
        rw [lookupT_append]
        have hmn : ¬ n = m := fun he => hw'.1.1 (he ▸ levelDirs_sub rest m c0 hm)
        rw [hn m c0 (by simp [levelDirsT, hm])]
        simp [oneT, lookupT, hmn]
      obtain ⟨st2, hrest⟩ := ihr rp (appendT u (oneT n (.sdir (fwdMirror c)))) stw
        hw'.2 ha'.2 hrn
      refine ⟨st2, ?_⟩
      rw [hrest]
      rw [appendT_assoc, oneT, appendT_one_dir]
      rfl

theorem sizeOf_tree_pos (t : Tree) : 0 < sizeOf t := by
  cases t <;> simp_arith

theorem BwdKeeps_append (sf : List Path) (rp : Path) :
    ∀ (a b : Tree) (s : Option Tree),
      BwdKeeps sf rp (appendT a b) s = (BwdKeeps sf rp a s && BwdKeeps sf rp b s) := by
  intro a
  induction a with
  | fnil => intro b s; simp [appendT, BwdKeeps]
  | ffile n d r ih => intro b s; simp [appendT, BwdKeeps, ih, Bool.and_assoc]
  | fdir n c r ihc ihr => intro b s; simp [appendT, BwdKeeps, ihr, Bool.and_assoc]

theorem bwdFiles_keep (env : Env) (sf : List Path) (rp : Path) :
    ∀ (rep : Tree) (s : Option Tree) (st : St), BwdKeeps sf rp rep s = true →
      bwdFiles env sf rp rep st = (rep, st) := by
  intro rep
  induction rep with
  | fnil => intro s st _; simp [bwdFiles]
  | ffile n d r ih =>
      intro s st hk
      simp only [BwdKeeps, Bool.and_eq_true] at hk
      have hmem : (rp ++ [n]) ∈ sf := by simpa using hk.1
      simp only [bwdFiles, hmem, if_true]
      rw [ih s st hk.2]
  | fdir n c r ihc ihr =>
      intro s st hk
      simp only [BwdKeeps, Bool.and_eq_true] at hk
      simp only [bwdFiles]
      rw [ihr s st hk.2]
  
theorem bwdDirs_keep (env : Env) (sf : List Path) :
    ∀ (rep : Tree) (rp : Path) (s : Option Tree) (st : St), BwdKeeps sf rp rep s = true →
      bwdDirs env sf rp s rep st = .ok (rep, st) := by
  intro rep
  induction rep with
  | fnil => intro rp s st _; cases s <;> rfl
  | ffile n d r ih =>
      intro rp s st hk
      simp only [BwdKeeps, Bool.and_eq_true] at hk
      simp only [bwdDirs]
      rw [ih rp s st hk.2]
  | fdir n c r ihc ihr =>
      intro rp s st hk
      cases s with
      | none => simp [BwdKeeps] at hk
      | some sf0 =>
          cases hls : lookupT sf0 n with
          | none => simp [BwdKeeps, hls] at hk
          | some s0 =>
              cases s0 with
              | sfile d0 => simp [BwdKeeps, hls] at hk
              | sdir sc =>
                  simp only [BwdKeeps, hls, Bool.and_eq_true] at hk
                  obtain ⟨hk1, hk2⟩ := hk
                  simp only [bwdDirs, hls, ihc (rp ++ [n]) (some sc) st hk1,
                    bwdFiles_keep env sf (rp ++ [n]) c (some sc) st hk1,
                    ihr rp (some sf0) st hk2]

theorem BwdKeeps_filesCopy (sf : List Path) (rp : Path) :
    ∀ (it : Tree) (s : Option Tree),
      (∀ n, n ∈ levelFileNamesT it → (rp ++ [n]) ∈ sf) →
      BwdKeeps sf rp (filesCopyT it) s = true := by
  intro it
  induction it with
  | fnil => intro s _; simp [filesCopyT, BwdKeeps]
  | ffile n d r ih =>
      intro s h
      simp only [filesCopyT, BwdKeeps, Bool.and_eq_true]
      refine ⟨by simpa using h n (by simp [levelFileNamesT]), ?_⟩
      exact ih s (fun m hm => h m (by simp [levelFileNamesT, hm]))
  | fdir n c r ihc ihr =>
      intro s h
      simp only [filesCopyT]
      exact ihr s (fun m hm => h m (by simp [levelFileNamesT, hm]))

theorem BwdKeeps_mirror (sf : List Path) :
    ∀ (k : Nat) (full : Tree) (rp : Path), sizeOf full ≤ k → WfT full = true →
      (∀ q, (fileAt full q).isSome = true → (rp ++ q) ∈ sf) →
      BwdKeeps sf rp (fwdMirror full) (some full) = true := by
  intro k
  induction k with
  | zero =>
      intro full rp hsz hw hfp
      exact absurd (Nat.lt_of_lt_of_le (sizeOf_tree_pos full) hsz) (lt_irrefl 0)
  | succ k ihk =>
      intro full rp hsz hw hfp
      rw [fwdMirror, BwdKeeps_append, Bool.and_eq_true]
      refine ⟨?_, ?_⟩
      · refine BwdKeeps_filesCopy sf rp full (some full) ?_
        intro n hn
        obtain ⟨d, hd⟩ := lookup_levelFile full n hw hn
        refine hfp [n] ?_
        rw [fileAt_cons_file full n [] d hd]
        simp
      · have haux : ∀ it : Tree,
            (∀ m c0, (m, c0) ∈ levelDirsT it → lookupT full m = some (.sdir c0)) →
            BwdKeeps sf rp (dirsMirrorT it) (some full) = true := by
          intro it
          induction it with
          | fnil => intro _; simp [dirsMirrorT, BwdKeeps]
          | ffile n d r ih =>
              intro h
              simp only [dirsMirrorT]
              exact ih (fun m c0 hm => h m c0 (by simp [levelDirsT, hm]))
          | fdir m c0 r ihc2 ihr2 =>
              intro h
              have hlm : lookupT full m = some (.sdir c0) := h m c0 (by simp [levelDirsT])
              simp only [dirsMirrorT, BwdKeeps, hlm, Bool.and_eq_true]
              refine ⟨?_, ihr2 (fun m2 c2 hm2 => h m2 c2 (by simp [levelDirsT, hm2]))⟩
              have hsz2 : sizeOf c0 ≤ k := by
                have := sizeOf_of_lookup_sdir full m c0 hlm
                omega
              refine ihk c0 (rp ++ [m]) hsz2 (WfT_child full m c0 hw hlm) ?_
              intro q hq
              have hqne : ¬ q = [] := by
                intro he
                rw [he] at hq
                simp at hq
              have : (fileAt full (m :: q)).isSome = true := by
                rw [fileAt_cons_dir full m q c0 hlm]
                simpa [hqne] using hq
              have h2 := hfp (m :: q) this
              simpa [List.append_assoc] using h2
        exact haux full (fun m c0 hm => lookup_levelDir full m c0 hw hm)

theorem namesT_dirsMirror (t : Tree) : namesT (dirsMirrorT t) = (levelDirsT t).map Prod.fst := by
  induction t with
  | fnil => rfl
  | ffile n d r ih => simp [dirsMirrorT, levelDirsT, ih]
  | fdir n c r ihc ihr => simp [dirsMirrorT, namesT, levelDirsT, ihr]

theorem lookupT_filesCopy (t : Tree) (n : String) (hw : WfT t = true) :
    lookupT (filesCopyT t) n =
      match lookupT t n with
      | some (.sfile d) => some (.sfile (copyD d))
      | _ => none := by
  induction t with
  | fnil => rfl
  | ffile m d r ih =>
      by_cases hm : m = n
      · simp [filesCopyT, lookupT, hm]
      · simp only [filesCopyT, lookupT_ffile, hm, if_false]
        exact ih (WfT_rest_file m d r hw)
  | fdir m c r ihc ihr =>
      have hw' : (¬ m ∈ namesT r ∧ WfT c = true) ∧ WfT r = true := by simpa [WfT] using hw
      by_cases hm : m = n
      · subst hm
        have h1 : lookupT (filesCopyT r) m = none := by
          rw [lookupT_eq_none_iff, namesT_filesCopy]
          exact fun hmem => hw'.1.1 (levelFileNames_sub r m hmem)
        simp [filesCopyT, lookupT_fdir, h1]
      · simp only [filesCopyT, lookupT_fdir, hm, if_false]
        exact ihr hw'.2

theorem lookupT_dirsMirror (t : Tree) (n : String) (hw : WfT t = true) :
    lookupT (dirsMirrorT t) n =
      match lookupT t n with
      | some (.sdir c) => some (.sdir (fwdMirror c))
      | _ => none := by
  induction t with
  | fnil => rfl
  | ffile m d r ih =>
      have hw' : ¬ m ∈ namesT r ∧ WfT r = true := by simpa [WfT] using hw
      by_cases hm : m = n
      · subst hm
        have h1 : lookupT (dirsMirrorT r) m = none := by
          rw [lookupT_eq_none_iff, namesT_dirsMirror]
          intro hmem
          obtain ⟨⟨a, b⟩, hab, rfl⟩ := List.mem_map.mp hmem
          exact hw'.1 (levelDirs_sub r a b hab)
        simp [dirsMirrorT, lookupT_ffile, h1]
      · simp only [dirsMirrorT, lookupT_ffile, hm, if_false]
        exact ih hw'.2
  | fdir m c r ihc ihr =>
      have hw' : (¬ m ∈ namesT r ∧ WfT c = true) ∧ WfT r = true := by simpa [WfT] using hw
      by_cases hm : m = n
      · subst hm
        simp [dirsMirrorT, lookupT_fdir, fwdMirror]
      · simp only [dirsMirrorT, lookupT_fdir, hm, if_false]
        exact ihr hw'.2

theorem lookupT_fwdMirror (t : Tree) (n : String) (hw : WfT t = true) :
    lookupT (fwdMirror t) n =
      match lookupT t n with
      | some (.sfile d) => some (.sfile (copyD d))
      | some (.sdir c) => some (.sdir (fwdMirror c))
      | none => none := by
  rw [fwdMirror, lookupT_append, lookupT_filesCopy t n hw, lookupT_dirsMirror t n hw]
  cases hl : lookupT t n with
  | none => rfl
  | some s => cases s <;> rfl

theorem fileAt_fwdMirror (k : Nat) :
    ∀ (t : Tree) (p : Path), sizeOf t ≤ k → WfT t = true →
      fileAt (fwdMirror t) p = (fileAt t p).map copyD := by
  induction k with
  | zero =>
      intro t p hsz _
      exact absurd (Nat.lt_of_lt_of_le (sizeOf_tree_pos t) hsz) (lt_irrefl 0)
  | succ k ihk =>
      intro t p hsz hw
      cases p with
      | nil => simp
      | cons n q =>
          cases hl : lookupT t n with
          | none =>
              rw [fileAt_cons_none _ _ _ hl, fileAt_cons_none]
              · simp
              · rw [lookupT_fwdMirror t n hw, hl]
          | some s =>
              cases s with
              | sfile d =>
                  rw [fileAt_cons_file _ _ _ d hl,
                    fileAt_cons_file _ _ _ (copyD d) (by rw [lookupT_fwdMirror t n hw, hl])]
                  by_cases hq : q = [] <;> simp [hq]
              | sdir c =>
                  rw [fileAt_cons_dir _ _ _ c hl,
                    fileAt_cons_dir _ _ _ (fwdMirror c) (by rw [lookupT_fwdMirror t n hw, hl])]
                  by_cases hq : q = []
                  · simp [hq]
                  · have hsz2 : sizeOf c ≤ k := by
                      have := sizeOf_of_lookup_sdir t n c hl
                      omega
                    simp [hq, ihk c q hsz2 (WfT_child t n c hw hl)]

theorem dirAt_fwdMirror (k : Nat) :
    ∀ (t : Tree) (p : Path), sizeOf t ≤ k → WfT t = true →
      dirAt (fwdMirror t) p = dirAt t p := by
  induction k with
  | zero =>
      intro t p hsz _
      exact absurd (Nat.lt_of_lt_of_le (sizeOf_tree_pos t) hsz) (lt_irrefl 0)
  | succ k ihk =>
      intro t p hsz hw
      cases p with
      | nil => simp
      | cons n q =>
          cases hl : lookupT t n with
          | none =>
              rw [dirAt_cons_none _ _ _ hl, dirAt_cons_none]
              rw [lookupT_fwdMirror t n hw, hl]
          | some s =>
              cases s with
              | sfile d =>
                  rw [dirAt_cons_file _ _ _ d hl,
                    dirAt_cons_file _ _ _ (copyD d) (by rw [lookupT_fwdMirror t n hw, hl])]
              | sdir c =>
                  rw [dirAt_cons_dir _ _ _ c hl,
                    dirAt_cons_dir _ _ _ (fwdMirror c) (by rw [lookupT_fwdMirror t n hw, hl])]
                  by_cases hq : q = []
                  · simp [hq]
                  · have hsz2 : sizeOf c ≤ k := by
                      have := sizeOf_of_lookup_sdir t n c hl
                      omega
                    simp [hq, ihk c q hsz2 (WfT_child t n c hw hl)]

/-- C1: convergence — one engine run from any well-formed, fully readable
source tree into an empty replica completes without fault and produces a
replica whose directory paths coincide with the source's directory paths
and whose file paths carry the same content digests as the source's files
(so the file path sets coincide as well, a file's digest being present
exactly when the file is). -/
theorem C1_convergence (src : Tree) (hw : WfT src = true) (ha : AllReadableT src = true) :
    ∃ (rep : Tree) (b : Bool) (st : St),
      perform_sync noFaultEnv src .fnil = .ok (rep, b, st) ∧
      (∀ p, dirAt rep p = dirAt src p) ∧
      (∀ p, (fileAt rep p).map (fun d => digestOf d.content) =
        (fileAt src p).map (fun d => digestOf d.content)) := by
  obtain ⟨st1, hff⟩ := fwdFiles_create [] src .fnil St.init hw ha (fun n _ => rfl)
  have hdn : ∀ m c0, (m, c0) ∈ levelDirsT src →
      lookupT (appendT .fnil (filesCopyT src)) m = none := by
    intro m c0 hm
    rw [appendT_fnil_left, lookupT_eq_none_iff, namesT_filesCopy]
    exact levelDir_not_levelFile src m c0 hw hm
  obtain ⟨st2, hfw⟩ := fwdWalk_create src [] (appendT .fnil (filesCopyT src)) st1 hw ha hdn
  have hsf1 : st1.srcFiles = (levelFileNamesT src).map (fun n => [n]) := by
    have h1 := fwdFiles_srcFiles noFaultEnv [] src (.ctxDir .fnil) St.init
    rw [hff] at h1
    simpa [St.init] using h1
  have hsf2 : st2.srcFiles = walkPathsR src := by
    have h2 := fwdWalk_srcFiles noFaultEnv src [] (.ctxDir (appendT .fnil (filesCopyT src)))
      st1 _ _ hfw
    rw [h2, hsf1, walkPathsR]
    simp
  have hkeeps : BwdKeeps st2.srcFiles [] (fwdMirror src) (some src) = true := by
    refine BwdKeeps_mirror st2.srcFiles (sizeOf src) src [] (le_refl _) hw ?_
    intro q hq
    rw [hsf2]
    simpa using (mem_walkPathsR src hw q).mpr hq
  refine ⟨fwdMirror src, st2.changed, st2, ?_, ?_, ?_⟩
  · rw [appendT_fnil_left] at hfw
    simp only [perform_sync, hff, appendT_fnil_left, hfw, ctxTree]
    rw [show appendT (filesCopyT src) (dirsMirrorT src) = fwdMirror src from rfl]
    simp only [bwdDirs_keep noFaultEnv st2.srcFiles (fwdMirror src) [] (some src) st2 hkeeps,
      bwdFiles_keep noFaultEnv st2.srcFiles [] (fwdMirror src) (some src) st2 hkeeps]
  · intro p
    exact dirAt_fwdMirror (sizeOf src) src p (le_refl _) hw
  · intro p
    rw [fileAt_fwdMirror (sizeOf src) src p (le_refl _) hw]
    cases fileAt src p <;> simp [copyD]

/-- Witness for C1 at a concrete source tree with a file and a directory. -/
theorem C1_witness :
    WfT exSrcC1 = true ∧ AllReadableT exSrcC1 = true ∧
    (∃ (rep : Tree) (b : Bool) (st : St),
      perform_sync noFaultEnv exSrcC1 .fnil = .ok (rep, b, st) ∧
      (∀ p, dirAt rep p = dirAt exSrcC1 p) ∧
      (∀ p, (fileAt rep p).map (fun d => digestOf d.content) =
        (fileAt exSrcC1 p).map (fun d => digestOf d.content))) :=
  ⟨rfl, rfl, C1_convergence exSrcC1 rfl rfl⟩

theorem calculate_md5_file (l : Loc) (d : FileData) :
    calculate_md5 l (.sfile d) =
      (md5Opt d, if d.readable then [] else [⟨.error, .md5Unreadable, l⟩]) := by
  cases h : d.readable <;> simp [calculate_md5, md5Opt, h]

theorem copy_fail_unreadable (p : Path) (s d : Loc) :
    copy_file_with_retries (copyOk noFaultEnv false p) s d 3 2 =
      (false, 3, [⟨.warning, .copyAttemptFailed 1, d⟩, ⟨.warning, .copyAttemptFailed 2, d⟩,
        ⟨.warning, .copyAttemptFailed 3, d⟩, ⟨.error, .copyFailed, d⟩]) := by
  simp [copy_file_with_retries, copyLoop, copyOk]

theorem lookup_set_self (t : Tree) (n : String) (s : Slot) :
    lookupT (setSlotT t n s) n = some s := by
  induction t with
  | fnil => cases s <;> simp [setSlotT, lookupT]
  | ffile m d r ih =>
      by_cases hm : m = n
      · subst hm
        cases s <;> simp [setSlotT, lookupT]
      · cases s <;> simp [setSlotT, lookupT, hm, ih]
  | fdir m c r ihc ihr =>
      by_cases hm : m = n
      · subst hm
        cases s <;> simp [setSlotT, lookupT]
      · cases s <;> simp [setSlotT, lookupT, hm, ihr]

theorem lookup_set_ne (t : Tree) (n m : String) (s : Slot) (h : ¬ n = m) :
    lookupT (setSlotT t n s) m = lookupT t m := by
  induction t with
  | fnil =>
      have h2 : ¬ n = m := h
      cases s <;> simp [setSlotT, lookupT, h2]
  | ffile m2 d r ih =>
      by_cases hm : m2 = n
      · subst hm
        have h2 : ¬ m2 = m := h
        cases s <;> simp [setSlotT, lookupT, h2]
      · cases s <;> simp only [setSlotT, hm, if_false] <;> simp [lookupT, ih]
  | fdir m2 c r ihc ihr =>
      by_cases hm : m2 = n
      · subst hm
        have h2 : ¬ m2 = m := h
        cases s <;> simp [setSlotT, lookupT, h2]
      · cases s <;> simp only [setSlotT, hm, if_false] <;> simp [lookupT, ihr]

theorem namesT_set (t : Tree) (n : String) (s : Slot) :
    namesT (setSlotT t n s) = if n ∈ namesT t then namesT t else namesT t ++ [n] := by
  induction t with
  | fnil => cases s <;> simp [setSlotT, namesT]
  | ffile m d r ih =>
      by_cases hm : m = n
      · subst hm
        cases s <;> simp [setSlotT, namesT]
      · have hnm : ¬ n = m := fun he => hm he.symm
        cases s <;> simp only [setSlotT, hm, if_false] <;>
          simp [namesT, ih, hnm] <;> split <;> simp
  | fdir m c r ihc ihr =>
      by_cases hm : m = n
      · subst hm
        cases s <;> simp [setSlotT, namesT]
      · have hnm : ¬ n = m := fun he => hm he.symm
        cases s <;> simp only [setSlotT, hm, if_false] <;>
          simp [namesT, ihr, hnm] <;> split <;> simp

theorem WfT_set (t : Tree) (n : String) (s : Slot) (hw : WfT t = true)
    (hs : ∀ c, s = .sdir c → WfT c = true) :
    WfT (setSlotT t n s) = true := by
  induction t with
  | fnil =>
      cases s with
      | sfile d => simp [setSlotT, WfT, namesT]
      | sdir c => simp [setSlotT, WfT, namesT, hs c rfl]
  | ffile m d r ih =>
      have hw' : ¬ m ∈ namesT r ∧ WfT r = true := by simpa [WfT] using hw
      by_cases hm : m = n
      · subst hm
        cases s with
        | sfile d2 => simp [setSlotT, WfT, hw'.1, hw'.2]
        | sdir c2 => simp [setSlotT, WfT, hw'.1, hw'.2, hs c2 rfl]
      · have hmem : ∀ s2 : Slot, ¬ m ∈ namesT (setSlotT r n s2) := by
          intro s2 hmm2
          rw [namesT_set] at hmm2
          by_cases hcase : n ∈ namesT r
          · rw [if_pos hcase] at hmm2
            exact hw'.1 hmm2
          · rw [if_neg hcase] at hmm2
            rcases List.mem_append.mp hmm2 with h3 | h3
            · exact hw'.1 h3
            · simp at h3
              exact hm h3
        cases s with
        | sfile d2 =>
            simp only [setSlotT, hm, if_false]
            simp [WfT, hmem (.sfile d2), ih hw'.2]
        | sdir c2 =>
            simp only [setSlotT, hm, if_false]
            simp [WfT, hmem (.sdir c2), ih hw'.2]
  | fdir m c r ihc ihr =>
      have hw' : (¬ m ∈ namesT r ∧ WfT c = true) ∧ WfT r = true := by simpa [WfT] using hw
      by_cases hm : m = n
      · subst hm
        cases s with
        | sfile d2 => simp [setSlotT, WfT, hw'.1.1, hw'.2]
        | sdir c2 => simp [setSlotT, WfT, hw'.1.1, hw'.2, hs c2 rfl]
      · have hmem : ∀ s2 : Slot, ¬ m ∈ namesT (setSlotT r n s2) := by
          intro s2 hmm2
          rw [namesT_set] at hmm2
          by_cases hcase : n ∈ namesT r
          · rw [if_pos hcase] at hmm2
            exact hw'.1.1 hmm2
          · rw [if_neg hcase] at hmm2
            rcases List.mem_append.mp hmm2 with h3 | h3
            · exact hw'.1.1 h3
            · simp at h3
              exact hm h3
        cases s with
        | sfile d2 =>
            simp only [setSlotT, hm, if_false]
            simp [WfT, hmem (.sfile d2), hw'.1.2, ihr hw'.2]
        | sdir c2 =>
            simp only [setSlotT, hm, if_false]
            simp [WfT, hmem (.sdir c2), hw'.1.2, ihr hw'.2]

theorem ctxWf_tree (ctx : FwdCtx) (h : ctxWf ctx = true) : WfT (ctxTree ctx) = true := by
  cases ctx with
  | ctxDir t => exact h
  | blocked => rfl

theorem fwdFiles_ctxWf (env : Env) (rp : Path) :
    ∀ (src : Tree) (ctx : FwdCtx) (st : St), ctxWf ctx = true →
      ctxWf (fwdFiles env rp src ctx st).1 = true := by
  intro src
  induction src with
  | fnil => intro ctx st h; simpa [fwdFiles] using h
  | ffile n d rest ih =>
      intro ctx st h
      cases ctx with
      | blocked => simp only [fwdFiles]; exact ih _ _ h
      | ctxDir t =>
          cases hl : lookupT t n with
          | none =>
              simp only [fwdFiles, hl]
              split
              · exact ih _ _ (WfT_set t n _ h (by intro c hc; cases hc))
              · exact ih _ _ h
          | some s =>
              cases s with
              | sfile dd =>
                  simp only [fwdFiles, hl]
                  split
                  · split
                    · exact ih _ _ (WfT_set t n _ h (by intro c hc; cases hc))
                    · exact ih _ _ h
                  · exact ih _ _ h
              | sdir c =>
                  have hwc : WfT c = true := WfT_child t n c h hl
                  simp only [fwdFiles, hl]
                  split
                  · split
                    · refine ih _ _ (WfT_set t n _ h ?_)
                      intro c2 hc2
                      cases hc2
                      exact WfT_set c n _ hwc (by intro c3 hc3; cases hc3)
                    · exact ih _ _ h
                  · exact ih _ _ h
  | fdir n c rest ihc ihr =>
      intro ctx st h
      simp only [fwdFiles]
      exact ihr _ _ h

theorem fwdWalk_ctxWf (env : Env) :
    ∀ (src : Tree) (rp : Path) (ctx : FwdCtx) (st : St) (ctx2 : FwdCtx) (st2 : St),
      ctxWf ctx = true → fwdWalk env rp src ctx st = .ok (ctx2, st2) →
      ctxWf ctx2 = true := by
  intro src
  induction src with
  | fnil =>
      intro rp ctx st ctx2 st2 h heq
      simp only [fwdWalk, Except.ok.injEq, Prod.mk.injEq] at heq
      rw [← heq.1]
      exact h
  | ffile n d rest ih =>
      intro rp ctx st ctx2 st2 h heq
      simp only [fwdWalk] at heq
      exact ih rp ctx st ctx2 st2 h heq
  | fdir n c rest ihc ihr =>
      intro rp ctx st ctx2 st2 h heq
      cases ctx with
      | blocked => simp [fwdWalk] at heq
      | ctxDir t =>
          cases hl : lookupT t n with
          | some s =>
              cases s with
              | sfile dd =>
                  simp only [fwdWalk, hl] at heq
                  cases hw : fwdWalk env (rp ++ [n]) c (fwdFiles env (rp ++ [n]) c .blocked st).1
                      (fwdFiles env (rp ++ [n]) c .blocked st).2 with
                  | error e => rw [hw] at heq; simp at heq
                  | ok r2 =>
                      rw [hw] at heq
                      simp only [] at heq
                      exact ihr rp _ _ _ _ h heq
              | sdir w =>
                  simp only [fwdWalk, hl] at heq
                  cases hw : fwdWalk env (rp ++ [n]) c (fwdFiles env (rp ++ [n]) c (.ctxDir w) st).1
                      (fwdFiles env (rp ++ [n]) c (.ctxDir w) st).2 with
                  | error e => rw [hw] at heq; simp at heq
                  | ok r2 =>
                      rw [hw] at heq
                      obtain ⟨cc2, cst2⟩ := r2
                      simp only [] at heq
                      have hwc : WfT w = true := WfT_child t n w h hl
                      have hcc2 : ctxWf cc2 = true := by
                        refine ihc (rp ++ [n]) _ _ _ _ ?_ hw
                        exact fwdFiles_ctxWf env (rp ++ [n]) c (.ctxDir w) st hwc
                      refine ihr rp _ _ _ _ ?_ heq
                      exact WfT_set t n _ h (by
                        intro c2 hc2
                        cases hc2
                        exact ctxWf_tree cc2 hcc2)
          | none =>
              cases hmk : env.mkdirFails (rp ++ [n]) with
              | true => simp [fwdWalk, hl, hmk] at heq
              | false =>
                  simp only [fwdWalk, hl, hmk, Bool.false_eq_true, if_false] at heq
                  cases hw : fwdWalk env (rp ++ [n]) c
                      (fwdFiles env (rp ++ [n]) c (.ctxDir .fnil)
                        ((st.push [⟨Sev.info, EvKind.dirCreated, ⟨Root.rep, rp ++ [n]⟩⟩]).addMut
                          ⟨MutKind.mkdirM, ⟨Root.rep, rp ++ [n]⟩⟩)).1
                      (fwdFiles env (rp ++ [n]) c (.ctxDir .fnil)
                        ((st.push [⟨Sev.info, EvKind.dirCreated, ⟨Root.rep, rp ++ [n]⟩⟩]).addMut
                          ⟨MutKind.mkdirM, ⟨Root.rep, rp ++ [n]⟩⟩)).2 with
                  | error e => rw [hw] at heq; simp at heq
                  | ok r2 =>
                      rw [hw] at heq
                      obtain ⟨cc2, cst2⟩ := r2
                      simp only [] at heq
                      have hcc2 : ctxWf cc2 = true := by
                        refine ihc (rp ++ [n]) _ _ _ _ ?_ hw
                        exact fwdFiles_ctxWf env (rp ++ [n]) c (.ctxDir .fnil) _ rfl
                      refine ihr rp _ _ _ _ ?_ heq
                      refine WfT_set (setSlotT t n (.sdir .fnil)) n _ ?_ ?_
                      · exact WfT_set t n _ h (by intro c2 hc2; cases hc2; rfl)
                      · intro c2 hc2
                        cases hc2
                        exact ctxWf_tree cc2 hcc2

theorem copyLoop_loc (ok : Nat → Bool) (dst : Loc) :
    ∀ (k a : Nat), ∀ e ∈ (copyLoop ok dst a k).2.2, e.loc = dst := by
  intro k
  induction k with
  | zero =>
      intro a e he
      simp only [copyLoop, List.mem_singleton] at he
      subst he
      rfl
  | succ k ih =>
      intro a e he
      simp only [copyLoop] at he
      split at he
      · simp at he
      · have he2 : e = ⟨.warning, .copyAttemptFailed a, dst⟩ ∨
            e ∈ (copyLoop ok dst (a + 1) k).2.2 := by
          simpa using he
        rcases he2 with h | h
        · subst h
          rfl
        · exact ih (a + 1) e h

theorem copy_loc (ok : Nat → Bool) (s d : Loc) (m dl : Nat) :
    ∀ e ∈ (copy_file_with_retries ok s d m dl).2.2, e.loc = d :=
  copyLoop_loc ok d m 1

theorem md5_loc (l : Loc) (s : Slot) : ∀ e ∈ (calculate_md5 l s).2, e.loc = l := by
  cases s with
  | sfile d =>
      intro e he
      simp only [calculate_md5] at he
      split at he
      · simp at he
      · simp only [List.mem_singleton] at he
        subst he
        rfl
  | sdir c =>
      intro e he
      simp only [calculate_md5, List.mem_singleton] at he
      subst he
      rfl

theorem path_append_one_inj (rp : Path) (m n : String) (h : rp ++ [m] = rp ++ [n]) :
    m = n := by
  have h2 : [m] = [n] := List.append_cancel_left h
  simpa using h2

theorem path_append_cons_inj (rp : Path) (m n : String) (q : Path)
    (h : rp ++ [m] = rp ++ (n :: q)) : m = n ∧ q = [] := by
  have h2 : [m] = n :: q := List.append_cancel_left h
  simp only [List.cons.injEq] at h2
  exact ⟨h2.1, h2.2.symm⟩

theorem filter_atP_nil (P : Path) :
    ∀ (l : List Event), (∀ e ∈ l, ¬ e.loc.path = P) → l.filter (atP P) = [] := by
  intro l
  induction l with
  | nil => intro _; rfl
  | cons x xs ih =>
      intro h
      have hx : atP P x = false := by simp [atP, h x (by simp)]
      simp [List.filter_cons, hx, ih (fun e he => h e (by simp [he]))]

theorem filter_atP_all (P : Path) :
    ∀ (l : List Event), (∀ e ∈ l, e.loc.path = P) → l.filter (atP P) = l := by
  intro l
  induction l with
  | nil => intro _; rfl
  | cons x xs ih =>
      intro h
      have hx : atP P x = true := by simp [atP, h x (by simp)]
      simp [List.filter_cons, hx, ih (fun e he => h e (by simp [he]))]

theorem copyTouched_append (a b : List Event) (p : Path) :
    copyTouched (a ++ b) p = (copyTouched a p || copyTouched b p) := by
  simp [copyTouched, List.any_append]

theorem copyTouched_filter (p : Path) :
    ∀ (l : List Event), copyTouched (l.filter (atP p)) p = copyTouched l p := by
  intro l
  induction l with
  | nil => rfl
  | cons x xs ih =>
      cases hx : atP p x with
      | true =>
          simp only [List.filter_cons, hx, if_true, copyTouched, List.any_cons] at *
          rw [ih]
      | false =>
          have hloc : (x.loc == Loc.mk Root.rep p && isCopyKind x.kind) = false := by
            cases hl : x.loc == Loc.mk Root.rep p with
            | false => simp
            | true =>
                exfalso
                have hx2 : x.loc = Loc.mk Root.rep p := eq_of_beq hl
                rw [atP, hx2] at hx
                simp at hx
          simp only [List.filter_cons, hx, if_false, Bool.false_eq_true, copyTouched,
            List.any_cons] at *
          rw [ih, hloc]
          simp

theorem fwdFiles_events (env : Env) (rp : Path) :
    ∀ (src : Tree) (ctx : FwdCtx) (st : St), ∃ l,
      (fwdFiles env rp src ctx st).2.events = st.events ++ l ∧
      ∀ e ∈ l, ∃ m, m ∈ levelFileNamesT src ∧ e.loc.path = rp ++ [m] := by
  intro src
  induction src with
  | fnil =>
      intro ctx st
      exact ⟨[], by simp [fwdFiles], by simp⟩
  | ffile n d rest ih =>
      intro ctx st
      have combine : ∀ (ctx2 : FwdCtx) (st2 : St) (E : List Event),
          st2.events = st.events ++ E →
          (∀ e ∈ E, e.loc.path = rp ++ [n]) →
          ∃ l, (fwdFiles env rp rest ctx2 st2).2.events = st.events ++ l ∧
            ∀ e ∈ l, ∃ m, m ∈ levelFileNamesT (.ffile n d rest) ∧ e.loc.path = rp ++ [m] := by
        intro ctx2 st2 E hE hEp
        obtain ⟨l, hev, hpr⟩ := ih ctx2 st2
        refine ⟨E ++ l, by rw [hev, hE, List.append_assoc], ?_⟩
        intro e he
        rcases List.mem_append.mp he with h1 | h1
        · exact ⟨n, by simp [levelFileNamesT], hEp e h1⟩
        · obtain ⟨m, hm1, hm2⟩ := hpr e h1
          exact ⟨m, by simp [levelFileNamesT, hm1], hm2⟩
      cases ctx with
      | blocked =>
          simp only [fwdFiles]
          refine combine _ _ (copy_file_with_retries (fun _ => false)
            ⟨.src, rp ++ [n]⟩ ⟨.rep, rp ++ [n]⟩ 3 2).2.2 (by simp) ?_
          intro e he
          rw [copy_loc _ _ _ _ _ e he]
      | ctxDir t =>
          cases hl : lookupT t n with
          | none =>
              simp only [fwdFiles, hl]
              split
              · refine combine _ _ ((copy_file_with_retries (copyOk env d.readable (rp ++ [n]))
                  ⟨.src, rp ++ [n]⟩ ⟨.rep, rp ++ [n]⟩ 3 2).2.2 ++
                  [⟨.info, .fileCreated, ⟨.rep, rp ++ [n]⟩⟩]) (by simp) ?_
                intro e he
                rcases List.mem_append.mp he with h1 | h1
                · rw [copy_loc _ _ _ _ _ e h1]
                · simp only [List.mem_singleton] at h1
                  subst h1
                  rfl
              · refine combine _ _ (copy_file_with_retries (copyOk env d.readable (rp ++ [n]))
                  ⟨.src, rp ++ [n]⟩ ⟨.rep, rp ++ [n]⟩ 3 2).2.2 (by simp) ?_
                intro e he
                rw [copy_loc _ _ _ _ _ e he]
          | some s =>
              have hm1p : ∀ e ∈ (calculate_md5 ⟨Root.src, rp ++ [n]⟩ (.sfile d)).2,
                  e.loc.path = rp ++ [n] := by
                intro e he
                rw [md5_loc _ _ e he]
              have hm2p : ∀ e ∈ (calculate_md5 ⟨Root.rep, rp ++ [n]⟩ s).2,
                  e.loc.path = rp ++ [n] := by
                intro e he
                rw [md5_loc _ _ e he]
              have hmds : ∀ e ∈ (calculate_md5 ⟨Root.src, rp ++ [n]⟩ (.sfile d)).2 ++
                  (calculate_md5 ⟨Root.rep, rp ++ [n]⟩ s).2, e.loc.path = rp ++ [n] := by
                intro e he
                rcases List.mem_append.mp he with h1 | h1
                · exact hm1p e h1
                · exact hm2p e h1
              cases s with
              | sfile dd =>
                  simp only [fwdFiles, hl]
                  split
                  · split
                    · refine combine _ _
                        ((calculate_md5 ⟨Root.src, rp ++ [n]⟩ (.sfile d)).2 ++
                          ((calculate_md5 ⟨Root.rep, rp ++ [n]⟩ (.sfile dd)).2 ++
                          ((copy_file_with_retries (copyOk env d.readable (rp ++ [n]))
                            ⟨.src, rp ++ [n]⟩ ⟨.rep, rp ++ [n]⟩ 3 2).2.2 ++
                          [⟨.info, .fileUpdated, ⟨.rep, rp ++ [n]⟩⟩]))) (by simp) ?_
                      intro e he
                      rcases List.mem_append.mp he with h1 | h1
                      · exact hm1p e h1
                      · rcases List.mem_append.mp h1 with h2 | h2
                        · exact hm2p e h2
                        · rcases List.mem_append.mp h2 with h3 | h3
                          · rw [copy_loc _ _ _ _ _ e h3]
                          · simp only [List.mem_singleton] at h3
                            subst h3
                            rfl
                    · refine combine _ _
                        ((calculate_md5 ⟨Root.src, rp ++ [n]⟩ (.sfile d)).2 ++
                          ((calculate_md5 ⟨Root.rep, rp ++ [n]⟩ (.sfile dd)).2 ++
                          (copy_file_with_retries (copyOk env d.readable (rp ++ [n]))
                            ⟨.src, rp ++ [n]⟩ ⟨.rep, rp ++ [n]⟩ 3 2).2.2)) (by simp) ?_
                      intro e he
                      rcases List.mem_append.mp he with h1 | h1
                      · exact hm1p e h1
                      · rcases List.mem_append.mp h1 with h2 | h2
                        · exact hm2p e h2
                        · rw [copy_loc _ _ _ _ _ e h2]
                  · exact combine _ _
                      ((calculate_md5 ⟨Root.src, rp ++ [n]⟩ (.sfile d)).2 ++
                        (calculate_md5 ⟨Root.rep, rp ++ [n]⟩ (.sfile dd)).2) (by simp) hmds
              | sdir c =>
                  simp only [fwdFiles, hl]
                  split
                  · split
                    · refine combine _ _
                        ((calculate_md5 ⟨Root.src, rp ++ [n]⟩ (.sfile d)).2 ++
                          ((calculate_md5 ⟨Root.rep, rp ++ [n]⟩ (.sdir c)).2 ++
                          ((copy_file_with_retries (copyOk env d.readable (rp ++ [n]))
                            ⟨.src, rp ++ [n]⟩ ⟨.rep, rp ++ [n]⟩ 3 2).2.2 ++
                          [⟨.info, .fileUpdated, ⟨.rep, rp ++ [n]⟩⟩]))) (by simp) ?_
                      intro e he
                      rcases List.mem_append.mp he with h1 | h1
                      · exact hm1p e h1
                      · rcases List.mem_append.mp h1 with h2 | h2
                        · exact hm2p e h2
                        · rcases List.mem_append.mp h2 with h3 | h3
                          · rw [copy_loc _ _ _ _ _ e h3]
                          · simp only [List.mem_singleton] at h3
                            subst h3
                            rfl
                    · refine combine _ _
                        ((calculate_md5 ⟨Root.src, rp ++ [n]⟩ (.sfile d)).2 ++
                          ((calculate_md5 ⟨Root.rep, rp ++ [n]⟩ (.sdir c)).2 ++
                          (copy_file_with_retries (copyOk env d.readable (rp ++ [n]))
                            ⟨.src, rp ++ [n]⟩ ⟨.rep, rp ++ [n]⟩ 3 2).2.2)) (by simp) ?_
                      intro e he
                      rcases List.mem_append.mp he with h1 | h1
                      · exact hm1p e h1
                      · rcases List.mem_append.mp h1 with h2 | h2
                        · exact hm2p e h2
                        · rw [copy_loc _ _ _ _ _ e h2]
                  · exact combine _ _
                      ((calculate_md5 ⟨Root.src, rp ++ [n]⟩ (.sfile d)).2 ++
                        (calculate_md5 ⟨Root.rep, rp ++ [n]⟩ (.sdir c)).2) (by simp) hmds
  | fdir n c rest ihc ihr =>
      intro ctx st
      simp only [fwdFiles]
      exact ihr ctx st

theorem fwdWalk_events (env : Env) :
    ∀ (src : Tree) (rp : Path) (ctx : FwdCtx) (st : St), ∃ l,
      (resSt (fwdWalk env rp src ctx st)).events = st.events ++ l ∧
      ∀ e ∈ l, ∃ m q, m ∈ (levelDirsT src).map Prod.fst ∧ e.loc.path = rp ++ (m :: q) := by
  intro src
  induction src with
  | fnil =>
      intro rp ctx st
      exact ⟨[], by simp [fwdWalk, resSt], by simp⟩
  | ffile n d rest ih =>
      intro rp ctx st
      obtain ⟨l, h1, h2⟩ := ih rp ctx st
      refine ⟨l, by simpa [fwdWalk] using h1, ?_⟩
      intro e he
      obtain ⟨m, q, hm, hp⟩ := h2 e he
      exact ⟨m, q, hm, hp⟩
  | fdir n c rest ihc ihr =>
      intro rp ctx st
      cases ctx with
      | blocked => exact ⟨[], by simp [fwdWalk, resSt], by simp⟩
      | ctxDir t =>
          have liftc : ∀ (l : List Event),
              (∀ e ∈ l, ∃ m, m ∈ levelFileNamesT c ∧ e.loc.path = (rp ++ [n]) ++ [m]) →
              ∀ e ∈ l, ∃ m q, m ∈ (levelDirsT (Tree.fdir n c rest)).map Prod.fst ∧
                e.loc.path = rp ++ (m :: q) := by
            intro l hp e he
            obtain ⟨m2, _, hp2⟩ := hp e he
            refine ⟨n, [m2], by simp [levelDirsT], ?_⟩
            rw [hp2, List.append_assoc]
            rfl
          have liftw : ∀ (l : List Event),
              (∀ e ∈ l, ∃ m q, m ∈ (levelDirsT c).map Prod.fst ∧
                e.loc.path = (rp ++ [n]) ++ (m :: q)) →
              ∀ e ∈ l, ∃ m q, m ∈ (levelDirsT (Tree.fdir n c rest)).map Prod.fst ∧
                e.loc.path = rp ++ (m :: q) := by
            intro l hp e he
            obtain ⟨m2, q2, _, hp2⟩ := hp e he
            refine ⟨n, m2 :: q2, by simp [levelDirsT], ?_⟩
            rw [hp2, List.append_assoc]
            rfl
          have liftr : ∀ (l : List Event),
              (∀ e ∈ l, ∃ m q, m ∈ (levelDirsT rest).map Prod.fst ∧
                e.loc.path = rp ++ (m :: q)) →
              ∀ e ∈ l, ∃ m q, m ∈ (levelDirsT (Tree.fdir n c rest)).map Prod.fst ∧
                e.loc.path = rp ++ (m :: q) := by
            intro l hp e he
            obtain ⟨m2, q2, hm2, hp2⟩ := hp e he
            exact ⟨m2, q2, by simp [levelDirsT, hm2], hp2⟩
          cases hl : lookupT t n with
          | some s =>
              cases s with
              | sfile dd =>
                  obtain ⟨l1, h1ev, h1p⟩ := fwdFiles_events env (rp ++ [n]) c .blocked st
                  obtain ⟨l2, h2ev, h2p⟩ := ihc (rp ++ [n])
                    (fwdFiles env (rp ++ [n]) c .blocked st).1
                    (fwdFiles env (rp ++ [n]) c .blocked st).2
                  cases hw : fwdWalk env (rp ++ [n]) c (fwdFiles env (rp ++ [n]) c .blocked st).1
                      (fwdFiles env (rp ++ [n]) c .blocked st).2 with
                  | error e =>
                      rw [hw] at h2ev
                      refine ⟨l1 ++ l2, ?_, ?_⟩
                      · simp only [fwdWalk, hl, hw]
                        rw [show (resSt (.error e : Except (Fault × St) (FwdCtx × St))).events
                            = e.2.events from rfl] at h2ev
                        simp only [resSt]
                        rw [h2ev, h1ev, List.append_assoc]
                      · intro e2 he2
                        rcases List.mem_append.mp he2 with hm | hm
                        · exact liftc l1 h1p e2 hm
                        · exact liftw l2 h2p e2 hm
                  | ok r2 =>
                      rw [hw] at h2ev
                      obtain ⟨l3, h3ev, h3p⟩ := ihr rp (.ctxDir t) r2.2
                      refine ⟨l1 ++ (l2 ++ l3), ?_, ?_⟩
                      · simp only [fwdWalk, hl, hw]
                        have h2ev2 : r2.2.events =
                            (fwdFiles env (rp ++ [n]) c .blocked st).2.events ++ l2 := h2ev
                        rw [h3ev, h2ev2, h1ev]
                        simp [List.append_assoc]
                      · intro e2 he2
                        rcases List.mem_append.mp he2 with hm | hm
                        · exact liftc l1 h1p e2 hm
                        · rcases List.mem_append.mp hm with hm2 | hm2
                          · exact liftw l2 h2p e2 hm2
                          · exact liftr l3 h3p e2 hm2
              | sdir w =>
                  obtain ⟨l1, h1ev, h1p⟩ := fwdFiles_events env (rp ++ [n]) c (.ctxDir w) st
                  obtain ⟨l2, h2ev, h2p⟩ := ihc (rp ++ [n])
                    (fwdFiles env (rp ++ [n]) c (.ctxDir w) st).1
                    (fwdFiles env (rp ++ [n]) c (.ctxDir w) st).2
                  cases hw : fwdWalk env (rp ++ [n]) c
                      (fwdFiles env (rp ++ [n]) c (.ctxDir w) st).1
                      (fwdFiles env (rp ++ [n]) c (.ctxDir w) st).2 with
                  | error e =>
                      rw [hw] at h2ev
                      refine ⟨l1 ++ l2, ?_, ?_⟩
                      · simp only [fwdWalk, hl, hw]
                        rw [show (resSt (.error e : Except (Fault × St) (FwdCtx × St))).events
                            = e.2.events from rfl] at h2ev
                        simp only [resSt]
                        rw [h2ev, h1ev, List.append_assoc]
                      · intro e2 he2
                        rcases List.mem_append.mp he2 with hm | hm
                        · exact liftc l1 h1p e2 hm
                        · exact liftw l2 h2p e2 hm
                  | ok r2 =>
                      rw [hw] at h2ev
                      obtain ⟨cc2, cst2⟩ := r2
                      obtain ⟨l3, h3ev, h3p⟩ := ihr rp
                        (.ctxDir (setSlotT t n (.sdir (ctxTree cc2)))) cst2
                      refine ⟨l1 ++ (l2 ++ l3), ?_, ?_⟩
                      · simp only [fwdWalk, hl, hw]
                        have h2ev2 : cst2.events =
                            (fwdFiles env (rp ++ [n]) c (.ctxDir w) st).2.events ++ l2 := h2ev
                        rw [h3ev, h2ev2, h1ev]
                        simp [List.append_assoc]
                      · intro e2 he2
                        rcases List.mem_append.mp he2 with hm | hm
                        · exact liftc l1 h1p e2 hm
                        · rcases List.mem_append.mp hm with hm2 | hm2
                          · exact liftw l2 h2p e2 hm2
                          · exact liftr l3 h3p e2 hm2
          | none =>
              cases hmk : env.mkdirFails (rp ++ [n]) with
              | true => exact ⟨[], by simp [fwdWalk, hl, hmk, resSt], by simp⟩
              | false =>
                  obtain ⟨l1, h1ev, h1p⟩ := fwdFiles_events env (rp ++ [n]) c (.ctxDir .fnil)
                    ((st.push [⟨Sev.info, EvKind.dirCreated, ⟨Root.rep, rp ++ [n]⟩⟩]).addMut
                      ⟨MutKind.mkdirM, ⟨Root.rep, rp ++ [n]⟩⟩)
                  obtain ⟨l2, h2ev, h2p⟩ := ihc (rp ++ [n])
                    (fwdFiles env (rp ++ [n]) c (.ctxDir .fnil)
                      ((st.push [⟨Sev.info, EvKind.dirCreated, ⟨Root.rep, rp ++ [n]⟩⟩]).addMut
                        ⟨MutKind.mkdirM, ⟨Root.rep, rp ++ [n]⟩⟩)).1
                    (fwdFiles env (rp ++ [n]) c (.ctxDir .fnil)
                      ((st.push [⟨Sev.info, EvKind.dirCreated, ⟨Root.rep, rp ++ [n]⟩⟩]).addMut
                        ⟨MutKind.mkdirM, ⟨Root.rep, rp ++ [n]⟩⟩)).2
                  have h0 : ((st.push [⟨Sev.info, EvKind.dirCreated, ⟨Root.rep, rp ++ [n]⟩⟩]).addMut
                      ⟨MutKind.mkdirM, ⟨Root.rep, rp ++ [n]⟩⟩).events =
                      st.events ++ [⟨Sev.info, EvKind.dirCreated, ⟨Root.rep, rp ++ [n]⟩⟩] := by
                    simp
                  have h0p : ∀ e2 : Event,
                      e2 ∈ [(⟨Sev.info, EvKind.dirCreated, ⟨Root.rep, rp ++ [n]⟩⟩ : Event)] →
                      ∃ m q, m ∈ (levelDirsT (Tree.fdir n c rest)).map Prod.fst ∧
                        e2.loc.path = rp ++ (m :: q) := by
                    intro e2 he2
                    simp only [List.mem_singleton] at he2
                    subst he2
                    exact ⟨n, [], by simp [levelDirsT], rfl⟩
                  cases hw : fwdWalk env (rp ++ [n]) c
                      (fwdFiles env (rp ++ [n]) c (.ctxDir .fnil)
                        ((st.push [⟨Sev.info, EvKind.dirCreated, ⟨Root.rep, rp ++ [n]⟩⟩]).addMut
                          ⟨MutKind.mkdirM, ⟨Root.rep, rp ++ [n]⟩⟩)).1
                      (fwdFiles env (rp ++ [n]) c (.ctxDir .fnil)
                        ((st.push [⟨Sev.info, EvKind.dirCreated, ⟨Root.rep, rp ++ [n]⟩⟩]).addMut
                          ⟨MutKind.mkdirM, ⟨Root.rep, rp ++ [n]⟩⟩)).2 with
                  | error e =>
                      rw [hw] at h2ev
                      refine ⟨[⟨Sev.info, EvKind.dirCreated, ⟨Root.rep, rp ++ [n]⟩⟩] ++
                        (l1 ++ l2), ?_, ?_⟩
                      · simp only [fwdWalk, hl, hmk, Bool.false_eq_true, if_false, hw]
                        rw [show (resSt (.error e : Except (Fault × St) (FwdCtx × St))).events
                            = e.2.events from rfl] at h2ev
                        simp only [resSt]
                        rw [h2ev, h1ev, h0]
                        simp [List.append_assoc]
                      · intro e2 he2
                        rcases List.mem_append.mp he2 with hm | hm
                        · exact h0p e2 hm
                        · rcases List.mem_append.mp hm with hm2 | hm2
                          · exact liftc l1 h1p e2 hm2
                          · exact liftw l2 h2p e2 hm2
                  | ok r2 =>
                      rw [hw] at h2ev
                      obtain ⟨cc2, cst2⟩ := r2
                      obtain ⟨l3, h3ev, h3p⟩ := ihr rp
                        (.ctxDir (setSlotT (setSlotT t n (.sdir .fnil)) n
                          (.sdir (ctxTree cc2)))) cst2
                      refine ⟨[⟨Sev.info, EvKind.dirCreated, ⟨Root.rep, rp ++ [n]⟩⟩] ++
                        (l1 ++ (l2 ++ l3)), ?_, ?_⟩
                      · simp only [fwdWalk, hl, hmk, Bool.false_eq_true, if_false, hw]
                        have h2ev2 : cst2.events =
                            (fwdFiles env (rp ++ [n]) c (.ctxDir .fnil)
                              ((st.push [⟨Sev.info, EvKind.dirCreated,
                                ⟨Root.rep, rp ++ [n]⟩⟩]).addMut
                                ⟨MutKind.mkdirM, ⟨Root.rep, rp ++ [n]⟩⟩)).2.events ++ l2 := h2ev
                        rw [h3ev, h2ev2, h1ev, h0]
                        simp [List.append_assoc]
                      · intro e2 he2
                        rcases List.mem_append.mp he2 with hm | hm
                        · exact h0p e2 hm
                        · rcases List.mem_append.mp hm with hm2 | hm2
                          · exact liftc l1 h1p e2 hm2
                          · rcases List.mem_append.mp hm2 with hm3 | hm3
                            · exact liftw l2 h2p e2 hm3
                            · exact liftr l3 h3p e2 hm3

theorem fwdFiles_frame (env : Env) (rp : Path) (x : String) :
    ∀ (src u : Tree) (st : St), ¬ x ∈ levelFileNamesT src →
      ∃ u2, (fwdFiles env rp src (.ctxDir u) st).1 = .ctxDir u2 ∧
        lookupT u2 x = lookupT u x := by
  intro src
  induction src with
  | fnil => intro u st _; exact ⟨u, rfl, rfl⟩
  | ffile n d rest ih =>
      intro u st hx
      have hnx : ¬ n = x := by
        intro he
        exact hx (by simp [levelFileNamesT, he])
      have hxrest : ¬ x ∈ levelFileNamesT rest := fun h => hx (by simp [levelFileNamesT, h])
      have step : ∀ (u1 : Tree) (st1 : St), lookupT u1 x = lookupT u x →
          ∃ u2, (fwdFiles env rp rest (.ctxDir u1) st1).1 = .ctxDir u2 ∧
            lookupT u2 x = lookupT u x := by
        intro u1 st1 h1
        obtain ⟨u2, g1, g2⟩ := ih u1 st1 hxrest
        exact ⟨u2, g1, by rw [g2, h1]⟩
      cases hl : lookupT u n with
      | none =>
          simp only [fwdFiles, hl]
          split
          · exact step _ _ (lookup_set_ne u n x _ hnx)
          · exact step _ _ rfl
      | some s =>
          cases s with
          | sfile dd =>
              simp only [fwdFiles, hl]
              split
              · split
                · exact step _ _ (lookup_set_ne u n x _ hnx)
                · exact step _ _ rfl
              · exact step _ _ rfl
          | sdir c =>
              simp only [fwdFiles, hl]
              split
              · split
                · exact step _ _ (lookup_set_ne u n x _ hnx)
                · exact step _ _ rfl
              · exact step _ _ rfl
  | fdir n c rest ihc ihr =>
      intro u st hx
      simp only [fwdFiles]
      exact ihr u st (fun h => hx (by simp [levelFileNamesT, h]))

theorem fwdFiles_hit (rp : Path) (x : String) (ds dd : FileData) :
    ∀ (src u : Tree) (st : St), WfT src = true →
      lookupT src x = some (.sfile ds) → lookupT u x = some (.sfile dd) →
      ∃ u2, (fwdFiles noFaultEnv rp src (.ctxDir u) st).1 = .ctxDir u2 ∧
        lookupT u2 x = some (.sfile (fileStepSlot ds dd)) ∧
        (fwdFiles noFaultEnv rp src (.ctxDir u) st).2.events.filter (atP (rp ++ [x])) =
          st.events.filter (atP (rp ++ [x])) ++ fileStepEvents (rp ++ [x]) ds dd := by
  intro src
  induction src with
  | fnil =>
      intro u st _ hls _
      simp [lookupT] at hls
  | fdir n c rest ihc ihr =>
      intro u st hw hls hlu
      have hw' : (¬ n ∈ namesT rest ∧ WfT c = true) ∧ WfT rest = true := by simpa [WfT] using hw
      have hnx : ¬ n = x := by
        intro he
        rw [lookupT, if_pos he] at hls
        cases hls
      rw [lookupT, if_neg hnx] at hls
      simp only [fwdFiles]
      exact ihr u st hw'.2 hls hlu
  | ffile n d rest ih =>
      intro u st hw hls hlu
      have hw' : ¬ n ∈ namesT rest ∧ WfT rest = true := by simpa [WfT] using hw
      by_cases hnx : n = x
      · subst hnx
        rw [lookupT, if_pos rfl] at hls
        simp only [Option.some.injEq, Slot.sfile.injEq] at hls
        subst hls
        have hxrest : ¬ n ∈ levelFileNamesT rest :=
          fun h => hw'.1 (levelFileNames_sub rest n h)
        have step : ∀ (u1 : Tree) (st1 : St),
            lookupT u1 n = some (.sfile (fileStepSlot d dd)) →
            st1.events.filter (atP (rp ++ [n])) =
              st.events.filter (atP (rp ++ [n])) ++ fileStepEvents (rp ++ [n]) d dd →
            ∃ u2, (fwdFiles noFaultEnv rp rest (.ctxDir u1) st1).1 = .ctxDir u2 ∧
              lookupT u2 n = some (.sfile (fileStepSlot d dd)) ∧
              (fwdFiles noFaultEnv rp rest (.ctxDir u1) st1).2.events.filter (atP (rp ++ [n])) =
                st.events.filter (atP (rp ++ [n])) ++ fileStepEvents (rp ++ [n]) d dd := by
          intro u1 st1 h1 h2
          obtain ⟨u2, g1, g2⟩ := fwdFiles_frame noFaultEnv rp n rest u1 st1 hxrest
          obtain ⟨l, e1, e2⟩ := fwdFiles_events noFaultEnv rp rest (.ctxDir u1) st1
          refine ⟨u2, g1, by rw [g2, h1], ?_⟩
          rw [e1, List.filter_append, filter_atP_nil _ l ?_, List.append_nil, h2]
          intro e he
          obtain ⟨m2, hm2, hp2⟩ := e2 e he
          rw [hp2]
          intro hEq
          exact hxrest (by rwa [path_append_one_inj rp m2 n hEq] at hm2)
        simp only [fwdFiles, hlu, calculate_md5_file]
        cases hds : d.readable with
        | true =>
            cases hdd : dd.readable with
            | true =>
                by_cases hcnt : d.content = dd.content
                · have hcond : ¬ (md5Opt d ≠ md5Opt dd) := by
                    simp [md5Opt, hds, hdd, hcnt]
                  rw [if_neg hcond]
                  refine step _ _ ?_ ?_
                  · rw [hlu]
                    simp [fileStepSlot, hds, hdd, hcnt]
                  · simp [md5Opt, hds, hdd, fileStepEvents, hcnt]
                · have hcond : md5Opt d ≠ md5Opt dd := by
                    simp [md5Opt, hds, hdd, digestOf, hcnt]
                  rw [if_pos hcond]
                  simp only [hds, copy_ok_noFault]
                  refine step _ _ ?_ ?_
                  · rw [lookup_set_self]
                    simp [fileStepSlot, copyD, hds, hdd, hcnt]
                  · simp [md5Opt, hds, hdd, fileStepEvents, hcnt, List.filter_append, atP]
            | false =>
                have hcond : md5Opt d ≠ md5Opt dd := by
                  simp [md5Opt, hds, hdd]
                rw [if_pos hcond]
                simp only [hds, copy_ok_noFault]
                refine step _ _ ?_ ?_
                · rw [lookup_set_self]
                  simp [fileStepSlot, copyD, hds, hdd]
                · simp [md5Opt, hds, hdd, fileStepEvents, List.filter_append, atP]
        | false =>
            cases hdd : dd.readable with
            | true =>
                have hcond : md5Opt d ≠ md5Opt dd := by
                  simp [md5Opt, hds, hdd]
                rw [if_pos hcond]
                simp only [hds, copy_fail_unreadable]
                refine step _ _ ?_ ?_
                · rw [hlu]
                  simp [fileStepSlot, hds]
                · simp [md5Opt, hds, hdd, fileStepEvents, List.filter_append, atP]
            | false =>
                have hcond : ¬ (md5Opt d ≠ md5Opt dd) := by
                  simp [md5Opt, hds, hdd]
                rw [if_neg hcond]
                refine step _ _ ?_ ?_
                · rw [hlu]
                  simp [fileStepSlot, hds]
                · simp [md5Opt, hds, hdd, fileStepEvents, List.filter_append, atP]
      · rw [lookupT, if_neg hnx] at hls
        have hxrest : ¬ n = x := hnx
        have hPne : ¬ (rp ++ [n] = rp ++ [x]) :=
          fun he => hnx (path_append_one_inj rp n x he)
        have step : ∀ (u1 : Tree) (st1 : St), lookupT u1 x = some (.sfile dd) →
            st1.events.filter (atP (rp ++ [x])) = st.events.filter (atP (rp ++ [x])) →
            ∃ u2, (fwdFiles noFaultEnv rp rest (.ctxDir u1) st1).1 = .ctxDir u2 ∧
              lookupT u2 x = some (.sfile (fileStepSlot ds dd)) ∧
              (fwdFiles noFaultEnv rp rest (.ctxDir u1) st1).2.events.filter (atP (rp ++ [x])) =
                st.events.filter (atP (rp ++ [x])) ++ fileStepEvents (rp ++ [x]) ds dd := by
          intro u1 st1 h1 h2
          obtain ⟨u2, g1, g2, g3⟩ := ih u1 st1 hw'.2 hls h1
          exact ⟨u2, g1, g2, by rw [g3, h2]⟩
        have dropE : ∀ (E : List Event), (∀ e ∈ E, e.loc.path = rp ++ [n]) →
            ∀ (st1 : St), st1.events = st.events ++ E →
            st1.events.filter (atP (rp ++ [x])) = st.events.filter (atP (rp ++ [x])) := by
          intro E hp st1 hev
          rw [hev, List.filter_append, filter_atP_nil _ E ?_, List.append_nil]
          intro e he
          rw [hp e he]
          exact hPne
        have hm1p : ∀ e ∈ (calculate_md5 ⟨Root.src, rp ++ [n]⟩ (.sfile d)).2,
            e.loc.path = rp ++ [n] := by
          intro e he
          rw [md5_loc _ _ e he]
        cases hl : lookupT u n with
        | none =>
            simp only [fwdFiles, hl]
            split
            · refine step _ _ (by rw [lookup_set_ne u n x _ hnx, hlu]) ?_
              refine dropE ((copy_file_with_retries (copyOk noFaultEnv d.readable (rp ++ [n]))
                ⟨.src, rp ++ [n]⟩ ⟨.rep, rp ++ [n]⟩ 3 2).2.2 ++
                [⟨.info, .fileCreated, ⟨.rep, rp ++ [n]⟩⟩]) ?_ _ (by simp)
              intro e he
              rcases List.mem_append.mp he with h1 | h1
              · rw [copy_loc _ _ _ _ _ e h1]
              · simp only [List.mem_singleton] at h1
                subst h1
                rfl
            · refine step _ _ hlu ?_
              refine dropE (copy_file_with_retries (copyOk noFaultEnv d.readable (rp ++ [n]))
                ⟨.src, rp ++ [n]⟩ ⟨.rep, rp ++ [n]⟩ 3 2).2.2 ?_ _ (by simp)
              intro e he
              rw [copy_loc _ _ _ _ _ e he]
        | some s =>
            have hm2p : ∀ e ∈ (calculate_md5 ⟨Root.rep, rp ++ [n]⟩ s).2,
                e.loc.path = rp ++ [n] := by
              intro e he
              rw [md5_loc _ _ e he]
            cases s with
            | sfile dd0 =>
                simp only [fwdFiles, hl]
                split
                · split
                  · refine step _ _ (by rw [lookup_set_ne u n x _ hnx, hlu]) ?_
                    refine dropE ((calculate_md5 ⟨Root.src, rp ++ [n]⟩ (.sfile d)).2 ++
                      ((calculate_md5 ⟨Root.rep, rp ++ [n]⟩ (.sfile dd0)).2 ++
                      ((copy_file_with_retries (copyOk noFaultEnv d.readable (rp ++ [n]))
                        ⟨.src, rp ++ [n]⟩ ⟨.rep, rp ++ [n]⟩ 3 2).2.2 ++
                      [⟨.info, .fileUpdated, ⟨.rep, rp ++ [n]⟩⟩]))) ?_ _ (by simp)
                    intro e he
                    rcases List.mem_append.mp he with h1 | h1
                    · exact hm1p e h1
                    · rcases List.mem_append.mp h1 with h2 | h2
                      · exact hm2p e h2
                      · rcases List.mem_append.mp h2 with h3 | h3
                        · rw [copy_loc _ _ _ _ _ e h3]
                        · simp only [List.mem_singleton] at h3
                          subst h3
                          rfl
                  · refine step _ _ hlu ?_
                    refine dropE ((calculate_md5 ⟨Root.src, rp ++ [n]⟩ (.sfile d)).2 ++
                      ((calculate_md5 ⟨Root.rep, rp ++ [n]⟩ (.sfile dd0)).2 ++
                      (copy_file_with_retries (copyOk noFaultEnv d.readable (rp ++ [n]))
                        ⟨.src, rp ++ [n]⟩ ⟨.rep, rp ++ [n]⟩ 3 2).2.2)) ?_ _ (by simp)
                    intro e he
                    rcases List.mem_append.mp he with h1 | h1
                    · exact hm1p e h1
                    · rcases List.mem_append.mp h1 with h2 | h2
                      · exact hm2p e h2
                      · rw [copy_loc _ _ _ _ _ e h2]
                · refine step _ _ hlu ?_
                  refine dropE ((calculate_md5 ⟨Root.src, rp ++ [n]⟩ (.sfile d)).2 ++
                    (calculate_md5 ⟨Root.rep, rp ++ [n]⟩ (.sfile dd0)).2) ?_ _ (by simp)
                  intro e he
                  rcases List.mem_append.mp he with h1 | h1
                  · exact hm1p e h1
                  · exact hm2p e h1
            | sdir c0 =>
                simp only [fwdFiles, hl]
                split
                · split
                  · refine step _ _ (by rw [lookup_set_ne u n x _ hnx, hlu]) ?_
                    refine dropE ((calculate_md5 ⟨Root.src, rp ++ [n]⟩ (.sfile d)).2 ++
                      ((calculate_md5 ⟨Root.rep, rp ++ [n]⟩ (.sdir c0)).2 ++
                      ((copy_file_with_retries (copyOk noFaultEnv d.readable (rp ++ [n]))
                        ⟨.src, rp ++ [n]⟩ ⟨.rep, rp ++ [n]⟩ 3 2).2.2 ++
                      [⟨.info, .fileUpdated, ⟨.rep, rp ++ [n]⟩⟩]))) ?_ _ (by simp)
                    intro e he
                    rcases List.mem_append.mp he with h1 | h1
                    · exact hm1p e h1
                    · rcases List.mem_append.mp h1 with h2 | h2
                      · exact hm2p e h2
                      · rcases List.mem_append.mp h2 with h3 | h3
                        · rw [copy_loc _ _ _ _ _ e h3]
                        · simp only [List.mem_singleton] at h3
                          subst h3
                          rfl
                  · refine step _ _ hlu ?_
                    refine dropE ((calculate_md5 ⟨Root.src, rp ++ [n]⟩ (.sfile d)).2 ++
                      ((calculate_md5 ⟨Root.rep, rp ++ [n]⟩ (.sdir c0)).2 ++
                      (copy_file_with_retries (copyOk noFaultEnv d.readable (rp ++ [n]))
                        ⟨.src, rp ++ [n]⟩ ⟨.rep, rp ++ [n]⟩ 3 2).2.2)) ?_ _ (by simp)
                    intro e he
                    rcases List.mem_append.mp he with h1 | h1
                    · exact hm1p e h1
                    · rcases List.mem_append.mp h1 with h2 | h2
                      · exact hm2p e h2
                      · rw [copy_loc _ _ _ _ _ e h2]
                · refine step _ _ hlu ?_
                  refine dropE ((calculate_md5 ⟨Root.src, rp ++ [n]⟩ (.sfile d)).2 ++
                    (calculate_md5 ⟨Root.rep, rp ++ [n]⟩ (.sdir c0)).2) ?_ _ (by simp)
                  intro e he
                  rcases List.mem_append.mp he with h1 | h1
                  · exact hm1p e h1
                  · exact hm2p e h1

theorem fileAt_one (t : Tree) (x : String) (d : FileData) :
    fileAt t [x] = some d ↔ lookupT t x = some (.sfile d) := by
  cases hl : lookupT t x with
  | none => simp [fileAt_cons_none t x [] hl]
  | some s =>
      cases s with
      | sfile d0 => simp [fileAt_cons_file t x [] d0 hl]
      | sdir c => simp [fileAt_cons_dir t x [] c hl]

theorem levelDirs_of_lookup (t : Tree) (x : String) (c : Tree)
    (h : lookupT t x = some (.sdir c)) : (x, c) ∈ levelDirsT t := by
  induction t with
  | fnil => simp [lookupT] at h
  | ffile n d r ih =>
      rw [lookupT] at h
      split at h
      · cases h
      · simp only [levelDirsT]
        exact ih h
  | fdir n c0 r ihc ihr =>
      rw [lookupT] at h
      split at h
      · next he =>
          simp only [Option.some.injEq, Slot.sdir.injEq] at h
          subst he
          subst h
          simp [levelDirsT]
      · simp only [levelDirsT, List.mem_cons]
        exact Or.inr (ihr h)

theorem levelFile_of_lookup (t : Tree) (x : String) (d : FileData)
    (h : lookupT t x = some (.sfile d)) : x ∈ levelFileNamesT t := by
  induction t with
  | fnil => simp [lookupT] at h
  | ffile n d0 r ih =>
      rw [lookupT] at h
      split at h
      · next he =>
          subst he
          simp [levelFileNamesT]
      · simp only [levelFileNamesT, List.mem_cons]
        exact Or.inr (ih h)
  | fdir n c r ihc ihr =>
      rw [lookupT] at h
      split at h
      · cases h
      · simp only [levelFileNamesT]
        exact ihr h

theorem fwdWalk_frame (env : Env) (x : String) :
    ∀ (src : Tree) (rp : Path) (t : Tree) (st : St) (ctx2 : FwdCtx) (st2 : St),
      ¬ x ∈ (levelDirsT src).map Prod.fst →
      fwdWalk env rp src (.ctxDir t) st = .ok (ctx2, st2) →
      ∃ t2, ctx2 = .ctxDir t2 ∧ lookupT t2 x = lookupT t x := by
  intro src
  induction src with
  | fnil =>
      intro rp t st ctx2 st2 _ h
      simp only [fwdWalk, Except.ok.injEq, Prod.mk.injEq] at h
      exact ⟨t, h.1.symm, rfl⟩
  | ffile n d rest ih =>
      intro rp t st ctx2 st2 hx h
      simp only [fwdWalk] at h
      exact ih rp t st ctx2 st2 hx h
  | fdir n c rest ihc ihr =>
      intro rp t st ctx2 st2 hx h
      have hnx : ¬ n = x := by
        intro he
        exact hx (by simp [levelDirsT, he])
      have hxrest : ¬ x ∈ (levelDirsT rest).map Prod.fst := by
        intro hm
        exact hx (by simp [levelDirsT, hm])
      cases hl : lookupT t n with
      | some s =>
          cases s with
          | sfile dd =>
              simp only [fwdWalk, hl] at h
              cases hw : fwdWalk env (rp ++ [n]) c (fwdFiles env (rp ++ [n]) c .blocked st).1
                  (fwdFiles env (rp ++ [n]) c .blocked st).2 with
              | error e => rw [hw] at h; simp at h
              | ok r2 =>
                  rw [hw] at h
                  simp only [] at h
                  exact ihr rp t r2.2 ctx2 st2 hxrest h
          | sdir w =>
              simp only [fwdWalk, hl] at h
              cases hw : fwdWalk env (rp ++ [n]) c (fwdFiles env (rp ++ [n]) c (.ctxDir w) st).1
                  (fwdFiles env (rp ++ [n]) c (.ctxDir w) st).2 with
              | error e => rw [hw] at h; simp at h
              | ok r2 =>
                  rw [hw] at h
                  obtain ⟨cc2, cst2⟩ := r2
                  simp only [] at h
                  obtain ⟨t2, g1, g2⟩ := ihr rp _ cst2 ctx2 st2 hxrest h
                  exact ⟨t2, g1, by rw [g2, lookup_set_ne t n x _ hnx]⟩
      | none =>
          cases hmk : env.mkdirFails (rp ++ [n]) with
          | true => simp [fwdWalk, hl, hmk] at h
          | false =>
              simp only [fwdWalk, hl, hmk, Bool.false_eq_true, if_false] at h
              cases hw : fwdWalk env (rp ++ [n]) c
                  (fwdFiles env (rp ++ [n]) c (.ctxDir .fnil)
                    ((st.push [⟨Sev.info, EvKind.dirCreated, ⟨Root.rep, rp ++ [n]⟩⟩]).addMut
                      ⟨MutKind.mkdirM, ⟨Root.rep, rp ++ [n]⟩⟩)).1
                  (fwdFiles env (rp ++ [n]) c (.ctxDir .fnil)
                    ((st.push [⟨Sev.info, EvKind.dirCreated, ⟨Root.rep, rp ++ [n]⟩⟩]).addMut
                      ⟨MutKind.mkdirM, ⟨Root.rep, rp ++ [n]⟩⟩)).2 with
              | error e => rw [hw] at h; simp at h
              | ok r2 =>
                  rw [hw] at h
                  obtain ⟨cc2, cst2⟩ := r2
                  simp only [] at h
                  obtain ⟨t2, g1, g2⟩ := ihr rp _ cst2 ctx2 st2 hxrest h
                  refine ⟨t2, g1, ?_⟩
                  rw [g2, lookup_set_ne _ n x _ hnx, lookup_set_ne t n x _ hnx]

theorem fwdPhase_path :
    ∀ (k : Nat) (src : Tree), sizeOf src ≤ k →
      ∀ (rp : Path) (u : Tree) (st : St) (p : Path) (ds dd : FileData) (t2 : Tree) (st2 : St),
        WfT src = true →
        fileAt src p = some ds → fileAt u p = some dd →
        fwdPhase noFaultEnv rp src u st = .ok (t2, st2) →
        fileAt t2 p = some (fileStepSlot ds dd) ∧
        st2.events.filter (atP (rp ++ p)) =
          st.events.filter (atP (rp ++ p)) ++ fileStepEvents (rp ++ p) ds dd := by
  intro k
  induction k with
  | zero =>
      intro src hsz
      exact absurd (Nat.lt_of_lt_of_le (sizeOf_tree_pos src) hsz) (lt_irrefl 0)
  | succ k ihk =>
      intro src hsz
      have walkHit : ∀ (s : Tree), sizeOf s ≤ k + 1 →
          ∀ (rp : Path) (t : Tree) (st : St) (ctx2 : FwdCtx) (st2 : St)
            (x : String) (q : Path) (c w : Tree) (ds dd : FileData),
            WfT s = true →
            lookupT s x = some (.sdir c) → lookupT t x = some (.sdir w) →
            fileAt c q = some ds → fileAt w q = some dd →
            fwdWalk noFaultEnv rp s (.ctxDir t) st = .ok (ctx2, st2) →
            ∃ t2 c2, ctx2 = .ctxDir t2 ∧ lookupT t2 x = some (.sdir c2) ∧
              fileAt c2 q = some (fileStepSlot ds dd) ∧
              st2.events.filter (atP (rp ++ (x :: q))) =
                st.events.filter (atP (rp ++ (x :: q))) ++
                  fileStepEvents (rp ++ (x :: q)) ds dd := by
        intro s
        induction s with
        | fnil =>
            intro _ rp t st ctx2 st2 x q c w ds dd _ hls
            simp [lookupT] at hls
        | ffile n d rest ih =>
            intro hszs rp t st ctx2 st2 x q c w ds dd hws hls hlt hfc hfw hrun
            have hnx : ¬ n = x := by
              intro he
              rw [lookupT, if_pos he] at hls
              cases hls
            rw [lookupT, if_neg hnx] at hls
            have hws' : ¬ n ∈ namesT rest ∧ WfT rest = true := by simpa [WfT] using hws
            have hszr : sizeOf rest ≤ k + 1 := by
              have : sizeOf rest ≤ sizeOf (Tree.ffile n d rest) := by
                simp only [Tree.ffile.sizeOf_spec]
                omega
              omega
            simp only [fwdWalk] at hrun
            exact ih hszr rp t st ctx2 st2 x q c w ds dd hws'.2 hls hlt hfc hfw hrun
        | fdir n c0 rest ihc ihr =>
            intro hszs rp t st ctx2 st2 x q c w ds dd hws hls hlt hfc hfw hrun
            have hws' : (¬ n ∈ namesT rest ∧ WfT c0 = true) ∧ WfT rest = true := by
              simpa [WfT] using hws
            have hszr : sizeOf rest ≤ k + 1 := by
              have : sizeOf rest ≤ sizeOf (Tree.fdir n c0 rest) := by
                simp only [Tree.fdir.sizeOf_spec]
                omega
              omega
            by_cases hnx : n = x
            · subst hnx
              rw [lookupT, if_pos rfl] at hls
              simp only [Option.some.injEq, Slot.sdir.injEq] at hls
              subst hls
              have hxdrest : ¬ n ∈ (levelDirsT rest).map Prod.fst := by
                intro hm
                obtain ⟨mc, hmem, hfst⟩ := List.mem_map.mp hm
                obtain ⟨m0, c9⟩ := mc
                simp only [] at hfst
                rw [hfst] at hmem
                exact hws'.1.1 (levelDirs_sub rest n c9 hmem)
              simp only [fwdWalk, hlt] at hrun
              cases hw2 : fwdWalk noFaultEnv (rp ++ [n]) c0
                  (fwdFiles noFaultEnv (rp ++ [n]) c0 (.ctxDir w) st).1
                  (fwdFiles noFaultEnv (rp ++ [n]) c0 (.ctxDir w) st).2 with
              | error e =>
                  rw [hw2] at hrun
                  simp at hrun
              | ok r2 =>
                  rw [hw2] at hrun
                  obtain ⟨cc2, cst2⟩ := r2
                  simp only [] at hrun
                  have hphase : fwdPhase noFaultEnv (rp ++ [n]) c0 w st =
                      .ok (ctxTree cc2, cst2) := by
                    simp only [fwdPhase, hw2]
                  have hszc : sizeOf c0 ≤ k := by
                    have h1 : sizeOf c0 < sizeOf (Tree.fdir n c0 rest) := by
                      simp only [Tree.fdir.sizeOf_spec]
                      omega
                    omega
                  obtain ⟨hA, hB⟩ := ihk c0 hszc (rp ++ [n]) w st q ds dd
                    (ctxTree cc2) cst2 hws'.1.2 hfc hfw hphase
                  have hpq : (rp ++ [n]) ++ q = rp ++ (n :: q) := by
                    rw [List.append_assoc]
                    rfl
                  rw [hpq] at hB
                  obtain ⟨t2, hctx2, hlk⟩ := fwdWalk_frame noFaultEnv n rest rp
                    (setSlotT t n (.sdir (ctxTree cc2))) cst2 ctx2 st2 hxdrest hrun
                  obtain ⟨l, hev, hpr⟩ := fwdWalk_events noFaultEnv rest rp
                    (.ctxDir (setSlotT t n (.sdir (ctxTree cc2)))) cst2
                  rw [hrun] at hev
                  have hev2 : st2.events = cst2.events ++ l := hev
                  refine ⟨t2, ctxTree cc2, hctx2, ?_, hA, ?_⟩
                  · rw [hlk, lookup_set_self]
                  · rw [hev2, List.filter_append, filter_atP_nil _ l ?_, List.append_nil, hB]
                    intro e he
                    obtain ⟨m2, q2, hm2, hp2⟩ := hpr e he
                    rw [hp2]
                    intro hEq
                    have h3 : m2 :: q2 = n :: q := List.append_cancel_left hEq
                    simp only [List.cons.injEq] at h3
                    rw [h3.1] at hm2
                    exact hxdrest hm2
            · rw [lookupT, if_neg hnx] at hls
              have hstep : ∀ (t1 : Tree) (st1 : St) (E : List Event),
                  lookupT t1 x = lookupT t x →
                  st1.events = st.events ++ E →
                  (∀ e ∈ E, ∃ q0, e.loc.path = rp ++ (n :: q0)) →
                  fwdWalk noFaultEnv rp rest (.ctxDir t1) st1 = .ok (ctx2, st2) →
                  ∃ t2 c2, ctx2 = .ctxDir t2 ∧ lookupT t2 x = some (.sdir c2) ∧
                    fileAt c2 q = some (fileStepSlot ds dd) ∧
                    st2.events.filter (atP (rp ++ (x :: q))) =
                      st.events.filter (atP (rp ++ (x :: q))) ++
                        fileStepEvents (rp ++ (x :: q)) ds dd := by
                intro t1 st1 E hl1 hE hEp hrun1
                obtain ⟨t2, c2, g1, g2, g3, g4⟩ := ihr hszr rp t1 st1 ctx2 st2 x q c w ds dd
                  hws'.2 hls (by rw [hl1, hlt]) hfc hfw hrun1
                refine ⟨t2, c2, g1, g2, g3, ?_⟩
                rw [g4, hE, List.filter_append, filter_atP_nil _ E ?_, List.append_nil]
                intro e he
                obtain ⟨q0, hp0⟩ := hEp e he
                rw [hp0]
                intro hEq
                have h3 : n :: q0 = x :: q := List.append_cancel_left hEq
                simp only [List.cons.injEq] at h3
                exact hnx h3.1
              have hprc : ∀ (ctxa : FwdCtx) (sta : St),
                  ∀ e ∈ (fwdFiles noFaultEnv (rp ++ [n]) c0 ctxa sta).2.events.drop
                    sta.events.length, True := fun _ _ _ _ => trivial
              cases hl : lookupT t n with
              | some s0 =>
                  cases s0 with
                  | sfile dd0 =>
                      simp only [fwdWalk, hl] at hrun
                      obtain ⟨l1, h1ev, h1p⟩ := fwdFiles_events noFaultEnv (rp ++ [n]) c0
                        .blocked st
                      obtain ⟨l2, h2ev, h2p⟩ := fwdWalk_events noFaultEnv c0 (rp ++ [n])
                        (fwdFiles noFaultEnv (rp ++ [n]) c0 .blocked st).1
                        (fwdFiles noFaultEnv (rp ++ [n]) c0 .blocked st).2
                      cases hw2 : fwdWalk noFaultEnv (rp ++ [n]) c0
                          (fwdFiles noFaultEnv (rp ++ [n]) c0 .blocked st).1
                          (fwdFiles noFaultEnv (rp ++ [n]) c0 .blocked st).2 with
                      | error e =>
                          rw [hw2] at hrun
                          simp at hrun
                      | ok r2 =>
                          rw [hw2] at hrun
                          simp only [] at hrun
                          rw [hw2] at h2ev
                          refine hstep t r2.2 (l1 ++ l2) rfl ?_ ?_ hrun
                          · have : r2.2.events =
                                (fwdFiles noFaultEnv (rp ++ [n]) c0 .blocked st).2.events
                                  ++ l2 := h2ev
                            rw [this, h1ev, List.append_assoc]
                          · intro e he
                            rcases List.mem_append.mp he with h1 | h1
                            · obtain ⟨m2, _, hp2⟩ := h1p e h1
                              refine ⟨[m2], ?_⟩
                              rw [hp2, List.append_assoc]
                              rfl
                            · obtain ⟨m2, q2, _, hp2⟩ := h2p e h1
                              refine ⟨m2 :: q2, ?_⟩
                              rw [hp2, List.append_assoc]
                              rfl
                  | sdir w0 =>
                      simp only [fwdWalk, hl] at hrun
                      obtain ⟨l1, h1ev, h1p⟩ := fwdFiles_events noFaultEnv (rp ++ [n]) c0
                        (.ctxDir w0) st
                      obtain ⟨l2, h2ev, h2p⟩ := fwdWalk_events noFaultEnv c0 (rp ++ [n])
                        (fwdFiles noFaultEnv (rp ++ [n]) c0 (.ctxDir w0) st).1
                        (fwdFiles noFaultEnv (rp ++ [n]) c0 (.ctxDir w0) st).2
                      cases hw2 : fwdWalk noFaultEnv (rp ++ [n]) c0
                          (fwdFiles noFaultEnv (rp ++ [n]) c0 (.ctxDir w0) st).1
                          (fwdFiles noFaultEnv (rp ++ [n]) c0 (.ctxDir w0) st).2 with
                      | error e =>
                          rw [hw2] at hrun
                          simp at hrun
                      | ok r2 =>
                          rw [hw2] at hrun
                          obtain ⟨cc2, cst2⟩ := r2
                          simp only [] at hrun
                          rw [hw2] at h2ev
                          refine hstep (setSlotT t n (.sdir (ctxTree cc2))) cst2 (l1 ++ l2)
                            (lookup_set_ne t n x _ hnx) ?_ ?_ hrun
                          · have : cst2.events =
                                (fwdFiles noFaultEnv (rp ++ [n]) c0 (.ctxDir w0) st).2.events
                                  ++ l2 := h2ev
                            rw [this, h1ev, List.append_assoc]
                          · intro e he
                            rcases List.mem_append.mp he with h1 | h1
                            · obtain ⟨m2, _, hp2⟩ := h1p e h1
                              refine ⟨[m2], ?_⟩
                              rw [hp2, List.append_assoc]
                              rfl
                            · obtain ⟨m2, q2, _, hp2⟩ := h2p e h1
                              refine ⟨m2 :: q2, ?_⟩
                              rw [hp2, List.append_assoc]
                              rfl
              | none =>
                  simp only [fwdWalk, hl, noFaultEnv_mkdir, Bool.false_eq_true, if_false]
                    at hrun
                  obtain ⟨l1, h1ev, h1p⟩ := fwdFiles_events noFaultEnv (rp ++ [n]) c0
                    (.ctxDir .fnil)
                    ((st.push [⟨Sev.info, EvKind.dirCreated, ⟨Root.rep, rp ++ [n]⟩⟩]).addMut
                      ⟨MutKind.mkdirM, ⟨Root.rep, rp ++ [n]⟩⟩)
                  obtain ⟨l2, h2ev, h2p⟩ := fwdWalk_events noFaultEnv c0 (rp ++ [n])
                    (fwdFiles noFaultEnv (rp ++ [n]) c0 (.ctxDir .fnil)
                      ((st.push [⟨Sev.info, EvKind.dirCreated, ⟨Root.rep, rp ++ [n]⟩⟩]).addMut
                        ⟨MutKind.mkdirM, ⟨Root.rep, rp ++ [n]⟩⟩)).1
                    (fwdFiles noFaultEnv (rp ++ [n]) c0 (.ctxDir .fnil)
                      ((st.push [⟨Sev.info, EvKind.dirCreated, ⟨Root.rep, rp ++ [n]⟩⟩]).addMut
                        ⟨MutKind.mkdirM, ⟨Root.rep, rp ++ [n]⟩⟩)).2
                  cases hw2 : fwdWalk noFaultEnv (rp ++ [n]) c0
                      (fwdFiles noFaultEnv (rp ++ [n]) c0 (.ctxDir .fnil)
                        ((st.push [⟨Sev.info, EvKind.dirCreated, ⟨Root.rep, rp ++ [n]⟩⟩]).addMut
                          ⟨MutKind.mkdirM, ⟨Root.rep, rp ++ [n]⟩⟩)).1
                      (fwdFiles noFaultEnv (rp ++ [n]) c0 (.ctxDir .fnil)
                        ((st.push [⟨Sev.info, EvKind.dirCreated, ⟨Root.rep, rp ++ [n]⟩⟩]).addMut
                          ⟨MutKind.mkdirM, ⟨Root.rep, rp ++ [n]⟩⟩)).2 with
                  | error e =>
                      rw [hw2] at hrun
                      simp at hrun
                  | ok r2 =>
                      rw [hw2] at hrun
                      obtain ⟨cc2, cst2⟩ := r2
                      simp only [] at hrun
                      rw [hw2] at h2ev
                      refine hstep (setSlotT (setSlotT t n (.sdir .fnil)) n
                          (.sdir (ctxTree cc2))) cst2
                        ([⟨Sev.info, EvKind.dirCreated, ⟨Root.rep, rp ++ [n]⟩⟩] ++ (l1 ++ l2))
                        ?_ ?_ ?_ hrun
                      · rw [lookup_set_ne _ n x _ hnx, lookup_set_ne t n x _ hnx]
                      · have : cst2.events =
                            (fwdFiles noFaultEnv (rp ++ [n]) c0 (.ctxDir .fnil)
                              ((st.push [⟨Sev.info, EvKind.dirCreated,
                                ⟨Root.rep, rp ++ [n]⟩⟩]).addMut
                                ⟨MutKind.mkdirM, ⟨Root.rep, rp ++ [n]⟩⟩)).2.events ++ l2 := h2ev
                        rw [this, h1ev]
                        simp [List.append_assoc]
                      · intro e he
                        rcases List.mem_append.mp he with h1 | h1
                        · simp only [List.mem_singleton] at h1
                          subst h1
                          exact ⟨[], rfl⟩
                        · rcases List.mem_append.mp h1 with h2 | h2
                          · obtain ⟨m2, _, hp2⟩ := h1p e h2
                            refine ⟨[m2], ?_⟩
                            rw [hp2, List.append_assoc]
                            rfl
                          · obtain ⟨m2, q2, _, hp2⟩ := h2p e h2
                            refine ⟨m2 :: q2, ?_⟩
                            rw [hp2, List.append_assoc]
                            rfl
      intro rp u st p ds dd t2 st2 hw hfs hfu hrun
      cases p with
      | nil => simp at hfs
      | cons x q =>
          cases hw2 : fwdWalk noFaultEnv rp src (fwdFiles noFaultEnv rp src (.ctxDir u) st).1
              (fwdFiles noFaultEnv rp src (.ctxDir u) st).2 with
          | error e =>
              simp only [fwdPhase, hw2] at hrun
              cases hrun
          | ok r2 =>
              obtain ⟨ctx2, st2'⟩ := r2
              simp only [fwdPhase, hw2, Except.ok.injEq, Prod.mk.injEq] at hrun
              obtain ⟨hrt, hrs⟩ := hrun
              subst hrt
              subst hrs
              cases hq : decide (q = []) with
              | true =>
                  have hq2 : q = [] := of_decide_eq_true hq
                  subst hq2
                  have hls : lookupT src x = some (.sfile ds) := (fileAt_one src x ds).mp hfs
                  have hlu : lookupT u x = some (.sfile dd) := (fileAt_one u x dd).mp hfu
                  obtain ⟨u1, hctx1, hlook1, hfilt1⟩ :=
                    fwdFiles_hit rp x ds dd src u st hw hls hlu
                  have hxd : ¬ x ∈ (levelDirsT src).map Prod.fst := by
                    intro hm
                    obtain ⟨mc, hmem, hfst⟩ := List.mem_map.mp hm
                    obtain ⟨m0, c9⟩ := mc
                    simp only [] at hfst
                    rw [hfst] at hmem
                    exact levelDir_not_levelFile src x c9 hw hmem
                      (levelFile_of_lookup src x ds hls)
                  rw [hctx1] at hw2
                  obtain ⟨t2', hctx2, hl2⟩ := fwdWalk_frame noFaultEnv x src rp u1
                    (fwdFiles noFaultEnv rp src (.ctxDir u) st).2 ctx2 st2' hxd hw2
                  obtain ⟨l, hev, hpr⟩ := fwdWalk_events noFaultEnv src rp (.ctxDir u1)
                    (fwdFiles noFaultEnv rp src (.ctxDir u) st).2
                  rw [hw2] at hev
                  have hev2 : st2'.events =
                      (fwdFiles noFaultEnv rp src (.ctxDir u) st).2.events ++ l := hev
                  constructor
                  · rw [hctx2]
                    exact (fileAt_one t2' x (fileStepSlot ds dd)).mpr (by rw [hl2, hlook1])
                  · rw [hev2, List.filter_append, filter_atP_nil _ l ?_, List.append_nil,
                      hfilt1]
                    intro e he
                    obtain ⟨m2, q2, hm2, hp2⟩ := hpr e he
                    rw [hp2]
                    intro hEq
                    have h3 : m2 :: q2 = [x] := List.append_cancel_left hEq
                    simp only [List.cons.injEq] at h3
                    rw [h3.1] at hm2
                    exact hxd hm2
              | false =>
                  have hq2 : ¬ q = [] := of_decide_eq_false hq
                  obtain ⟨c, hls, hfc⟩ : ∃ c, lookupT src x = some (.sdir c) ∧
                      fileAt c q = some ds := by
                    cases hls : lookupT src x with
                    | none => rw [fileAt_cons_none src x q hls] at hfs; cases hfs
                    | some s0 =>
                        cases s0 with
                        | sfile d0 =>
                            rw [fileAt_cons_file src x q d0 hls, if_neg hq2] at hfs
                            cases hfs
                        | sdir c =>
                            rw [fileAt_cons_dir src x q c hls, if_neg hq2] at hfs
                            exact ⟨c, rfl, hfs⟩
                  obtain ⟨w, hlu, hfw⟩ : ∃ w, lookupT u x = some (.sdir w) ∧
                      fileAt w q = some dd := by
                    cases hlu : lookupT u x with
                    | none => rw [fileAt_cons_none u x q hlu] at hfu; cases hfu
                    | some s0 =>
                        cases s0 with
                        | sfile d0 =>
                            rw [fileAt_cons_file u x q d0 hlu, if_neg hq2] at hfu
                            cases hfu
                        | sdir w =>
                            rw [fileAt_cons_dir u x q w hlu, if_neg hq2] at hfu
                            exact ⟨w, rfl, hfu⟩
                  have hxf : ¬ x ∈ levelFileNamesT src := by
                    intro hm
                    exact levelDir_not_levelFile src x c hw (levelDirs_of_lookup src x c hls) hm
                  obtain ⟨u1, hctx1, hlook1⟩ := fwdFiles_frame noFaultEnv rp x src u st hxf
                  obtain ⟨l1, h1ev, h1p⟩ := fwdFiles_events noFaultEnv rp src (.ctxDir u) st
                  rw [hctx1] at hw2
                  obtain ⟨t2', c2, hctx2, hlk, hfAt, hfiltW⟩ := walkHit src hsz rp u1
                    (fwdFiles noFaultEnv rp src (.ctxDir u) st).2 ctx2 st2' x q c w ds dd
                    hw hls (by rw [hlook1, hlu]) hfc hfw hw2
                  constructor
                  · rw [hctx2]
                    simp only [ctxTree]
                    rw [fileAt_cons_dir t2' x q c2 hlk, if_neg hq2]
                    exact hfAt
                  · rw [hfiltW, h1ev, List.filter_append, filter_atP_nil _ l1 ?_,
                      List.append_nil]
                    intro e he
                    obtain ⟨m2, hm2, hp2⟩ := h1p e he
                    rw [hp2]
                    intro hEq
                    obtain ⟨hmx, hqnil⟩ := path_append_cons_inj rp m2 x q hEq
                    exact hq2 hqnil

theorem perform_sync_decomp (env : Env) (s r : Tree) :
    perform_sync env s r =
      (match fwdPhase env [] s r St.init with
      | .error e => .error e
      | .ok (rep1, st2) =>
          match bwdDirs env st2.srcFiles [] (some s) rep1 st2 with
          | .error e => .error e
          | .ok (rep2, st3) =>
              .ok ((bwdFiles env st3.srcFiles [] rep2 st3).1,
                (bwdFiles env st3.srcFiles [] rep2 st3).2.changed,
                (bwdFiles env st3.srcFiles [] rep2 st3).2)) := by
  simp only [perform_sync, fwdPhase]
  cases fwdWalk env [] s (fwdFiles env [] s (.ctxDir r) St.init).1
      (fwdFiles env [] s (.ctxDir r) St.init).2 with
  | error e => rfl
  | ok r2 =>
      obtain ⟨ctx2, st2⟩ := r2
      rfl

theorem bwdFiles_srcFiles (env : Env) (sf : List Path) (rp : Path) :
    ∀ (rep : Tree) (st : St), (bwdFiles env sf rp rep st).2.srcFiles = st.srcFiles := by
  intro rep
  induction rep with
  | fnil => intro st; rfl
  | ffile n d rest ih =>
      intro st
      simp only [bwdFiles]
      split
      · exact ih st
      · split
        · exact ih _
        · exact ih _
  | fdir n c rest ihc ihr =>
      intro st
      simp only [bwdFiles]
      exact ihr st

theorem bwdDirs_srcFiles (env : Env) (sf : List Path) :
    ∀ (rep : Tree) (rp : Path) (sctx : Option Tree) (st : St),
      (resSt (bwdDirs env sf rp sctx rep st)).srcFiles = st.srcFiles := by
  intro rep
  induction rep with
  | fnil => intro rp sctx st; cases sctx <;> rfl
  | ffile n d rest ih =>
      intro rp sctx st
      simp only [bwdDirs]
      cases hr : bwdDirs env sf rp sctx rest st with
      | error e =>
          have h0 := ih rp sctx st
          rw [hr] at h0
          exact h0
      | ok r2 =>
          obtain ⟨rest2, st2⟩ := r2
          have h0 := ih rp sctx st
          rw [hr] at h0
          exact h0
  | fdir n c rest ihc ihr =>
      intro rp sctx st
      have keep : ∀ (cc : Option Tree),
          (resSt ((match bwdDirs env sf (rp ++ [n]) cc c st with
            | .error e => .error e
            | .ok (c1, st1) =>
                match bwdDirs env sf rp sctx rest (bwdFiles env sf (rp ++ [n]) c1 st1).2 with
                | .error e => .error e
                | .ok (rest2, st3) =>
                    .ok (.fdir n (bwdFiles env sf (rp ++ [n]) c1 st1).1 rest2,
                      st3) : Except (Fault × St) (Tree × St)))).srcFiles = st.srcFiles := by
        intro cc
        cases hc : bwdDirs env sf (rp ++ [n]) cc c st with
        | error e =>
            have h1 := ihc (rp ++ [n]) cc st
            rw [hc] at h1
            exact h1
        | ok r1 =>
            obtain ⟨c1, st1⟩ := r1
            simp only []
            have h1 := ihc (rp ++ [n]) cc st
            rw [hc] at h1
            have h2 := bwdFiles_srcFiles env sf (rp ++ [n]) c1 st1
            cases hr : bwdDirs env sf rp sctx rest (bwdFiles env sf (rp ++ [n]) c1 st1).2 with
            | error e =>
                have h3 := ihr rp sctx (bwdFiles env sf (rp ++ [n]) c1 st1).2
                rw [hr] at h3
                simp only []
                simp only [resSt] at h1 h3 ⊢
                rw [h3, h2, h1]
            | ok r3 =>
                obtain ⟨rest2, st3⟩ := r3
                have h3 := ihr rp sctx (bwdFiles env sf (rp ++ [n]) c1 st1).2
                rw [hr] at h3
                simp only []
                simp only [resSt] at h1 h3 ⊢
                rw [h3, h2, h1]
      have drop :
          (resSt ((match bwdDirs env sf (rp ++ [n]) none c st with
            | .error e => .error e
            | .ok (c1, st1) =>
                if env.rmdirFails (rp ++ [n]) ||
                    !(isNilT (bwdFiles env sf (rp ++ [n]) c1 st1).1) then
                  .error (.rmdirFault (rp ++ [n]), (bwdFiles env sf (rp ++ [n]) c1 st1).2)
                else
                  match bwdDirs env sf rp sctx rest
                      ((((bwdFiles env sf (rp ++ [n]) c1 st1).2.push
                        [⟨Sev.info, EvKind.dirDeleted, ⟨Root.rep, rp ++ [n]⟩⟩]).mark).addMut
                        ⟨MutKind.rmdirM, ⟨Root.rep, rp ++ [n]⟩⟩) with
                  | .error e => .error e
                  | .ok (rest2, st4) => .ok (rest2, st4) :
                Except (Fault × St) (Tree × St)))).srcFiles = st.srcFiles := by
        cases hc : bwdDirs env sf (rp ++ [n]) none c st with
        | error e =>
            have h1 := ihc (rp ++ [n]) none st
            rw [hc] at h1
            exact h1
        | ok r1 =>
            obtain ⟨c1, st1⟩ := r1
            simp only []
            have h1 := ihc (rp ++ [n]) none st
            rw [hc] at h1
            have h2 := bwdFiles_srcFiles env sf (rp ++ [n]) c1 st1
            split
            · simp only [resSt] at h1 ⊢
              rw [h2, h1]
            · cases hr : bwdDirs env sf rp sctx rest
                  ((((bwdFiles env sf (rp ++ [n]) c1 st1).2.push
                    [⟨Sev.info, EvKind.dirDeleted, ⟨Root.rep, rp ++ [n]⟩⟩]).mark).addMut
                    ⟨MutKind.rmdirM, ⟨Root.rep, rp ++ [n]⟩⟩) with
              | error e =>
                  have h3 := ihr rp sctx
                    ((((bwdFiles env sf (rp ++ [n]) c1 st1).2.push
                      [⟨Sev.info, EvKind.dirDeleted, ⟨Root.rep, rp ++ [n]⟩⟩]).mark).addMut
                      ⟨MutKind.rmdirM, ⟨Root.rep, rp ++ [n]⟩⟩)
                  rw [hr] at h3
                  simp only []
                  simp only [resSt] at h1 h3 ⊢
                  rw [h3]
                  simp [h2, h1]
              | ok r3 =>
                  obtain ⟨rest2, st4⟩ := r3
                  have h3 := ihr rp sctx
                    ((((bwdFiles env sf (rp ++ [n]) c1 st1).2.push
                      [⟨Sev.info, EvKind.dirDeleted, ⟨Root.rep, rp ++ [n]⟩⟩]).mark).addMut
                      ⟨MutKind.rmdirM, ⟨Root.rep, rp ++ [n]⟩⟩)
                  rw [hr] at h3
                  simp only []
                  simp only [resSt] at h1 h3 ⊢
                  rw [h3]
                  simp [h2, h1]
      cases sctx with
      | none =>
          simp only [bwdDirs]
          exact drop
      | some sf0 =>
          cases hls : lookupT sf0 n with
          | none =>
              simp only [bwdDirs, hls]
              exact drop
          | some s0 =>
              cases s0 with
              | sfile d0 =>
                  simp only [bwdDirs, hls]
                  exact keep none
              | sdir sc =>
                  simp only [bwdDirs, hls]
                  exact keep (some sc)

theorem isNilT_false_of_fileAt (t : Tree) (q : Path) (d : FileData)
    (h : fileAt t q = some d) : isNilT t = false := by
  cases t with
  | fnil =>
      cases q with
      | nil => simp at h
      | cons m q' =>
          rw [fileAt_cons_none .fnil m q' rfl] at h
          cases h
  | ffile n d0 r => rfl
  | fdir n c r => rfl

theorem bwdFiles_keepPath (env : Env) (sf : List Path) (rp : Path) :
    ∀ (rep : Tree) (st : St) (q : Path) (d : FileData),
      fileAt rep q = some d → (rp ++ q) ∈ sf →
      fileAt (bwdFiles env sf rp rep st).1 q = some d := by
  intro rep
  induction rep with
  | fnil =>
      intro st q d hf _
      cases q with
      | nil => simp at hf
      | cons m q' =>
          rw [fileAt_cons_none .fnil m q' rfl] at hf
          cases hf
  | ffile n d0 rest ih =>
      intro st q d hf hmem
      cases q with
      | nil => simp at hf
      | cons m q' =>
          by_cases hnm : n = m
          · subst hnm
            rw [fileAt_cons_file _ _ _ d0 (by rw [lookupT, if_pos rfl])] at hf
            by_cases hq' : q' = []
            · subst hq'
              rw [if_pos rfl] at hf
              simp only [bwdFiles]
              rw [if_pos (by simpa using hmem)]
              rw [fileAt_cons_file _ _ _ d0 (by rw [lookupT, if_pos rfl])]
              simpa using hf
            · rw [if_neg hq'] at hf
              cases hf
          · rw [fileAt_head_congr _ rest m q' (by simp [lookupT_ffile, hnm])] at hf
            simp only [bwdFiles]
            split
            · rw [fileAt_head_congr _ (bwdFiles env sf rp rest st).1 m q'
                (by simp [lookupT_ffile, hnm])]
              exact ih st (m :: q') d hf hmem
            · split
              · rw [fileAt_head_congr _
                  (bwdFiles env sf rp rest
                    (st.push [⟨Sev.error, EvKind.deleteFailed, ⟨Root.rep, rp ++ [n]⟩⟩])).1
                  m q' (by simp [lookupT_ffile, hnm])]
                exact ih _ (m :: q') d hf hmem
              · exact ih _ (m :: q') d hf hmem
  | fdir n c rest ihc ihr =>
      intro st q d hf hmem
      cases q with
      | nil => simp at hf
      | cons m q' =>
          simp only [bwdFiles]
          by_cases hnm : n = m
          · subst hnm
            rw [fileAt_cons_dir _ _ _ c (by rw [lookupT, if_pos rfl])] at hf
            by_cases hq' : q' = []
            · rw [if_pos hq'] at hf
              cases hf
            · rw [if_neg hq'] at hf
              rw [fileAt_cons_dir _ _ _ c (by rw [lookupT, if_pos rfl]), if_neg hq']
              exact hf
          · rw [fileAt_head_congr _ rest m q' (by simp [lookupT_fdir, hnm])] at hf
            rw [fileAt_head_congr _ (bwdFiles env sf rp rest st).1 m q'
              (by simp [lookupT_fdir, hnm])]
            exact ihr st (m :: q') d hf hmem

theorem bwdDirs_keepPath (env : Env) (sf : List Path) :
    ∀ (rep : Tree) (rp : Path) (sctx : Option Tree) (st : St) (rep2 : Tree) (st2 : St),
      bwdDirs env sf rp sctx rep st = .ok (rep2, st2) →
      ∀ (q : Path) (d : FileData), fileAt rep q = some d → (rp ++ q) ∈ sf →
      fileAt rep2 q = some d := by
  intro rep
  induction rep with
  | fnil =>
      intro rp sctx st rep2 st2 hrun q d hf _
      cases q with
      | nil => simp at hf
      | cons m q' =>
          rw [fileAt_cons_none .fnil m q' rfl] at hf
          cases hf
  | ffile n d0 rest ih =>
      intro rp sctx st rep2 st2 hrun q d hf hmem
      simp only [bwdDirs] at hrun
      cases hr : bwdDirs env sf rp sctx rest st with
      | error e =>
          rw [hr] at hrun
          cases hrun
      | ok r2 =>
          rw [hr] at hrun
          obtain ⟨rest2, st2'⟩ := r2
          simp only [Except.ok.injEq, Prod.mk.injEq] at hrun
          obtain ⟨hrep, hst⟩ := hrun
          subst hrep
          cases q with
          | nil => simp at hf
          | cons m q' =>
              by_cases hnm : n = m
              · subst hnm
                rw [fileAt_cons_file _ _ _ d0 (by rw [lookupT, if_pos rfl])] at hf
                rw [fileAt_cons_file _ _ _ d0 (by rw [lookupT, if_pos rfl])]
                exact hf
              · rw [fileAt_head_congr _ rest m q' (by simp [lookupT_ffile, hnm])] at hf
                rw [fileAt_head_congr _ rest2 m q' (by simp [lookupT_ffile, hnm])]
                exact ih rp sctx st rest2 st2' hr (m :: q') d hf hmem
  | fdir n c rest ihc ihr =>
      intro rp sctx st rep2 st2 hrun q d hf hmem
      have keep : ∀ (cc : Option Tree),
          ((match bwdDirs env sf (rp ++ [n]) cc c st with
            | .error e => .error e
            | .ok (c1, st1) =>
                match bwdDirs env sf rp sctx rest (bwdFiles env sf (rp ++ [n]) c1 st1).2 with
                | .error e => .error e
                | .ok (rest2, st3) =>
                    .ok (.fdir n (bwdFiles env sf (rp ++ [n]) c1 st1).1 rest2, st3) :
            Except (Fault × St) (Tree × St)) = .ok (rep2, st2)) →
          fileAt rep2 q = some d := by
        intro cc hrun2
        cases hc : bwdDirs env sf (rp ++ [n]) cc c st with
        | error e =>
            rw [hc] at hrun2
            cases hrun2
        | ok r1 =>
            rw [hc] at hrun2
            obtain ⟨c1, st1⟩ := r1
            simp only [] at hrun2
            cases hr : bwdDirs env sf rp sctx rest (bwdFiles env sf (rp ++ [n]) c1 st1).2 with
            | error e =>
                rw [hr] at hrun2
                cases hrun2
            | ok r3 =>
                rw [hr] at hrun2
                obtain ⟨rest2, st3⟩ := r3
                simp only [Except.ok.injEq, Prod.mk.injEq] at hrun2
                obtain ⟨hrep, hst⟩ := hrun2
                subst hrep
                cases q with
                | nil => simp at hf
                | cons m q' =>
                    by_cases hnm : n = m
                    · subst hnm
                      rw [fileAt_cons_dir _ _ _ c (by rw [lookupT, if_pos rfl])] at hf
                      by_cases hq' : q' = []
                      · rw [if_pos hq'] at hf
                        cases hf
                      · rw [if_neg hq'] at hf
                        have hmem2 : ((rp ++ [n]) ++ q') ∈ sf := by
                          rw [List.append_assoc]
                          exact hmem
                        have hc1 : fileAt c1 q' = some d :=
                          ihc (rp ++ [n]) cc st c1 st1 hc q' d hf hmem2
                        have hr2 : fileAt (bwdFiles env sf (rp ++ [n]) c1 st1).1 q' = some d :=
                          bwdFiles_keepPath env sf (rp ++ [n]) c1 st1 q' d hc1 hmem2
                        rw [fileAt_cons_dir _ _ _ (bwdFiles env sf (rp ++ [n]) c1 st1).1
                          (by rw [lookupT, if_pos rfl]), if_neg hq']
                        exact hr2
                    · rw [fileAt_head_congr _ rest m q' (by simp [lookupT_fdir, hnm])] at hf
                      rw [fileAt_head_congr _ rest2 m q' (by simp [lookupT_fdir, hnm])]
                      exact ihr rp sctx _ rest2 st3 hr (m :: q') d hf hmem
      have drop :
          ((match bwdDirs env sf (rp ++ [n]) none c st with
            | .error e => .error e
            | .ok (c1, st1) =>
                if env.rmdirFails (rp ++ [n]) ||
                    !(isNilT (bwdFiles env sf (rp ++ [n]) c1 st1).1) then
                  .error (.rmdirFault (rp ++ [n]), (bwdFiles env sf (rp ++ [n]) c1 st1).2)
                else
                  match bwdDirs env sf rp sctx rest
                      ((((bwdFiles env sf (rp ++ [n]) c1 st1).2.push
                        [⟨Sev.info, EvKind.dirDeleted, ⟨Root.rep, rp ++ [n]⟩⟩]).mark).addMut
                        ⟨MutKind.rmdirM, ⟨Root.rep, rp ++ [n]⟩⟩) with
                  | .error e => .error e
                  | .ok (rest2, st4) => .ok (rest2, st4) :
            Except (Fault × St) (Tree × St)) = .ok (rep2, st2)) →
          fileAt rep2 q = some d := by
        intro hrun2
        cases hc : bwdDirs env sf (rp ++ [n]) none c st with
        | error e =>
            rw [hc] at hrun2
            cases hrun2
        | ok r1 =>
            rw [hc] at hrun2
            obtain ⟨c1, st1⟩ := r1
            simp only [] at hrun2
            cases q with
            | nil => simp at hf
            | cons m q' =>
                by_cases hnm : n = m
                · subst hnm
                  rw [fileAt_cons_dir _ _ _ c (by rw [lookupT, if_pos rfl])] at hf
                  by_cases hq' : q' = []
                  · rw [if_pos hq'] at hf
                    cases hf
                  · rw [if_neg hq'] at hf
                    have hmem2 : ((rp ++ [n]) ++ q') ∈ sf := by
                      rw [List.append_assoc]
                      exact hmem
                    have hc1 : fileAt c1 q' = some d :=
                      ihc (rp ++ [n]) none st c1 st1 hc q' d hf hmem2
                    have hr2 : fileAt (bwdFiles env sf (rp ++ [n]) c1 st1).1 q' = some d :=
                      bwdFiles_keepPath env sf (rp ++ [n]) c1 st1 q' d hc1 hmem2
                    have hnil : isNilT (bwdFiles env sf (rp ++ [n]) c1 st1).1 = false :=
                      isNilT_false_of_fileAt _ q' d hr2
                    rw [if_pos (by simp [hnil])] at hrun2
                    cases hrun2
                · have hfr : fileAt rest (m :: q') = some d := by
                    rw [fileAt_head_congr (Tree.fdir n c rest) rest m q'
                      (by simp [lookupT_fdir, hnm])] at hf
                    exact hf
                  split at hrun2
                  · cases hrun2
                  · cases hr : bwdDirs env sf rp sctx rest
                        ((((bwdFiles env sf (rp ++ [n]) c1 st1).2.push
                          [⟨Sev.info, EvKind.dirDeleted, ⟨Root.rep, rp ++ [n]⟩⟩]).mark).addMut
                          ⟨MutKind.rmdirM, ⟨Root.rep, rp ++ [n]⟩⟩) with
                    | error e =>
                        rw [hr] at hrun2
                        cases hrun2
                    | ok r3 =>
                        rw [hr] at hrun2
                        obtain ⟨rest2, st4⟩ := r3
                        simp only [Except.ok.injEq, Prod.mk.injEq] at hrun2
                        obtain ⟨hrep, hst⟩ := hrun2
                        subst hrep
                        exact ihr rp sctx _ rest2 st4 hr (m :: q') d hfr hmem
      cases sctx with
      | none =>
          simp only [bwdDirs] at hrun
          exact drop hrun
      | some sf0 =>
          cases hls : lookupT sf0 n with
          | none =>
              simp only [bwdDirs, hls] at hrun
              exact drop hrun
          | some s0 =>
              cases s0 with
              | sfile d0 =>
                  simp only [bwdDirs, hls] at hrun
                  exact keep none hrun
              | sdir sc =>
                  simp only [bwdDirs, hls] at hrun
                  exact keep (some sc) hrun

theorem bwdFiles_evKinds (env : Env) (sf : List Path) (rp : Path) :
    ∀ (rep : Tree) (st : St), ∃ l, (bwdFiles env sf rp rep st).2.events = st.events ++ l ∧
      ∀ e ∈ l, e.kind = .fileDeleted ∨ e.kind = .deleteFailed := by
  intro rep
  induction rep with
  | fnil => intro st; exact ⟨[], by simp [bwdFiles], by simp⟩
  | ffile n d rest ih =>
      intro st
      simp only [bwdFiles]
      split
      · exact ih st
      · split
        · obtain ⟨l, h1, h2⟩ := ih (st.push [⟨Sev.error, EvKind.deleteFailed,
            ⟨Root.rep, rp ++ [n]⟩⟩])
          refine ⟨⟨Sev.error, EvKind.deleteFailed, ⟨Root.rep, rp ++ [n]⟩⟩ :: l, ?_, ?_⟩
          · rw [h1]
            simp
          · intro e he
            rcases List.mem_cons.mp he with h3 | h3
            · subst h3
              exact Or.inr rfl
            · exact h2 e h3
        · obtain ⟨l, h1, h2⟩ := ih (((st.push [⟨Sev.info, EvKind.fileDeleted,
            ⟨Root.rep, rp ++ [n]⟩⟩]).mark).addMut ⟨MutKind.removeM, ⟨Root.rep, rp ++ [n]⟩⟩)
          refine ⟨⟨Sev.info, EvKind.fileDeleted, ⟨Root.rep, rp ++ [n]⟩⟩ :: l, ?_, ?_⟩
          · rw [h1]
            simp
          · intro e he
            rcases List.mem_cons.mp he with h3 | h3
            · subst h3
              exact Or.inl rfl
            · exact h2 e h3
  | fdir n c rest ihc ihr =>
      intro st
      simp only [bwdFiles]
      exact ihr st

theorem bwdDirs_evKinds (env : Env) (sf : List Path) :
    ∀ (rep : Tree) (rp : Path) (sctx : Option Tree) (st : St), ∃ l,
      (resSt (bwdDirs env sf rp sctx rep st)).events = st.events ++ l ∧
      ∀ e ∈ l, e.kind = .fileDeleted ∨ e.kind = .deleteFailed ∨ e.kind = .dirDeleted := by
  intro rep
  induction rep with
  | fnil =>
      intro rp sctx st
      cases sctx <;> exact ⟨[], by simp [bwdDirs, resSt], by simp⟩
  | ffile n d rest ih =>
      intro rp sctx st
      simp only [bwdDirs]
      cases hr : bwdDirs env sf rp sctx rest st with
      | error e =>
          obtain ⟨l, h1, h2⟩ := ih rp sctx st
          rw [hr] at h1
          exact ⟨l, h1, h2⟩
      | ok r2 =>
          obtain ⟨rest2, st2⟩ := r2
          obtain ⟨l, h1, h2⟩ := ih rp sctx st
          rw [hr] at h1
          exact ⟨l, h1, h2⟩
  | fdir n c rest ihc ihr =>
      intro rp sctx st
      have keep : ∀ (cc : Option Tree), ∃ l,
          (resSt ((match bwdDirs env sf (rp ++ [n]) cc c st with
            | .error e => .error e
            | .ok (c1, st1) =>
                match bwdDirs env sf rp sctx rest (bwdFiles env sf (rp ++ [n]) c1 st1).2 with
                | .error e => .error e
                | .ok (rest2, st3) =>
                    .ok (.fdir n (bwdFiles env sf (rp ++ [n]) c1 st1).1 rest2,
                      st3) : Except (Fault × St) (Tree × St)))).events = st.events ++ l ∧
          ∀ e ∈ l, e.kind = .fileDeleted ∨ e.kind = .deleteFailed ∨ e.kind = .dirDeleted := by
        intro cc
        cases hc : bwdDirs env sf (rp ++ [n]) cc c st with
        | error e =>
            obtain ⟨l, h1, h2⟩ := ihc (rp ++ [n]) cc st
            rw [hc] at h1
            exact ⟨l, h1, h2⟩
        | ok r1 =>
            obtain ⟨c1, st1⟩ := r1
            simp only []
            obtain ⟨l1, h11, h12⟩ := ihc (rp ++ [n]) cc st
            rw [hc] at h11
            simp only [resSt] at h11
            obtain ⟨l2, h21, h22⟩ := bwdFiles_evKinds env sf (rp ++ [n]) c1 st1
            cases hr : bwdDirs env sf rp sctx rest (bwdFiles env sf (rp ++ [n]) c1 st1).2 with
            | error e =>
                obtain ⟨l3, h31, h32⟩ := ihr rp sctx (bwdFiles env sf (rp ++ [n]) c1 st1).2
                rw [hr] at h31
                simp only []
                refine ⟨l1 ++ (l2 ++ l3), ?_, ?_⟩
                · simp only [resSt] at h31 ⊢
                  rw [h31, h21, h11]
                  simp [List.append_assoc]
                · intro e2 he2
                  rcases List.mem_append.mp he2 with h4 | h4
                  · exact h12 e2 h4
                  · rcases List.mem_append.mp h4 with h5 | h5
                    · rcases h22 e2 h5 with h6 | h6
                      · exact Or.inl h6
                      · exact Or.inr (Or.inl h6)
                    · exact h32 e2 h5
            | ok r3 =>
                obtain ⟨rest2, st3⟩ := r3
                obtain ⟨l3, h31, h32⟩ := ihr rp sctx (bwdFiles env sf (rp ++ [n]) c1 st1).2
                rw [hr] at h31
                simp only []
                refine ⟨l1 ++ (l2 ++ l3), ?_, ?_⟩
                · simp only [resSt] at h31 ⊢
                  rw [h31, h21, h11]
                  simp [List.append_assoc]
                · intro e2 he2
                  rcases List.mem_append.mp he2 with h4 | h4
                  · exact h12 e2 h4
                  · rcases List.mem_append.mp h4 with h5 | h5
                    · rcases h22 e2 h5 with h6 | h6
                      · exact Or.inl h6
                      · exact Or.inr (Or.inl h6)
                    · exact h32 e2 h5
      have drop : ∃ l,
          (resSt ((match bwdDirs env sf (rp ++ [n]) none c st with
            | .error e => .error e
            | .ok (c1, st1) =>
                if env.rmdirFails (rp ++ [n]) ||
                    !(isNilT (bwdFiles env sf (rp ++ [n]) c1 st1).1) then
                  .error (.rmdirFault (rp ++ [n]), (bwdFiles env sf (rp ++ [n]) c1 st1).2)
                else
                  match bwdDirs env sf rp sctx rest
                      ((((bwdFiles env sf (rp ++ [n]) c1 st1).2.push
                        [⟨Sev.info, EvKind.dirDeleted, ⟨Root.rep, rp ++ [n]⟩⟩]).mark).addMut
                        ⟨MutKind.rmdirM, ⟨Root.rep, rp ++ [n]⟩⟩) with
                  | .error e => .error e
                  | .ok (rest2, st4) => .ok (rest2, st4) :
            Except (Fault × St) (Tree × St)))).events = st.events ++ l ∧
          ∀ e ∈ l, e.kind = .fileDeleted ∨ e.kind = .deleteFailed ∨ e.kind = .dirDeleted := by
        cases hc : bwdDirs env sf (rp ++ [n]) none c st with
        | error e =>
            obtain ⟨l, h1, h2⟩ := ihc (rp ++ [n]) none st
            rw [hc] at h1
            exact ⟨l, h1, h2⟩
        | ok r1 =>
            obtain ⟨c1, st1⟩ := r1
            simp only []
            obtain ⟨l1, h11, h12⟩ := ihc (rp ++ [n]) none st
            rw [hc] at h11
            simp only [resSt] at h11
            obtain ⟨l2, h21, h22⟩ := bwdFiles_evKinds env sf (rp ++ [n]) c1 st1
            split
            · refine ⟨l1 ++ l2, ?_, ?_⟩
              · simp only [resSt]
                rw [h21, h11, List.append_assoc]
              · intro e2 he2
                rcases List.mem_append.mp he2 with h4 | h4
                · exact h12 e2 h4
                · rcases h22 e2 h4 with h6 | h6
                  · exact Or.inl h6
                  · exact Or.inr (Or.inl h6)
            · cases hr : bwdDirs env sf rp sctx rest
                  ((((bwdFiles env sf (rp ++ [n]) c1 st1).2.push
                    [⟨Sev.info, EvKind.dirDeleted, ⟨Root.rep, rp ++ [n]⟩⟩]).mark).addMut
                    ⟨MutKind.rmdirM, ⟨Root.rep, rp ++ [n]⟩⟩) with
              | error e =>
                  obtain ⟨l3, h31, h32⟩ := ihr rp sctx
                    ((((bwdFiles env sf (rp ++ [n]) c1 st1).2.push
                      [⟨Sev.info, EvKind.dirDeleted, ⟨Root.rep, rp ++ [n]⟩⟩]).mark).addMut
                      ⟨MutKind.rmdirM, ⟨Root.rep, rp ++ [n]⟩⟩)
                  rw [hr] at h31
                  simp only []
                  refine ⟨l1 ++ (l2 ++
                    ([⟨Sev.info, EvKind.dirDeleted, ⟨Root.rep, rp ++ [n]⟩⟩] ++ l3)), ?_, ?_⟩
                  · simp only [resSt] at h31 ⊢
                    rw [h31]
                    simp only [St.addMut_events, St.mark_events, St.push_events]
                    rw [h21, h11]
                    simp [List.append_assoc]
                  · intro e2 he2
                    rcases List.mem_append.mp he2 with h4 | h4
                    · exact h12 e2 h4
                    · rcases List.mem_append.mp h4 with h5 | h5
                      · rcases h22 e2 h5 with h6 | h6
                        · exact Or.inl h6
                        · exact Or.inr (Or.inl h6)
                      · rcases List.mem_append.mp h5 with h6 | h6
                        · simp only [List.mem_singleton] at h6
                          subst h6
                          exact Or.inr (Or.inr rfl)
                        · exact h32 e2 h6
              | ok r3 =>
                  obtain ⟨rest2, st4⟩ := r3
                  obtain ⟨l3, h31, h32⟩ := ihr rp sctx
                    ((((bwdFiles env sf (rp ++ [n]) c1 st1).2.push
                      [⟨Sev.info, EvKind.dirDeleted, ⟨Root.rep, rp ++ [n]⟩⟩]).mark).addMut
                      ⟨MutKind.rmdirM, ⟨Root.rep, rp ++ [n]⟩⟩)
                  rw [hr] at h31
                  simp only []
                  refine ⟨l1 ++ (l2 ++
                    ([⟨Sev.info, EvKind.dirDeleted, ⟨Root.rep, rp ++ [n]⟩⟩] ++ l3)), ?_, ?_⟩
                  · simp only [resSt] at h31 ⊢
                    rw [h31]
                    simp only [St.addMut_events, St.mark_events, St.push_events]
                    rw [h21, h11]
                    simp [List.append_assoc]
                  · intro e2 he2
                    rcases List.mem_append.mp he2 with h4 | h4
                    · exact h12 e2 h4
                    · rcases List.mem_append.mp h4 with h5 | h5
                      · rcases h22 e2 h5 with h6 | h6
                        · exact Or.inl h6
                        · exact Or.inr (Or.inl h6)
                      · rcases List.mem_append.mp h5 with h6 | h6
                        · simp only [List.mem_singleton] at h6
                          subst h6
                          exact Or.inr (Or.inr rfl)
                        · exact h32 e2 h6
      cases sctx with
      | none =>
          simp only [bwdDirs]
          exact drop
      | some sf0 =>
          cases hls : lookupT sf0 n with
          | none =>
              simp only [bwdDirs, hls]
              exact drop
          | some s0 =>
              cases s0 with
              | sfile d0 =>
                  simp only [bwdDirs, hls]
                  exact keep none
              | sdir sc =>
                  simp only [bwdDirs, hls]
                  exact keep (some sc)

theorem fwdPhase_srcFiles (env : Env) (s u t1 : Tree) (st1 : St)
    (h : fwdPhase env [] s u St.init = .ok (t1, st1)) :
    st1.srcFiles = walkPathsR s := by
  simp only [fwdPhase] at h
  cases hw : fwdWalk env [] s (fwdFiles env [] s (.ctxDir u) St.init).1
      (fwdFiles env [] s (.ctxDir u) St.init).2 with
  | error e =>
      rw [hw] at h
      cases h
  | ok r2 =>
      rw [hw] at h
      obtain ⟨ctx2, st2⟩ := r2
      simp only [Except.ok.injEq, Prod.mk.injEq] at h
      obtain ⟨h1, h2⟩ := h
      subst h2
      have h3 := fwdWalk_srcFiles env s [] _ _ _ _ hw
      rw [h3, fwdFiles_srcFiles env [] s (.ctxDir u) St.init]
      simp [St.init, walkPathsR]

theorem run_changed_iff (env : Env) (s r t : Tree) (b : Bool) (st : St)
    (h : perform_sync env s r = .ok (t, b, st)) : b = st.events.any isChangeEv := by
  have hch := perform_sync_changed env s r t b st h
  have hev := perform_sync_st (evChanged St.init) (evChanged_closed St.init) env s r
    ⟨[], by simp [St.init], by simp [St.init]⟩
  rw [h] at hev
  obtain ⟨l, h1, h2⟩ := hev
  have hl : l = st.events := by simpa [runSt, St.init] using h1.symm
  have h2' : st.changed = l.any isChangeEv := by simpa [runSt, St.init] using h2
  rw [hch, h2', hl]

theorem copyTouched_fileStep (p : Path) (ds dd : FileData) :
    copyTouched (fileStepEvents p ds dd) p = !(md5Opt ds == md5Opt dd) := by
  cases hds : ds.readable with
  | true =>
      cases hdd : dd.readable with
      | true =>
          by_cases hcnt : ds.content = dd.content
          · simp [fileStepEvents, md5Opt, hds, hdd, hcnt, copyTouched]
          · simp [fileStepEvents, md5Opt, hds, hdd, hcnt, copyTouched, isCopyKind, digestOf]
      | false => simp [fileStepEvents, md5Opt, hds, hdd, copyTouched, isCopyKind]
  | false =>
      cases hdd : dd.readable with
      | true => simp [fileStepEvents, md5Opt, hds, hdd, copyTouched, isCopyKind]
      | false => simp [fileStepEvents, md5Opt, hds, hdd, copyTouched, isCopyKind]

theorem run_path_facts (src rep : Tree) (p : Path) (ds dd : FileData)
    (t : Tree) (b : Bool) (st : St)
    (hw : WfT src = true)
    (hs : fileAt src p = some ds) (hr : fileAt rep p = some dd)
    (hrun : perform_sync noFaultEnv src rep = .ok (t, b, st)) :
    copyTouched st.events p = !(md5Opt ds == md5Opt dd) ∧
    fileAt t p = some (fileStepSlot ds dd) ∧
    (∀ e, e ∈ fileStepEvents p ds dd → e ∈ st.events) := by
  rw [perform_sync_decomp] at hrun
  cases hph : fwdPhase noFaultEnv [] src rep St.init with
  | error e =>
      rw [hph] at hrun
      cases hrun
  | ok r1 =>
      rw [hph] at hrun
      obtain ⟨rep1, st2⟩ := r1
      simp only [] at hrun
      obtain ⟨hA, hB⟩ := fwdPhase_path (sizeOf src) src le_rfl [] rep St.init p ds dd
        rep1 st2 hw hs hr hph
      have hB2 : st2.events.filter (atP p) = fileStepEvents p ds dd := by
        simpa [St.init] using hB
      have hsf : st2.srcFiles = walkPathsR src := fwdPhase_srcFiles noFaultEnv src rep rep1 st2 hph
      have hmem : p ∈ st2.srcFiles := by
        rw [hsf]
        exact (mem_walkPathsR src hw p).mpr (by rw [hs]; rfl)
      cases hbd : bwdDirs noFaultEnv st2.srcFiles [] (some src) rep1 st2 with
      | error e =>
          rw [hbd] at hrun
          cases hrun
      | ok r2 =>
          rw [hbd] at hrun
          obtain ⟨rep2, st3⟩ := r2
          simp only [Except.ok.injEq, Prod.mk.injEq] at hrun
          obtain ⟨ht, hb, hst⟩ := hrun
          have hsf3 : st3.srcFiles = st2.srcFiles := by
            have := bwdDirs_srcFiles noFaultEnv st2.srcFiles rep1 [] (some src) st2
            rw [hbd] at this
            exact this
          have hk1 : fileAt rep2 p = some (fileStepSlot ds dd) :=
            bwdDirs_keepPath noFaultEnv st2.srcFiles rep1 [] (some src) st2 rep2 st3 hbd
              p _ hA (by simpa using hmem)
          have hk2 : fileAt (bwdFiles noFaultEnv st3.srcFiles [] rep2 st3).1 p =
              some (fileStepSlot ds dd) :=
            bwdFiles_keepPath noFaultEnv st3.srcFiles [] rep2 st3 p _ hk1
              (by rw [hsf3]; simpa using hmem)
          obtain ⟨l3, h31, h32⟩ := bwdDirs_evKinds noFaultEnv st2.srcFiles rep1 [] (some src) st2
          rw [hbd] at h31
          have h31' : st3.events = st2.events ++ l3 := h31
          obtain ⟨l4, h41, h42⟩ := bwdFiles_evKinds noFaultEnv st3.srcFiles [] rep2 st3
          have hstev : st.events = st2.events ++ (l3 ++ l4) := by
            rw [← hst, h41, h31', List.append_assoc]
          refine ⟨?_, ?_, ?_⟩
          · rw [hstev, copyTouched_append]
            have hno : copyTouched (l3 ++ l4) p = false := by
              rw [copyTouched, List.any_eq_false]
              intro e he
              rcases List.mem_append.mp he with h5 | h5
              · rcases h32 e h5 with h6 | h6 | h6 <;> simp [isCopyKind, h6]
              · rcases h42 e h5 with h6 | h6 <;> simp [isCopyKind, h6]
            rw [hno, Bool.or_false, ← copyTouched_filter p st2.events, hB2,
              copyTouched_fileStep]
          · rw [← ht]
            exact hk2
          · intro e he
            rw [hstev]
            refine List.mem_append.mpr (Or.inl ?_)
            exact List.mem_of_mem_filter (by rw [hB2]; exact he)

/-- C4 counterexample: source and replica both hold an unreadable file "a"
with different contents ("p" vs "q").  Both digest computations fail and
return `None`; `None != None` is false in Python, so the engine treats the
files as EQUAL and silently skips the copy: the run completes with only the
two digest error events, no copy attempt is made (no warning, no update, no
copy-failure event touches the path) and no mutation is traced — contrary
to the claim that a digest failure is always treated as "unequal" and leads
to a copy attempt. -/
theorem C4_counterexample :
    perform_sync noFaultEnv exSrcU exRepU =
      .ok (exRepU, false,
        ⟨false, [⟨.error, .md5Unreadable, ⟨.src, ["a"]⟩⟩,
          ⟨.error, .md5Unreadable, ⟨.rep, ["a"]⟩⟩], [["a"]], []⟩) ∧
    copyTouched [⟨.error, .md5Unreadable, ⟨.src, ["a"]⟩⟩,
      ⟨.error, .md5Unreadable, ⟨.rep, ["a"]⟩⟩] ["a"] = false ∧
    md5Opt ⟨"p", 1, false⟩ = none ∧ md5Opt ⟨"q", 2, false⟩ = none ∧
    ¬ ("p" : String) = "q" := by
  refine ⟨rfl, rfl, rfl, rfl, by decide⟩

/-- C4 (amended): for a path present as a file in both trees, in a run
without injected faults, the engine attempts a copy if and only if the two
digest results differ, where a failed digest computation is `None`: one
failed digest (source or replica) compares unequal to a successful one and
triggers the copy attempt, but when BOTH digests fail the two `None`s
compare equal and the entry is skipped (though the two digest failures are
still logged as error events, the skip itself is silent). -/
theorem C4_copy_attempt_iff_digest_mismatch (src rep : Tree) (p : Path)
    (ds dd : FileData) (t : Tree) (b : Bool) (st : St)
    (hw : WfT src = true)
    (hs : fileAt src p = some ds) (hr : fileAt rep p = some dd)
    (hrun : perform_sync noFaultEnv src rep = .ok (t, b, st)) :
    copyTouched st.events p = !(md5Opt ds == md5Opt dd) :=
  (run_path_facts src rep p ds dd t b st hw hs hr hrun).1

/-- Witness for C4 at the concrete both-unreadable run. -/
theorem C4_witness :
    WfT exSrcU = true ∧
    copyTouched (St.mk false [⟨.error, .md5Unreadable, ⟨.src, ["a"]⟩⟩,
        ⟨.error, .md5Unreadable, ⟨.rep, ["a"]⟩⟩] [["a"]] []).events ["a"] =
      !(md5Opt ⟨"p", 1, false⟩ == md5Opt ⟨"q", 2, false⟩) := by
  have h : perform_sync noFaultEnv exSrcU exRepU =
      .ok (exRepU, false,
        ⟨false, [⟨.error, .md5Unreadable, ⟨.src, ["a"]⟩⟩,
          ⟨.error, .md5Unreadable, ⟨.rep, ["a"]⟩⟩], [["a"]], []⟩) := rfl
  exact ⟨rfl, C4_copy_attempt_iff_digest_mismatch exSrcU exRepU ["a"]
    ⟨"p", 1, false⟩ ⟨"q", 2, false⟩ _ _ _ rfl rfl rfl h⟩

/-- C2: for a path present as a readable file in both trees, in a run
without injected faults, a copy touches that path if and only if the two
contents differ (mtimes are irrelevant: both sides carry arbitrary mtimes);
when the contents differ the run returns changed = true, and when the
contents are equal no copy occurs and the replica keeps its original file
data — including its original mtime. -/
theorem C2_update_by_content (src rep : Tree) (p : Path) (ds dd : FileData)
    (t : Tree) (b : Bool) (st : St)
    (hw : WfT src = true)
    (hs : fileAt src p = some ds) (hr : fileAt rep p = some dd)
    (hds : ds.readable = true) (hdd : dd.readable = true)
    (hrun : perform_sync noFaultEnv src rep = .ok (t, b, st)) :
    copyTouched st.events p = !(ds.content == dd.content) ∧
    (¬ ds.content = dd.content → b = true) ∧
    (ds.content = dd.content → fileAt t p = some dd) := by
  obtain ⟨h1, h2, h3⟩ := run_path_facts src rep p ds dd t b st hw hs hr hrun
  refine ⟨?_, ?_, ?_⟩
  · rw [h1]
    by_cases hcnt : ds.content = dd.content <;>
      simp [md5Opt, hds, hdd, digestOf, hcnt]
  · intro hne
    have hupd : (⟨.info, .fileUpdated, ⟨.rep, p⟩⟩ : Event) ∈ fileStepEvents p ds dd := by
      simp [fileStepEvents, hds, hdd, hne]
    have hmem := h3 _ hupd
    rw [run_changed_iff noFaultEnv src rep t b st hrun, List.any_eq_true]
    exact ⟨_, hmem, by simp [isChangeEv]⟩
  · intro heq
    have hslot : fileStepSlot ds dd = dd := by
      simp [fileStepSlot, hds, hdd, heq]
    rw [h2, hslot]

/-- Witness for C2 at a concrete run: both files readable with different
contents and different mtimes; the copy occurs and changed is true. -/
theorem C2_witness :
    (perform_sync noFaultEnv (.ffile "a" ⟨"x", 0, true⟩ .fnil)
        (.ffile "a" ⟨"y", 5, true⟩ .fnil) =
      .ok (.ffile "a" ⟨"x", 0, true⟩ .fnil, true,
        ⟨true, [⟨.info, .fileUpdated, ⟨.rep, ["a"]⟩⟩], [["a"]],
          [⟨.writeM, ⟨.rep, ["a"]⟩⟩]⟩)) ∧
    copyTouched (St.mk true [⟨.info, .fileUpdated, ⟨.rep, ["a"]⟩⟩] [["a"]]
        [⟨.writeM, ⟨.rep, ["a"]⟩⟩]).events ["a"] = !(("x" : String) == "y") ∧
    (¬ ("x" : String) = "y" → true = true) := by
  have h : perform_sync noFaultEnv (.ffile "a" ⟨"x", 0, true⟩ .fnil)
      (.ffile "a" ⟨"y", 5, true⟩ .fnil) =
      .ok (.ffile "a" ⟨"x", 0, true⟩ .fnil, true,
        ⟨true, [⟨.info, .fileUpdated, ⟨.rep, ["a"]⟩⟩], [["a"]],
          [⟨.writeM, ⟨.rep, ["a"]⟩⟩]⟩) := rfl
  obtain ⟨g1, g2, g3⟩ := C2_update_by_content (.ffile "a" ⟨"x", 0, true⟩ .fnil)
    (.ffile "a" ⟨"y", 5, true⟩ .fnil) ["a"] ⟨"x", 0, true⟩ ⟨"y", 5, true⟩
    (.ffile "a" ⟨"x", 0, true⟩ .fnil) true
    ⟨true, [⟨.info, .fileUpdated, ⟨.rep, ["a"]⟩⟩], [["a"]],
      [⟨.writeM, ⟨.rep, ["a"]⟩⟩]⟩ rfl rfl rfl rfl rfl h
  exact ⟨h, g1, fun hne => g2 hne⟩

theorem fwdFiles_noFiles (env : Env) (rp : Path) :
    ∀ (s : Tree), noFilesT s = true → ∀ (ctx : FwdCtx) (st : St),
      fwdFiles env rp s ctx st = (ctx, st) := by
  intro s
  induction s with
  | fnil => intro _ ctx st; rfl
  | ffile n d r ih => intro h; cases h
  | fdir n c r ihc ihr =>
      intro h ctx st
      have h2 : noFilesT c = true ∧ noFilesT r = true := by simpa [noFilesT] using h
      simp only [fwdFiles]
      exact ihr h2.2 ctx st

theorem noFiles_allReadable (t : Tree) (h : noFilesT t = true) : AllReadableT t = true := by
  induction t with
  | fnil => rfl
  | ffile n d r ih => cases h
  | fdir n c r ihc ihr =>
      have h2 : noFilesT c = true ∧ noFilesT r = true := by simpa [noFilesT] using h
      simp [AllReadableT, ihc h2.1, ihr h2.2]

theorem noFiles_filesCopy (t : Tree) (h : noFilesT t = true) : filesCopyT t = .fnil := by
  induction t with
  | fnil => rfl
  | ffile n d r ih => cases h
  | fdir n c r ihc ihr =>
      have h2 : noFilesT c = true ∧ noFilesT r = true := by simpa [noFilesT] using h
      simp [filesCopyT, ihr h2.2]

theorem noFiles_child (t : Tree) (n : String) (c : Tree) (h : noFilesT t = true)
    (hl : lookupT t n = some (.sdir c)) : noFilesT c = true := by
  induction t with
  | fnil => cases hl
  | ffile m d r ih => cases h
  | fdir m c0 r ihc ihr =>
      have h2 : noFilesT c0 = true ∧ noFilesT r = true := by simpa [noFilesT] using h
      rw [lookupT] at hl
      split at hl
      · simp only [Option.some.injEq, Slot.sdir.injEq] at hl
        subst hl
        exact h2.1
      · exact ihr h2.2 hl

theorem fileAt_noFiles (t : Tree) (h : noFilesT t = true) : ∀ q, fileAt t q = none := by
  induction t with
  | fnil =>
      intro q
      cases q with
      | nil => simp
      | cons m q' => exact fileAt_cons_none .fnil m q' rfl
  | ffile n d r ih => cases h
  | fdir n c r ihc ihr =>
      have h2 : noFilesT c = true ∧ noFilesT r = true := by simpa [noFilesT] using h
      intro q
      cases q with
      | nil => simp
      | cons m q' =>
          by_cases hnm : n = m
          · subst hnm
            rw [fileAt_cons_dir _ _ _ c (by rw [lookupT, if_pos rfl])]
            by_cases hq' : q' = []
            · simp [hq']
            · simp only [hq', if_false]
              exact ihc h2.1 q'
          · rw [fileAt_head_congr _ r m q' (by simp [lookupT_fdir, hnm])]
            exact ihr h2.2 (m :: q')

theorem noFiles_dirsMirror (t : Tree) (h : noFilesT t = true) :
    noFilesT (dirsMirrorT t) = true := by
  induction t with
  | fnil => rfl
  | ffile n d r ih => cases h
  | fdir n c r ihc ihr =>
      have h2 : noFilesT c = true ∧ noFilesT r = true := by simpa [noFilesT] using h
      simp [dirsMirrorT, noFilesT, noFiles_filesCopy c h2.1, appendT_fnil_left,
        ihc h2.1, ihr h2.2]

theorem lookup_mem_names (t : Tree) (n : String) (sl : Slot)
    (h : lookupT t n = some sl) : n ∈ namesT t := by
  induction t with
  | fnil => cases h
  | ffile m d r ih =>
      rw [lookupT] at h
      split at h
      · next he => simp [namesT, he]
      · simp [namesT, ih h]
  | fdir m c r ihc ihr =>
      rw [lookupT] at h
      split at h
      · next he => simp [namesT, he]
      · simp [namesT, ihr h]

theorem srcSideB_congr (u1 u : Tree) :
    ∀ (s : Tree), (∀ m, m ∈ namesT s → lookupT u1 m = lookupT u m) →
      srcSideB s u1 = srcSideB s u := by
  intro s
  induction s with
  | fnil => intro _; rfl
  | ffile n ds r ih =>
      intro h
      simp only [srcSideB]
      rw [h n (by simp [namesT]), ih (fun m hm => h m (by simp [namesT, hm]))]
  | fdir n c r ihc ihr =>
      intro h
      simp only [srcSideB]
      rw [h n (by simp [namesT]), ihr (fun m hm => h m (by simp [namesT, hm]))]

theorem repSideB_lookup (n : String) (w c : Tree) :
    ∀ (s u : Tree), repSideB s u = true → lookupT u n = some (.sdir w) →
      lookupT s n = some (.sdir c) → repSideB c w = true := by
  intro s u
  induction u with
  | fnil => intro _ h; cases h
  | ffile m d r ih =>
      intro hrep hlu hls
      have h2 : (match lookupT s m with
          | some (.sfile _) => true
          | _ => false) = true ∧ repSideB s r = true := by
        simpa [repSideB] using hrep
      rw [lookupT] at hlu
      split at hlu
      · cases hlu
      · exact ih h2.2 hlu hls
  | fdir m w0 r ihw ihr =>
      intro hrep hlu hls
      have h2 : (match lookupT s m with
          | some (.sdir c0) => repSideB c0 w0
          | _ => false) = true ∧ repSideB s r = true := by
        simpa [repSideB] using hrep
      rw [lookupT] at hlu
      split at hlu
      · next he =>
          simp only [Option.some.injEq, Slot.sdir.injEq] at hlu
          subst hlu
          subst he
          rw [hls] at h2
          simpa using h2.1
      · exact ihr h2.2 hlu hls

theorem repSideB_set (n : String) (c w2 : Tree) :
    ∀ (s u : Tree), repSideB s u = true → lookupT s n = some (.sdir c) →
      repSideB c w2 = true → repSideB s (setSlotT u n (.sdir w2)) = true := by
  intro s u
  induction u with
  | fnil =>
      intro _ hls hr2
      simp [setSlotT, repSideB, hls, hr2]
  | ffile m d r ih =>
      intro hrep hls hr2
      have h2 : (match lookupT s m with
          | some (.sfile _) => true
          | _ => false) = true ∧ repSideB s r = true := by
        simpa [repSideB] using hrep
      by_cases hm : m = n
      · subst hm
        simp only [setSlotT, if_pos rfl]
        simp [repSideB, hls, hr2, h2.2]
      · simp only [setSlotT, hm, if_false]
        simp only [repSideB, Bool.and_eq_true]
        exact ⟨by simpa [repSideB] using h2.1, ih h2.2 hls hr2⟩
  | fdir m w0 r ihw ihr =>
      intro hrep hls hr2
      have h2 : (match lookupT s m with
          | some (.sdir c0) => repSideB c0 w0
          | _ => false) = true ∧ repSideB s r = true := by
        simpa [repSideB] using hrep
      by_cases hm : m = n
      · subst hm
        simp only [setSlotT, if_pos rfl]
        simp [repSideB, hls, hr2, h2.2]
      · simp only [setSlotT, hm, if_false]
        simp only [repSideB, Bool.and_eq_true]
        exact ⟨by simpa [repSideB] using h2.1, ihr h2.2 hls hr2⟩

theorem set_set_same (n : String) (s1 s2 : Slot) :
    ∀ (u : Tree), setSlotT (setSlotT u n s1) n s2 = setSlotT u n s2 := by
  intro u
  induction u with
  | fnil => cases s1 <;> cases s2 <;> simp [setSlotT]
  | ffile m d r ih =>
      by_cases hm : m = n
      · subst hm
        cases s1 <;> cases s2 <;> simp [setSlotT]
      · cases s1 <;> cases s2 <;> simp [setSlotT, hm, ih]
  | fdir m c r ihc ihr =>
      by_cases hm : m = n
      · subst hm
        cases s1 <;> cases s2 <;> simp [setSlotT]
      · cases s1 <;> cases s2 <;> simp [setSlotT, hm, ihr]

theorem repSideB_dirsMirror :
    ∀ (k : Nat) (c : Tree), sizeOf c ≤ k → WfT c = true → noFilesT c = true →
      repSideB c (dirsMirrorT c) = true := by
  intro k
  induction k with
  | zero =>
      intro c hsz
      exact absurd (Nat.lt_of_lt_of_le (sizeOf_tree_pos c) hsz) (lt_irrefl 0)
  | succ k ihk =>
      intro c hsz hw hnf
      have haux : ∀ (it : Tree),
          (∀ m cm, (m, cm) ∈ levelDirsT it → lookupT c m = some (.sdir cm)) →
          repSideB c (dirsMirrorT it) = true := by
        intro it
        induction it with
        | fnil => intro _; rfl
        | ffile m d r ih =>
            intro h
            simp only [dirsMirrorT]
            exact ih (fun m2 c2 hm2 => h m2 c2 (by simp [levelDirsT, hm2]))
        | fdir m cm r ihc2 ihr2 =>
            intro h
            have hlm : lookupT c m = some (.sdir cm) := h m cm (by simp [levelDirsT])
            have hnfm : noFilesT cm = true := noFiles_child c m cm hnf hlm
            have hszm : sizeOf cm ≤ k := by
              have := sizeOf_of_lookup_sdir c m cm hlm
              omega
            simp only [dirsMirrorT, repSideB, hlm, Bool.and_eq_true,
              noFiles_filesCopy cm hnfm, appendT_fnil_left]
            exact ⟨ihk cm hszm (WfT_child c m cm hw hlm) hnfm,
              ihr2 (fun m2 c2 hm2 => h m2 c2 (by simp [levelDirsT, hm2]))⟩
      exact haux c (fun m cm hm => lookup_levelDir c m cm hw hm)

theorem fwdWalk_noFiles_events (rp0 : Path) :
    ∀ (s : Tree), noFilesT s = true → ∀ (rp : Path) (ctx : FwdCtx) (st : St),
      (resSt (fwdWalk noFaultEnv rp s ctx st)).changed = st.changed ∧
      ∃ l, (resSt (fwdWalk noFaultEnv rp s ctx st)).events = st.events ++ l ∧
        ∀ e ∈ l, e.kind = .dirCreated ∧ e.sev = .info := by
  intro s
  induction s with
  | fnil =>
      intro _ rp ctx st
      exact ⟨rfl, [], by simp [fwdWalk, resSt], by simp⟩
  | ffile n d r ih => intro h; cases h
  | fdir n c r ihc ihr =>
      intro h rp ctx st
      have h2 : noFilesT c = true ∧ noFilesT r = true := by simpa [noFilesT] using h
      cases ctx with
      | blocked => exact ⟨rfl, [], by simp [fwdWalk, resSt], by simp⟩
      | ctxDir t =>
          cases hl : lookupT t n with
          | some s0 =>
              cases s0 with
              | sfile dd =>
                  obtain ⟨g1, l1, g2, g3⟩ := ihc h2.1 (rp ++ [n]) .blocked st
                  cases hw : fwdWalk noFaultEnv (rp ++ [n]) c .blocked st with
                  | error e =>
                      rw [hw] at g1 g2
                      refine ⟨?_, l1, ?_, g3⟩
                      · simp only [fwdWalk, hl,
                          fwdFiles_noFiles noFaultEnv (rp ++ [n]) c h2.1 .blocked st, hw]
                        exact g1
                      · simp only [fwdWalk, hl,
                          fwdFiles_noFiles noFaultEnv (rp ++ [n]) c h2.1 .blocked st, hw]
                        exact g2
                  | ok r2 =>
                      rw [hw] at g1 g2
                      obtain ⟨g4, l2, g5, g6⟩ := ihr h2.2 rp (.ctxDir t) r2.2
                      refine ⟨?_, l1 ++ l2, ?_, ?_⟩
                      · simp only [fwdWalk, hl,
                          fwdFiles_noFiles noFaultEnv (rp ++ [n]) c h2.1 .blocked st, hw]
                        rw [g4]
                        exact g1
                      · simp only [fwdWalk, hl,
                          fwdFiles_noFiles noFaultEnv (rp ++ [n]) c h2.1 .blocked st, hw]
                        rw [g5]
                        simp only [resSt] at g2
                        rw [g2, List.append_assoc]
                      · intro e he
                        rcases List.mem_append.mp he with h3 | h3
                        · exact g3 e h3
                        · exact g6 e h3
              | sdir w =>
                  obtain ⟨g1, l1, g2, g3⟩ := ihc h2.1 (rp ++ [n]) (.ctxDir w) st
                  cases hw : fwdWalk noFaultEnv (rp ++ [n]) c (.ctxDir w) st with
                  | error e =>
                      rw [hw] at g1 g2
                      refine ⟨?_, l1, ?_, g3⟩
                      · simp only [fwdWalk, hl,
                          fwdFiles_noFiles noFaultEnv (rp ++ [n]) c h2.1 (.ctxDir w) st, hw]
                        exact g1
                      · simp only [fwdWalk, hl,
                          fwdFiles_noFiles noFaultEnv (rp ++ [n]) c h2.1 (.ctxDir w) st, hw]
                        exact g2
                  | ok r2 =>
                      rw [hw] at g1 g2
                      obtain ⟨cc2, cst2⟩ := r2
                      obtain ⟨g4, l2, g5, g6⟩ := ihr h2.2 rp
                        (.ctxDir (setSlotT t n (.sdir (ctxTree cc2)))) cst2
                      refine ⟨?_, l1 ++ l2, ?_, ?_⟩
                      · simp only [fwdWalk, hl,
                          fwdFiles_noFiles noFaultEnv (rp ++ [n]) c h2.1 (.ctxDir w) st, hw]
                        rw [g4]
                        exact g1
                      · simp only [fwdWalk, hl,
                          fwdFiles_noFiles noFaultEnv (rp ++ [n]) c h2.1 (.ctxDir w) st, hw]
                        rw [g5]
                        simp only [resSt] at g2
                        rw [g2, List.append_assoc]
                      · intro e he
                        rcases List.mem_append.mp he with h3 | h3
                        · exact g3 e h3
                        · exact g6 e h3
          | none =>
              have hst1 : ((st.push [⟨Sev.info, EvKind.dirCreated, ⟨Root.rep, rp ++ [n]⟩⟩]).addMut
                  ⟨MutKind.mkdirM, ⟨Root.rep, rp ++ [n]⟩⟩).events =
                  st.events ++ [⟨Sev.info, EvKind.dirCreated, ⟨Root.rep, rp ++ [n]⟩⟩] := by simp
              obtain ⟨g1, l1, g2, g3⟩ := ihc h2.1 (rp ++ [n]) (.ctxDir .fnil)
                ((st.push [⟨Sev.info, EvKind.dirCreated, ⟨Root.rep, rp ++ [n]⟩⟩]).addMut
                  ⟨MutKind.mkdirM, ⟨Root.rep, rp ++ [n]⟩⟩)
              cases hw : fwdWalk noFaultEnv (rp ++ [n]) c (.ctxDir .fnil)
                  ((st.push [⟨Sev.info, EvKind.dirCreated, ⟨Root.rep, rp ++ [n]⟩⟩]).addMut
                    ⟨MutKind.mkdirM, ⟨Root.rep, rp ++ [n]⟩⟩) with
              | error e =>
                  rw [hw] at g1 g2
                  refine ⟨?_, [⟨Sev.info, EvKind.dirCreated, ⟨Root.rep, rp ++ [n]⟩⟩] ++ l1,
                    ?_, ?_⟩
                  · simp only [fwdWalk, hl, noFaultEnv_mkdir, Bool.false_eq_true, if_false,
                      fwdFiles_noFiles noFaultEnv (rp ++ [n]) c h2.1 (.ctxDir .fnil) _, hw]
                    simpa using g1
                  · simp only [fwdWalk, hl, noFaultEnv_mkdir, Bool.false_eq_true, if_false,
                      fwdFiles_noFiles noFaultEnv (rp ++ [n]) c h2.1 (.ctxDir .fnil) _, hw]
                    rw [g2, hst1, List.append_assoc]
                  · intro e he
                    rcases List.mem_append.mp he with h3 | h3
                    · simp only [List.mem_singleton] at h3
                      subst h3
                      exact ⟨rfl, rfl⟩
                    · exact g3 e h3
              | ok r2 =>
                  rw [hw] at g1 g2
                  obtain ⟨cc2, cst2⟩ := r2
                  obtain ⟨g4, l2, g5, g6⟩ := ihr h2.2 rp
                    (.ctxDir (setSlotT (setSlotT t n (.sdir .fnil)) n (.sdir (ctxTree cc2))))
                    cst2
                  refine ⟨?_, [⟨Sev.info, EvKind.dirCreated, ⟨Root.rep, rp ++ [n]⟩⟩] ++
                    (l1 ++ l2), ?_, ?_⟩
                  · simp only [fwdWalk, hl, noFaultEnv_mkdir, Bool.false_eq_true, if_false,
                      fwdFiles_noFiles noFaultEnv (rp ++ [n]) c h2.1 (.ctxDir .fnil) _, hw]
                    rw [g4]
                    simpa using g1
                  · simp only [fwdWalk, hl, noFaultEnv_mkdir, Bool.false_eq_true, if_false,
                      fwdFiles_noFiles noFaultEnv (rp ++ [n]) c h2.1 (.ctxDir .fnil) _, hw]
                    rw [g5]
                    simp only [resSt] at g2
                    rw [g2, hst1]
                    simp [List.append_assoc]
                  · intro e he
                    rcases List.mem_append.mp he with h3 | h3
                    · simp only [List.mem_singleton] at h3
                      subst h3
                      exact ⟨rfl, rfl⟩
                    · rcases List.mem_append.mp h3 with h4 | h4
                      · exact g3 e h4
                      · exact g6 e h4

theorem fwdFiles_mirror (rp : Path) :
    ∀ (s u : Tree) (st : St), srcSideB s u = true →
      (fwdFiles noFaultEnv rp s (.ctxDir u) st).1 = .ctxDir u ∧
      (fwdFiles noFaultEnv rp s (.ctxDir u) st).2.events = st.events ∧
      (fwdFiles noFaultEnv rp s (.ctxDir u) st).2.changed = st.changed := by
  intro s
  induction s with
  | fnil => intro u st _; exact ⟨rfl, rfl, rfl⟩
  | ffile n ds rest ih =>
      intro u st hsrc
      have h2 : (match lookupT u n with
          | some (.sfile dd) => ds.readable && dd.readable && (ds.content == dd.content)
          | _ => false) = true ∧ srcSideB rest u = true := by
        simpa [srcSideB] using hsrc
      cases hlu : lookupT u n with
      | none =>
          rw [hlu] at h2
          simp at h2
      | some s0 =>
          cases s0 with
          | sdir c =>
              rw [hlu] at h2
              simp at h2
          | sfile dd =>
              rw [hlu] at h2
              have h3 : ds.readable = true ∧ dd.readable = true ∧ ds.content = dd.content := by
                have := h2.1
                simp only [Bool.and_eq_true, beq_iff_eq] at this
                exact ⟨this.1.1, this.1.2, this.2⟩
              have hcond : ¬ (md5Opt ds ≠ md5Opt dd) := by
                simp [md5Opt, h3.1, h3.2.1, h3.2.2]
              simp only [fwdFiles, hlu, calculate_md5_file]
              rw [if_neg hcond]
              obtain ⟨g1, g2, g3⟩ := ih u
                (((st.addSrc (rp ++ [n])).push
                  (if ds.readable = true then []
                   else [⟨.error, .md5Unreadable, ⟨.src, rp ++ [n]⟩⟩])).push
                  (if dd.readable = true then []
                   else [⟨.error, .md5Unreadable, ⟨.rep, rp ++ [n]⟩⟩])) h2.2
              refine ⟨g1, ?_, ?_⟩
              · rw [g2]
                simp [h3.1, h3.2.1]
              · rw [g3]
                simp
  | fdir n c rest ihc ihr =>
      intro u st hsrc
      have h2 : srcSideB rest u = true := by
        have := hsrc
        simp only [srcSideB, Bool.and_eq_true] at this
        exact this.2
      simp only [fwdFiles]
      exact ihr u st h2

theorem fwdWalk_mirror :
    ∀ (k : Nat) (s : Tree), sizeOf s ≤ k →
      ∀ (sFull u : Tree) (rp : Path) (st : St),
        WfT s = true → srcSideB s u = true → repSideB sFull u = true →
        (∀ (n : String) (sl : Slot), lookupT s n = some sl → lookupT sFull n = some sl) →
        ∃ u2 st2, fwdWalk noFaultEnv rp s (.ctxDir u) st = .ok (.ctxDir u2, st2) ∧
          repSideB sFull u2 = true ∧
          (∀ q, fileAt u2 q = fileAt u q) ∧
          st2.changed = st.changed ∧
          ∃ l, st2.events = st.events ++ l ∧
            ∀ e ∈ l, e.kind = .dirCreated ∧ e.sev = .info := by
  intro k
  induction k with
  | zero =>
      intro s hsz
      exact absurd (Nat.lt_of_lt_of_le (sizeOf_tree_pos s) hsz) (lt_irrefl 0)
  | succ k ihk =>
      intro s hsz sFull u rp st hw hsrc hrep hsub
      cases s with
      | fnil =>
          exact ⟨u, st, rfl, hrep, fun q => rfl, rfl, [], by simp, by simp⟩
      | ffile n d rest =>
          have hw' : ¬ n ∈ namesT rest ∧ WfT rest = true := by simpa [WfT] using hw
          have hsrc' : srcSideB rest u = true := by
            simp only [srcSideB, Bool.and_eq_true] at hsrc
            exact hsrc.2
          have hszr : sizeOf rest ≤ k := by
            have h0 : sizeOf rest < sizeOf (Tree.ffile n d rest) := by
              simp only [Tree.ffile.sizeOf_spec]
              omega
            omega
          have hsub' : ∀ m sl, lookupT rest m = some sl → lookupT sFull m = some sl := by
            intro m sl hm
            refine hsub m sl ?_
            rw [lookupT]
            have hnm : ¬ n = m := by
              intro he
              subst he
              exact hw'.1 (lookup_mem_names rest n sl hm)
            rw [if_neg hnm]
            exact hm
          obtain ⟨u2, st2, g1, g2, g3, g4, g5⟩ := ihk rest hszr sFull u rp st hw'.2 hsrc' hrep hsub'
          exact ⟨u2, st2, by simp only [fwdWalk]; exact g1, g2, g3, g4, g5⟩
      | fdir n c rest =>
          have hw' : (¬ n ∈ namesT rest ∧ WfT c = true) ∧ WfT rest = true := by
            simpa [WfT] using hw
          have hsrcP : (match lookupT u n with
              | some (.sdir w) => srcSideB c w
              | some (.sfile _) => false
              | none => noFilesT c) = true ∧ srcSideB rest u = true := by
            simpa [srcSideB] using hsrc
          have hlsF : lookupT sFull n = some (.sdir c) :=
            hsub n (.sdir c) (by rw [lookupT, if_pos rfl])
          have hszc : sizeOf c ≤ k := by
            have h0 : sizeOf c < sizeOf (Tree.fdir n c rest) := by
              simp only [Tree.fdir.sizeOf_spec]
              omega
            omega
          have hszr : sizeOf rest ≤ k := by
            have h0 : sizeOf rest < sizeOf (Tree.fdir n c rest) := by
              simp only [Tree.fdir.sizeOf_spec]
              omega
            omega
          have hsub' : ∀ m sl, lookupT rest m = some sl → lookupT sFull m = some sl := by
            intro m sl hm
            refine hsub m sl ?_
            rw [lookupT]
            have hnm : ¬ n = m := by
              intro he
              subst he
              exact hw'.1.1 (lookup_mem_names rest n sl hm)
            rw [if_neg hnm]
            exact hm
          have restStep : ∀ (u1 : Tree) (st1 : St),
              repSideB sFull u1 = true →
              (∀ m, m ∈ namesT rest → lookupT u1 m = lookupT u m) →
              (∀ q, fileAt u1 q = fileAt u q) →
              st1.changed = st.changed →
              (∃ l0, st1.events = st.events ++ l0 ∧
                ∀ e ∈ l0, e.kind = .dirCreated ∧ e.sev = .info) →
              ∃ u2 st2, fwdWalk noFaultEnv rp rest (.ctxDir u1) st1 = .ok (.ctxDir u2, st2) ∧
                repSideB sFull u2 = true ∧
                (∀ q, fileAt u2 q = fileAt u q) ∧
                st2.changed = st.changed ∧
                ∃ l, st2.events = st.events ++ l ∧
                  ∀ e ∈ l, e.kind = .dirCreated ∧ e.sev = .info := by
            intro u1 st1 hr1 hlk1 hfa1 hch1 hev1
            have hsrc1 : srcSideB rest u1 = true := by
              rw [srcSideB_congr u1 u rest hlk1]
              exact hsrcP.2
            obtain ⟨u2, st2, ga, gb, gc, gd, l2, ge, gf⟩ :=
              ihk rest hszr sFull u1 rp st1 hw'.2 hsrc1 hr1 hsub'
            obtain ⟨l0, he0, hf0⟩ := hev1
            refine ⟨u2, st2, ga, gb, fun q => (gc q).trans (hfa1 q), gd.trans hch1,
              l0 ++ l2, ?_, ?_⟩
            · rw [ge, he0, List.append_assoc]
            · intro e he
              rcases List.mem_append.mp he with h3 | h3
              · exact hf0 e h3
              · exact gf e h3
          cases hlu : lookupT u n with
          | some s0 =>
              cases s0 with
              | sfile dd =>
                  rw [hlu] at hsrcP
                  simp at hsrcP
              | sdir w =>
                  rw [hlu] at hsrcP
                  have hsw : srcSideB c w = true := by simpa using hsrcP.1
                  have hrw : repSideB c w = true :=
                    repSideB_lookup n w c sFull u hrep hlu hlsF
                  obtain ⟨f1, f2, f3⟩ := fwdFiles_mirror (rp ++ [n]) c w st hsw
                  obtain ⟨w2, stc, ga, gb, gc, gd, lc, ge, gf⟩ :=
                    ihk c hszc c w (rp ++ [n])
                      (fwdFiles noFaultEnv (rp ++ [n]) c (.ctxDir w) st).2
                      hw'.1.2 hsw hrw (fun m sl hm => hm)
                  have hrep2 : repSideB sFull (setSlotT u n (.sdir w2)) = true :=
                    repSideB_set n c w2 sFull u hrep hlsF gb
                  have hlk2 : ∀ m, m ∈ namesT rest →
                      lookupT (setSlotT u n (.sdir w2)) m = lookupT u m := by
                    intro m hm
                    have hnm : ¬ n = m := fun he => hw'.1.1 (he ▸ hm)
                    exact lookup_set_ne u n m _ hnm
                  have hfa2 : ∀ q, fileAt (setSlotT u n (.sdir w2)) q = fileAt u q := by
                    intro q
                    cases q with
                    | nil => simp
                    | cons m q' =>
                        by_cases hnm : n = m
                        · subst hnm
                          rw [fileAt_cons_dir _ _ _ w2 (lookup_set_self u n _),
                            fileAt_cons_dir _ _ _ w hlu]
                          by_cases hq' : q' = [] <;> simp [hq', gc q']
                        · exact fileAt_head_congr _ u m q' (lookup_set_ne u n m _ hnm)
                  have hch2 : stc.changed = st.changed := gd.trans f3
                  have hev2 : ∃ l0, stc.events = st.events ++ l0 ∧
                      ∀ e ∈ l0, e.kind = .dirCreated ∧ e.sev = .info := by
                    refine ⟨lc, ?_, gf⟩
                    rw [ge, f2]
                  obtain ⟨u2, st2, ka, kb, kc, kd, l2, kf, kg⟩ :=
                    restStep (setSlotT u n (.sdir w2)) stc hrep2 hlk2 hfa2 hch2 hev2
                  refine ⟨u2, st2, ?_, kb, kc, kd, l2, kf, kg⟩
                  simp only [fwdWalk, hlu, f1, ga]
                  exact ka
          | none =>
              rw [hlu] at hsrcP
              have hnf : noFilesT c = true := by simpa using hsrcP.1
              have hall : AllReadableT c = true := noFiles_allReadable c hnf
              obtain ⟨stw, hcw⟩ := fwdWalk_create c (rp ++ [n]) .fnil
                ((st.push [⟨Sev.info, EvKind.dirCreated, ⟨Root.rep, rp ++ [n]⟩⟩]).addMut
                  ⟨MutKind.mkdirM, ⟨Root.rep, rp ++ [n]⟩⟩) hw'.1.2 hall (fun m c0 _ => rfl)
              obtain ⟨gch, lw, gev, gkinds⟩ := fwdWalk_noFiles_events [] c hnf (rp ++ [n])
                (.ctxDir .fnil)
                ((st.push [⟨Sev.info, EvKind.dirCreated, ⟨Root.rep, rp ++ [n]⟩⟩]).addMut
                  ⟨MutKind.mkdirM, ⟨Root.rep, rp ++ [n]⟩⟩)
              rw [hcw] at gch gev
              simp only [resSt] at gch gev
              have hmir : repSideB c (appendT .fnil (dirsMirrorT c)) = true := by
                rw [appendT_fnil_left]
                exact repSideB_dirsMirror (sizeOf c) c le_rfl hw'.1.2 hnf
              have hnfm : noFilesT (appendT .fnil (dirsMirrorT c)) = true := by
                rw [appendT_fnil_left]
                exact noFiles_dirsMirror c hnf
              have hrep2 : repSideB sFull (setSlotT (setSlotT u n (.sdir .fnil)) n
                  (.sdir (appendT .fnil (dirsMirrorT c)))) = true := by
                rw [set_set_same]
                exact repSideB_set n c _ sFull u hrep hlsF hmir
              have hlk2 : ∀ m, m ∈ namesT rest →
                  lookupT (setSlotT (setSlotT u n (.sdir .fnil)) n
                    (.sdir (appendT .fnil (dirsMirrorT c)))) m = lookupT u m := by
                intro m hm
                have hnm : ¬ n = m := fun he => hw'.1.1 (he ▸ hm)
                rw [set_set_same]
                exact lookup_set_ne u n m _ hnm
              have hfa2 : ∀ q, fileAt (setSlotT (setSlotT u n (.sdir .fnil)) n
                  (.sdir (appendT .fnil (dirsMirrorT c)))) q = fileAt u q := by
                intro q
                rw [set_set_same]
                cases q with
                | nil => simp
                | cons m q' =>
                    by_cases hnm : n = m
                    · subst hnm
                      rw [fileAt_cons_dir _ _ _ (appendT .fnil (dirsMirrorT c))
                        (lookup_set_self u n _), fileAt_cons_none u n q' hlu]
                      have hdm : noFilesT (dirsMirrorT c) = true := noFiles_dirsMirror c hnf
                      by_cases hq' : q' = [] <;>
                        simp [hq', fileAt_noFiles (dirsMirrorT c) hdm q']
                    · exact fileAt_head_congr _ u m q' (lookup_set_ne u n m _ hnm)
              have hch2 : stw.changed = st.changed := by
                rw [gch]
                simp
              have hev2 : ∃ l0, stw.events = st.events ++ l0 ∧
                  ∀ e ∈ l0, e.kind = .dirCreated ∧ e.sev = .info := by
                refine ⟨[⟨Sev.info, EvKind.dirCreated, ⟨Root.rep, rp ++ [n]⟩⟩] ++ lw, ?_, ?_⟩
                · rw [gev]
                  simp
                · intro e he
                  rcases List.mem_append.mp he with h3 | h3
                  · simp only [List.mem_singleton] at h3
                    subst h3
                    exact ⟨rfl, rfl⟩
                  · exact gkinds e h3
              obtain ⟨u2, st2, ka, kb, kc, kd, l2, kf, kg⟩ :=
                restStep (setSlotT (setSlotT u n (.sdir .fnil)) n
                  (.sdir (appendT .fnil (dirsMirrorT c)))) stw hrep2 hlk2 hfa2 hch2 hev2
              refine ⟨u2, st2, ?_, kb, kc, kd, l2, kf, kg⟩
              simp only [fwdWalk, hlu, noFaultEnv_mkdir, Bool.false_eq_true, if_false,
                fwdFiles_noFiles noFaultEnv (rp ++ [n]) c hnf (.ctxDir .fnil)
                  ((st.push [⟨Sev.info, EvKind.dirCreated, ⟨Root.rep, rp ++ [n]⟩⟩]).addMut
                    ⟨MutKind.mkdirM, ⟨Root.rep, rp ++ [n]⟩⟩), hcw]
              exact ka

theorem BwdKeepsOf (sf : List Path) :
    ∀ (u s : Tree) (rp : Path), WfT s = true → repSideB s u = true →
      (∀ q, (fileAt s q).isSome = true → (rp ++ q) ∈ sf) →
      BwdKeeps sf rp u (some s) = true := by
  intro u
  induction u with
  | fnil => intro s rp _ _ _; rfl
  | ffile n d r ih =>
      intro s rp hw hrep hmem
      have h2 : (match lookupT s n with
          | some (.sfile _) => true
          | _ => false) = true ∧ repSideB s r = true := by
        simpa [repSideB] using hrep
      cases hls : lookupT s n with
      | none =>
          rw [hls] at h2
          simp at h2
      | some s0 =>
          cases s0 with
          | sdir c =>
              rw [hls] at h2
              simp at h2
          | sfile d0 =>
              have hm : (rp ++ [n]) ∈ sf := by
                refine hmem [n] ?_
                rw [(fileAt_one s n d0).mpr hls]
                rfl
              simp only [BwdKeeps, Bool.and_eq_true]
              exact ⟨by simpa using hm, ih s rp hw h2.2 hmem⟩
  | fdir n w r ihw ihr =>
      intro s rp hw hrep hmem
      have h2 : (match lookupT s n with
          | some (.sdir c) => repSideB c w
          | _ => false) = true ∧ repSideB s r = true := by
        simpa [repSideB] using hrep
      cases hls : lookupT s n with
      | none =>
          rw [hls] at h2
          simp at h2
      | some s0 =>
          cases s0 with
          | sfile d0 =>
              rw [hls] at h2
              simp at h2
          | sdir c =>
              rw [hls] at h2
              simp only [BwdKeeps, hls, Bool.and_eq_true]
              refine ⟨?_, ihr s rp hw h2.2 hmem⟩
              refine ihw c (rp ++ [n]) (WfT_child s n c hw hls) (by simpa using h2.1) ?_
              intro q hq
              have hqne : ¬ q = [] := by
                intro he
                rw [he] at hq
                simp at hq
              have h3 : (fileAt s (n :: q)).isSome = true := by
                rw [fileAt_cons_dir s n q c hls, if_neg hqne]
                exact hq
              have h4 := hmem (n :: q) h3
              simpa [List.append_assoc] using h4

theorem secondRun_clean (src u : Tree)
    (hw : WfT src = true) (hs : srcSideB src u = true) (hr : repSideB src u = true) :
    ∃ u2 st2, perform_sync noFaultEnv src u = .ok (u2, false, st2) ∧
      st2.events.all (fun e => e.kind == EvKind.dirCreated) = true := by
  obtain ⟨f1, f2, f3⟩ := fwdFiles_mirror [] src u St.init hs
  obtain ⟨u2, st2, ga, gb, gc, gd, l, ge, gf⟩ :=
    fwdWalk_mirror (sizeOf src) src le_rfl src u []
      (fwdFiles noFaultEnv [] src (.ctxDir u) St.init).2 hw hs hr (fun m sl hm => hm)
  have hph : fwdPhase noFaultEnv [] src u St.init = .ok (u2, st2) := by
    simp only [fwdPhase, f1, ga]
    rfl
  have hsf : st2.srcFiles = walkPathsR src :=
    fwdPhase_srcFiles noFaultEnv src u u2 st2 hph
  have hk : BwdKeeps st2.srcFiles [] u2 (some src) = true := by
    refine BwdKeepsOf st2.srcFiles u2 src [] hw gb ?_
    intro q hq
    rw [hsf]
    simpa using (mem_walkPathsR src hw q).mpr hq
  have hbd := bwdDirs_keep noFaultEnv st2.srcFiles u2 [] (some src) st2 hk
  have hbf := bwdFiles_keep noFaultEnv st2.srcFiles [] u2 (some src) st2 hk
  have hchf : st2.changed = false := by
    rw [gd, f3]
    rfl
  refine ⟨u2, st2, ?_, ?_⟩
  · rw [perform_sync_decomp, hph]
    simp only []
    rw [hbd]
    simp only []
    rw [hbf, hchf]
  · have hev : st2.events = l := by
      rw [ge, f2]
      simp [St.init]
    rw [hev, List.all_eq_true]
    intro e he
    simp [(gf e he).1]

theorem allInfo_mem (l : List Event) (h : allInfo l = true) (e : Event) (he : e ∈ l) :
    e.sev = .info := by
  rw [allInfo, List.all_eq_true] at h
  have h2 := h e he
  simpa using h2

theorem allInfo_append_left (a b : List Event) (h : allInfo (a ++ b) = true) :
    allInfo a = true := by
  rw [allInfo, List.all_eq_true] at h ⊢
  intro e he
  exact h e (List.mem_append.mpr (Or.inl he))

theorem fwdFiles_blocked_ctx (env : Env) (rp : Path) :
    ∀ (s : Tree) (st : St), (fwdFiles env rp s .blocked st).1 = .blocked := by
  intro s
  induction s with
  | fnil => intro st; rfl
  | ffile n d r ih =>
      intro st
      simp only [fwdFiles]
      exact ih _
  | fdir n c r ihc ihr =>
      intro st
      simp only [fwdFiles]
      exact ihr st

theorem fwdWalk_blocked_dirs (env : Env) :
    ∀ (s : Tree) (rp : Path) (st : St) (r2 : FwdCtx × St),
      fwdWalk env rp s .blocked st = .ok r2 → levelDirsT s = [] := by
  intro s
  induction s with
  | fnil => intro rp st r2 _; rfl
  | ffile n d r ih =>
      intro rp st r2 h
      simp only [fwdWalk] at h
      simp only [levelDirsT]
      exact ih rp st r2 h
  | fdir n c r ihc ihr =>
      intro rp st r2 h
      simp only [fwdWalk] at h
      cases h

theorem copyAllFail_eval (s d : Loc) :
    copy_file_with_retries (fun _ => false) s d 3 2 =
      (false, 3, [⟨.warning, .copyAttemptFailed 1, d⟩, ⟨.warning, .copyAttemptFailed 2, d⟩,
        ⟨.warning, .copyAttemptFailed 3, d⟩, ⟨.error, .copyFailed, d⟩]) := by
  simp [copy_file_with_retries, copyLoop]

theorem fwdFiles_blocked_warn (rp : Path) :
    ∀ (s : Tree) (st : St),
      allInfo (fwdFiles noFaultEnv rp s .blocked st).2.events = true →
      levelFileNamesT s = [] := by
  intro s
  induction s with
  | fnil => intro st _; rfl
  | ffile n d r ih =>
      intro st hinfo
      exfalso
      obtain ⟨l, hev, _⟩ := fwdFiles_events noFaultEnv rp r FwdCtx.blocked
        ((st.addSrc (rp ++ [n])).push
          (copy_file_with_retries (fun a => false) ⟨.src, rp ++ [n]⟩ ⟨.rep, rp ++ [n]⟩ 3 2).2.2)
      simp only [fwdFiles] at hinfo
      rw [hev] at hinfo
      have hmem : (⟨.warning, .copyAttemptFailed 1, ⟨.rep, rp ++ [n]⟩⟩ : Event) ∈
          ((st.addSrc (rp ++ [n])).push
            (copy_file_with_retries (fun a => false) ⟨.src, rp ++ [n]⟩
              ⟨.rep, rp ++ [n]⟩ 3 2).2.2).events ++ l := by
        simp [St.push, St.addSrc, copy_file_with_retries, copyLoop]
      have := allInfo_mem _ hinfo _ hmem
      cases this
  | fdir n c r ihc ihr =>
      intro st hinfo
      simp only [fwdFiles] at hinfo
      simp only [levelFileNamesT]
      exact ihr st hinfo

theorem empty_of_no_entries (t : Tree) (hf : levelFileNamesT t = [])
    (hd : levelDirsT t = []) : t = .fnil := by
  cases t with
  | fnil => rfl
  | ffile n d r => simp [levelFileNamesT] at hf
  | fdir n c r => simp [levelDirsT] at hd

theorem eq_fnil_of_isNil (t : Tree) (h : isNilT t = true) : t = .fnil := by
  cases t with
  | fnil => rfl
  | ffile n d r => cases h
  | fdir n c r => cases h

theorem fwdFiles_allInfo (rp : Path) :
    ∀ (s u : Tree) (st : St), WfT s = true →
      allInfo (fwdFiles noFaultEnv rp s (.ctxDir u) st).2.events = true →
      ∃ u1, (fwdFiles noFaultEnv rp s (.ctxDir u) st).1 = .ctxDir u1 ∧
        (∀ n ds, lookupT s n = some (.sfile ds) → ds.readable = true ∧
          ∃ dd, lookupT u1 n = some (.sfile dd) ∧ dd.readable = true ∧
            dd.content = ds.content) ∧
        (∀ m, lookupT u1 m = lookupT u m ∨
          ∃ dd ds, lookupT u1 m = some (.sfile dd) ∧ lookupT s m = some (.sfile ds)) := by
  intro s
  induction s with
  | fnil =>
      intro u st _ _
      exact ⟨u, rfl, by intro n ds h; simp [lookupT] at h, fun m => Or.inl rfl⟩
  | fdir n c rest ihc ihr =>
      intro u st hw hinfo
      have hw' : (¬ n ∈ namesT rest ∧ WfT c = true) ∧ WfT rest = true := by
        simpa [WfT] using hw
      simp only [fwdFiles] at hinfo ⊢
      obtain ⟨u1, g1, g2, g3⟩ := ihr u st hw'.2 hinfo
      refine ⟨u1, g1, ?_, ?_⟩
      · intro m ds hm
        rw [lookupT] at hm
        split at hm
        · cases hm
        · exact g2 m ds hm
      · intro m
        rcases g3 m with h4 | ⟨dd, ds, h4, h5⟩
        · exact Or.inl h4
        · refine Or.inr ⟨dd, ds, h4, ?_⟩
          rw [lookupT]
          have hmn : ¬ n = m := by
            intro he
            subst he
            exact hw'.1.1 (lookup_mem_names rest n _ h5)
          rw [if_neg hmn]
          exact h5
  | ffile n d rest ih =>
      intro u st hw hinfo
      have hw' : ¬ n ∈ namesT rest ∧ WfT rest = true := by simpa [WfT] using hw
      have step : ∀ (u0 : Tree) (st0 : St),
          allInfo (fwdFiles noFaultEnv rp rest (.ctxDir u0) st0).2.events = true →
          (∃ dd, lookupT u0 n = some (.sfile dd) ∧ dd.readable = true ∧
            dd.content = d.content) →
          d.readable = true →
          (∀ m, ¬ m = n → lookupT u0 m = lookupT u m) →
          ∃ u1, (fwdFiles noFaultEnv rp rest (.ctxDir u0) st0).1 = .ctxDir u1 ∧
            (∀ n2 ds, lookupT (Tree.ffile n d rest) n2 = some (.sfile ds) →
              ds.readable = true ∧ ∃ dd, lookupT u1 n2 = some (.sfile dd) ∧
                dd.readable = true ∧ dd.content = ds.content) ∧
            (∀ m, lookupT u1 m = lookupT u m ∨
              ∃ dd ds, lookupT u1 m = some (.sfile dd) ∧
                lookupT (Tree.ffile n d rest) m = some (.sfile ds)) := by
        intro u0 st0 hinfo0 hslot hdr hframe
        obtain ⟨u1, g1, g2, g3⟩ := ih u0 st0 hw'.2 hinfo0
        refine ⟨u1, g1, ?_, ?_⟩
        · intro n2 ds hn2
          rw [lookupT] at hn2
          split at hn2
          · next he =>
              simp only [Option.some.injEq, Slot.sfile.injEq] at hn2
              subst hn2
              subst he
              obtain ⟨dd, hd1, hd2, hd3⟩ := hslot
              refine ⟨hdr, dd, ?_, hd2, hd3⟩
              rcases g3 n with h4 | ⟨dd2, ds2, h4, h5⟩
              · rw [h4]
                exact hd1
              · exact absurd (lookup_mem_names rest n _ h5) hw'.1
          · have hn2n : ¬ n2 = n := by
              intro he
              subst he
              exact hw'.1 (lookup_mem_names rest n2 _ hn2)
            obtain ⟨hr1, dd, hr2, hr3, hr4⟩ := g2 n2 ds hn2
            exact ⟨hr1, dd, hr2, hr3, hr4⟩
        · intro m
          by_cases hmn : m = n
          · subst hmn
            rcases g3 m with h4 | ⟨dd2, ds2, h4, h5⟩
            · obtain ⟨dd, hd1, _, _⟩ := hslot
              refine Or.inr ⟨dd, d, by rw [h4]; exact hd1, by rw [lookupT, if_pos rfl]⟩
            · exact absurd (lookup_mem_names rest m _ h5) hw'.1
          · rcases g3 m with h4 | ⟨dd2, ds2, h4, h5⟩
            · refine Or.inl ?_
              rw [h4]
              exact hframe m hmn
            · refine Or.inr ⟨dd2, ds2, h4, ?_⟩
              rw [lookupT]
              have : ¬ n = m := fun he => hmn he.symm
              rw [if_neg this]
              exact h5
      have badEv : ∀ (ctx0 : FwdCtx) (st0 : St) (e : Event),
          e ∈ st0.events → ¬ e.sev = .info →
          ¬ allInfo (fwdFiles noFaultEnv rp rest ctx0 st0).2.events = true := by
        intro ctx0 st0 e hmem hsev hinfo0
        obtain ⟨l, hev, _⟩ := fwdFiles_events noFaultEnv rp rest ctx0 st0
        rw [hev] at hinfo0
        exact hsev (allInfo_mem _ hinfo0 e (List.mem_append.mpr (Or.inl hmem)))
      cases hlu : lookupT u n with
      | none =>
          cases hdr : d.readable with
          | false =>
              exfalso
              simp only [fwdFiles, hlu, hdr, copy_fail_unreadable] at hinfo
              split at hinfo
              · next hcond => simp at hcond
              · exact badEv _ _ ⟨.warning, .copyAttemptFailed 1, ⟨.rep, rp ++ [n]⟩⟩
                  (by simp [St.push, St.addSrc]) (fun h => by cases h) hinfo
          | true =>
              simp only [fwdFiles, hlu, hdr, copy_ok_noFault] at hinfo ⊢
              refine step _ _ hinfo ⟨⟨d.content, d.mtime, true⟩, lookup_set_self u n _,
                rfl, rfl⟩ hdr ?_
              intro m hm
              exact lookup_set_ne u n m _ (fun he => hm he.symm)
      | some s0 =>
          cases s0 with
          | sdir c =>
              exfalso
              simp only [fwdFiles, hlu] at hinfo
              split at hinfo
              · split at hinfo
                · exact badEv _ _ ⟨.error, .md5Unreadable, ⟨.rep, rp ++ [n]⟩⟩
                    (by simp [St.push, St.addSrc, St.mark, St.addMut, calculate_md5])
                    (fun h => by cases h) hinfo
                · exact badEv _ _ ⟨.error, .md5Unreadable, ⟨.rep, rp ++ [n]⟩⟩
                    (by simp [St.push, St.addSrc, calculate_md5]) (fun h => by cases h) hinfo
              · exact badEv _ _ ⟨.error, .md5Unreadable, ⟨.rep, rp ++ [n]⟩⟩
                  (by simp [St.push, St.addSrc, calculate_md5]) (fun h => by cases h) hinfo
          | sfile dd =>
              cases hdr : d.readable with
              | false =>
                  exfalso
                  simp only [fwdFiles, hlu] at hinfo
                  split at hinfo
                  · split at hinfo
                    · exact badEv _ _ ⟨.error, .md5Unreadable, ⟨.src, rp ++ [n]⟩⟩
                        (by simp [St.push, St.addSrc, St.mark, St.addMut, calculate_md5, hdr])
                        (fun h => by cases h) hinfo
                    · exact badEv _ _ ⟨.error, .md5Unreadable, ⟨.src, rp ++ [n]⟩⟩
                        (by simp [St.push, St.addSrc, calculate_md5, hdr])
                        (fun h => by cases h) hinfo
                  · exact badEv _ _ ⟨.error, .md5Unreadable, ⟨.src, rp ++ [n]⟩⟩
                      (by simp [St.push, St.addSrc, calculate_md5, hdr])
                      (fun h => by cases h) hinfo
              | true =>
                  cases hddr : dd.readable with
                  | false =>
                      exfalso
                      simp only [fwdFiles, hlu] at hinfo
                      split at hinfo
                      · split at hinfo
                        · exact badEv _ _ ⟨.error, .md5Unreadable, ⟨.rep, rp ++ [n]⟩⟩
                            (by simp [St.push, St.addSrc, St.mark, St.addMut, calculate_md5,
                              hdr, hddr]) (fun h => by cases h) hinfo
                        · exact badEv _ _ ⟨.error, .md5Unreadable, ⟨.rep, rp ++ [n]⟩⟩
                            (by simp [St.push, St.addSrc, calculate_md5, hdr, hddr])
                            (fun h => by cases h) hinfo
                      · exact badEv _ _ ⟨.error, .md5Unreadable, ⟨.rep, rp ++ [n]⟩⟩
                          (by simp [St.push, St.addSrc, calculate_md5, hdr, hddr])
                          (fun h => by cases h) hinfo
                  | true =>
                      by_cases hcnt : d.content = dd.content
                      · have hcond : ¬ (md5Opt d ≠ md5Opt dd) := by
                          simp [md5Opt, hdr, hddr, hcnt]
                        simp only [fwdFiles, hlu, calculate_md5_file] at hinfo ⊢
                        rw [if_neg hcond] at hinfo ⊢
                        refine step _ _ hinfo ⟨dd, hlu, hddr, hcnt.symm⟩ hdr ?_
                        intro m hm
                        rfl
                      · have hcond : md5Opt d ≠ md5Opt dd := by
                          simp [md5Opt, hdr, hddr, digestOf, hcnt]
                        simp only [fwdFiles, hlu, calculate_md5_file] at hinfo ⊢
                        rw [if_pos hcond] at hinfo ⊢
                        simp only [hdr, copy_ok_noFault] at hinfo ⊢
                        refine step _ _ hinfo ⟨⟨d.content, d.mtime, true⟩,
                          lookup_set_self u n _, rfl, rfl⟩ hdr ?_
                        intro m hm
                        exact lookup_set_ne u n m _ (fun he => hm he.symm)

theorem lookup_of_levelDir (t : Tree) (n : String) (c : Tree) (hw : WfT t = true)
    (h : (n, c) ∈ levelDirsT t) : lookupT t n = some (.sdir c) := by
  induction t with
  | fnil => simp [levelDirsT] at h
  | ffile m d r ih =>
      have hw' : ¬ m ∈ namesT r ∧ WfT r = true := by simpa [WfT] using hw
      rw [levelDirsT] at h
      rw [lookupT]
      have hmn : ¬ m = n := by
        intro he
        subst he
        exact hw'.1 (levelDirs_sub r m c h)
      rw [if_neg hmn]
      exact ih hw'.2 h
  | fdir m c0 r ihc ihr =>
      have hw' : (¬ m ∈ namesT r ∧ WfT c0 = true) ∧ WfT r = true := by simpa [WfT] using hw
      rw [levelDirsT] at h
      rcases List.mem_cons.mp h with h1 | h1
      · simp only [Prod.mk.injEq] at h1
        rw [lookupT, if_pos h1.1.symm, h1.2]
      · rw [lookupT]
        have hmn : ¬ m = n := by
          intro he
          subst he
          exact hw'.1.1 (levelDirs_sub r m c h1)
        rw [if_neg hmn]
        exact ihr hw'.2 h1

theorem no_dirEntry_of_lookup_file (t : Tree) (n : String) (ds : FileData)
    (hw : WfT t = true) (hl : lookupT t n = some (.sfile ds)) :
    ¬ ∃ c, (n, c) ∈ levelDirsT t := by
  rintro ⟨c, hc⟩
  rw [lookup_of_levelDir t n c hw hc] at hl
  cases hl

theorem WfT_lookup_dir (t : Tree) (n : String) (c : Tree) (hw : WfT t = true)
    (hl : lookupT t n = some (.sdir c)) : WfT c = true := by
  induction t with
  | fnil => cases hl
  | ffile m d r ih =>
      have hw' : ¬ m ∈ namesT r ∧ WfT r = true := by simpa [WfT] using hw
      rw [lookupT] at hl
      split at hl
      · cases hl
      · exact ih hw'.2 hl
  | fdir m c0 r ihc ihr =>
      have hw' : (¬ m ∈ namesT r ∧ WfT c0 = true) ∧ WfT r = true := by simpa [WfT] using hw
      rw [lookupT] at hl
      split at hl
      · simp only [Option.some.injEq, Slot.sdir.injEq] at hl
        rw [← hl]
        exact hw'.1.2
      · exact ihr hw'.2 hl

theorem allInfo_walk_pre (env : Env) (rp : Path) (s : Tree) (ctx : FwdCtx) (st : St)
    (ctx2 : FwdCtx) (st2 : St) (hrun : fwdWalk env rp s ctx st = .ok (ctx2, st2))
    (h : allInfo st2.events = true) : allInfo st.events = true := by
  obtain ⟨l, hev, _⟩ := fwdWalk_events env s rp ctx st
  rw [hrun] at hev
  simp only [resSt] at hev
  rw [hev] at h
  exact allInfo_append_left _ _ h

theorem allInfo_files_pre (env : Env) (rp : Path) (s : Tree) (ctx : FwdCtx) (st : St)
    (h : allInfo (fwdFiles env rp s ctx st).2.events = true) : allInfo st.events = true := by
  obtain ⟨l, hev, _⟩ := fwdFiles_events env rp s ctx st
  rw [hev] at h
  exact allInfo_append_left _ _ h

theorem srcSideA_assemble :
    ∀ (s u2 : Tree), WfT s = true →
      (∀ n ds, lookupT s n = some (.sfile ds) → ds.readable = true ∧
        ∃ dd, lookupT u2 n = some (.sfile dd) ∧ dd.readable = true ∧
          dd.content = ds.content) →
      (∀ n c, lookupT s n = some (.sdir c) →
        (∃ w2, lookupT u2 n = some (.sdir w2) ∧ srcSideA c w2 = true) ∨
        (∃ dd, lookupT u2 n = some (.sfile dd) ∧ c = Tree.fnil)) →
      srcSideA s u2 = true := by
  intro s
  induction s with
  | fnil => intro u2 _ _ _; rfl
  | ffile n ds r ih =>
      intro u2 hw hf hd
      have hw' : ¬ n ∈ namesT r ∧ WfT r = true := by simpa [WfT] using hw
      rw [srcSideA, Bool.and_eq_true]
      constructor
      · obtain ⟨h1, dd, h2, h3, h4⟩ := hf n ds (by rw [lookupT, if_pos rfl])
        rw [h2]
        simp [h1, h3, h4]
      · refine ih u2 hw'.2 ?_ ?_
        · intro m ds0 hm
          refine hf m ds0 ?_
          rw [lookupT]
          have hnm : ¬ n = m := by
            intro he
            subst he
            exact hw'.1 (lookup_mem_names r n _ hm)
          rw [if_neg hnm]
          exact hm
        · intro m c0 hm
          refine hd m c0 ?_
          rw [lookupT]
          have hnm : ¬ n = m := by
            intro he
            subst he
            exact hw'.1 (lookup_mem_names r n _ hm)
          rw [if_neg hnm]
          exact hm
  | fdir n c r ihc ihr =>
      intro u2 hw hf hd
      have hw' : (¬ n ∈ namesT r ∧ WfT c = true) ∧ WfT r = true := by simpa [WfT] using hw
      rw [srcSideA, Bool.and_eq_true]
      constructor
      · rcases hd n c (by rw [lookupT, if_pos rfl]) with ⟨w2, h1, h2⟩ | ⟨dd, h1, h2⟩
        · rw [h1]
          exact h2
        · rw [h1, h2]
          rfl
      · refine ihr u2 hw'.2 ?_ ?_
        · intro m ds0 hm
          refine hf m ds0 ?_
          rw [lookupT]
          have hnm : ¬ n = m := by
            intro he
            subst he
            exact hw'.1.1 (lookup_mem_names r n _ hm)
          rw [if_neg hnm]
          exact hm
        · intro m c0 hm
          refine hd m c0 ?_
          rw [lookupT]
          have hnm : ¬ n = m := by
            intro he
            subst he
            exact hw'.1.1 (lookup_mem_names r n _ hm)
          rw [if_neg hnm]
          exact hm

theorem repSideA_assemble :
    ∀ (u2 s : Tree),
      (∀ n w, (n, w) ∈ levelDirsT u2 →
        (∃ c, lookupT s n = some (.sdir c) ∧ repSideA c w = true) ∨ lookupT s n = none) →
      repSideA s u2 = true := by
  intro u2
  induction u2 with
  | fnil => intro s _; rfl
  | ffile n d r ih =>
      intro s hd
      rw [repSideA]
      refine ih s ?_
      intro m w hm
      refine hd m w ?_
      rw [levelDirsT]
      exact hm
  | fdir n w r ihc ihr =>
      intro s hd
      rw [repSideA, Bool.and_eq_true]
      constructor
      · rcases hd n w (by rw [levelDirsT]; exact List.mem_cons_self _ _) with
          ⟨c, h1, h2⟩ | h1
        · rw [h1]
          exact h2
        · rw [h1]
      · refine ihr s ?_
        intro m w0 hm
        refine hd m w0 ?_
        rw [levelDirsT]
        exact List.mem_cons_of_mem _ hm

theorem fwdWalk_allInfo :
    ∀ (k : Nat) (s : Tree), sizeOf s ≤ k →
      ∀ (u : Tree) (rp : Path) (st : St) (ctx2 : FwdCtx) (st2 : St),
        WfT s = true → WfT u = true →
        fwdWalk noFaultEnv rp s (.ctxDir u) st = .ok (ctx2, st2) →
        allInfo st2.events = true →
        ∃ u2, ctx2 = .ctxDir u2 ∧
          (∀ m, (¬ ∃ c0, (m, c0) ∈ levelDirsT s) → lookupT u2 m = lookupT u m) ∧
          ∀ n c, (n, c) ∈ levelDirsT s →
            (∃ w2, lookupT u2 n = some (.sdir w2) ∧ srcSideA c w2 = true ∧
              repSideA c w2 = true) ∨
            (∃ dd, lookupT u2 n = some (.sfile dd) ∧ lookupT u n = some (.sfile dd) ∧
              c = Tree.fnil) := by
  intro k
  induction k with
  | zero =>
      intro s hsz
      exact absurd (Nat.lt_of_lt_of_le (sizeOf_tree_pos s) hsz) (lt_irrefl 0)
  | succ k ihk =>
      intro s hsz u rp st ctx2 st2 hw hwu hrun hinfo
      cases s with
      | fnil =>
          simp only [fwdWalk, Except.ok.injEq, Prod.mk.injEq] at hrun
          refine ⟨u, hrun.1.symm, fun m _ => rfl, fun n c h => absurd h ?_⟩
          simp [levelDirsT]
      | ffile n d rest =>
          have hw' : ¬ n ∈ namesT rest ∧ WfT rest = true := by simpa [WfT] using hw
          have hszr : sizeOf rest ≤ k := by
            have h0 : sizeOf rest < sizeOf (Tree.ffile n d rest) := by
              simp only [Tree.ffile.sizeOf_spec]
              omega
            omega
          simp only [fwdWalk] at hrun
          obtain ⟨u2, g1, g2, g3⟩ := ihk rest hszr u rp st ctx2 st2 hw'.2 hwu hrun hinfo
          refine ⟨u2, g1, ?_, ?_⟩
          · simp only [levelDirsT]
            exact g2
          · simp only [levelDirsT]
            exact g3
      | fdir n c rest =>
          have hw' : (¬ n ∈ namesT rest ∧ WfT c = true) ∧ WfT rest = true := by
            simpa [WfT] using hw
          have hszc : sizeOf c ≤ k := by
            have h0 : sizeOf c < sizeOf (Tree.fdir n c rest) := by
              simp only [Tree.fdir.sizeOf_spec]
              omega
            omega
          have hszr : sizeOf rest ≤ k := by
            have h0 : sizeOf rest < sizeOf (Tree.fdir n c rest) := by
              simp only [Tree.fdir.sizeOf_spec]
              omega
            omega
          have hnrest : ¬ ∃ cc, (n, cc) ∈ levelDirsT rest := by
            rintro ⟨cc, hcc⟩
            exact hw'.1.1 (levelDirs_sub rest n cc hcc)
          cases hlu : lookupT u n with
          | some s0 =>
              cases s0 with
              | sfile dd =>
                  simp only [fwdWalk, hlu,
                    fwdFiles_blocked_ctx noFaultEnv (rp ++ [n]) c st] at hrun
                  cases hw2 : fwdWalk noFaultEnv (rp ++ [n]) c .blocked
                      (fwdFiles noFaultEnv (rp ++ [n]) c FwdCtx.blocked st).2 with
                  | error e =>
                      rw [hw2] at hrun
                      simp only [] at hrun
                      cases hrun
                  | ok rr =>
                      obtain ⟨cctx, cst⟩ := rr
                      rw [hw2] at hrun
                      simp only [] at hrun
                      have hIcst : allInfo cst.events = true :=
                        allInfo_walk_pre _ _ _ _ _ _ _ hrun hinfo
                      have hIr1 : allInfo
                          (fwdFiles noFaultEnv (rp ++ [n]) c FwdCtx.blocked st).2.events =
                          true := allInfo_walk_pre _ _ _ _ _ _ _ hw2 hIcst
                      have hfn : levelFileNamesT c = [] :=
                        fwdFiles_blocked_warn (rp ++ [n]) c st hIr1
                      have hdn : levelDirsT c = [] :=
                        fwdWalk_blocked_dirs noFaultEnv c (rp ++ [n]) _ _ hw2
                      have hcnil : c = Tree.fnil := empty_of_no_entries c hfn hdn
                      obtain ⟨u2, g1, g2, g3⟩ :=
                        ihk rest hszr u rp cst ctx2 st2 hw'.2 hwu hrun hinfo
                      refine ⟨u2, g1, ?_, ?_⟩
                      · intro m hm
                        refine g2 m ?_
                        rintro ⟨c0, hc0⟩
                        exact hm ⟨c0, by rw [levelDirsT]; exact List.mem_cons_of_mem _ hc0⟩
                      · intro n0 c0 h0
                        rw [levelDirsT] at h0
                        rcases List.mem_cons.mp h0 with h1 | h1
                        · simp only [Prod.mk.injEq] at h1
                          rw [h1.1, h1.2]
                          refine Or.inr ⟨dd, ?_, hlu, hcnil⟩
                          rw [g2 n hnrest]
                          exact hlu
                        · exact g3 n0 c0 h1
              | sdir w =>
                  simp only [fwdWalk, hlu] at hrun
                  cases hw2 : fwdWalk noFaultEnv (rp ++ [n]) c
                      (fwdFiles noFaultEnv (rp ++ [n]) c (.ctxDir w) st).1
                      (fwdFiles noFaultEnv (rp ++ [n]) c (.ctxDir w) st).2 with
                  | error e =>
                      rw [hw2] at hrun
                      simp only [] at hrun
                      cases hrun
                  | ok rr =>
                      obtain ⟨cctx, cst⟩ := rr
                      rw [hw2] at hrun
                      simp only [] at hrun
                      have hIcst : allInfo cst.events = true :=
                        allInfo_walk_pre _ _ _ _ _ _ _ hrun hinfo
                      have hIfiles : allInfo
                          (fwdFiles noFaultEnv (rp ++ [n]) c (.ctxDir w) st).2.events =
                          true := allInfo_walk_pre _ _ _ _ _ _ _ hw2 hIcst
                      obtain ⟨w1, f1, f2, f3⟩ :=
                        fwdFiles_allInfo (rp ++ [n]) c w st hw'.1.2 hIfiles
                      rw [f1] at hw2
                      have hWfw : WfT w = true := WfT_lookup_dir u n w hwu hlu
                      have hcw1 : WfT w1 = true := by
                        have h0 := fwdFiles_ctxWf noFaultEnv (rp ++ [n]) c (.ctxDir w) st hWfw
                        rw [f1] at h0
                        exact h0
                      obtain ⟨u2c, e1, e2, e3⟩ := ihk c hszc w1 (rp ++ [n])
                        (fwdFiles noFaultEnv (rp ++ [n]) c (.ctxDir w) st).2 cctx cst
                        hw'.1.2 hcw1 hw2 hIcst
                      have hWfu2c : WfT u2c = true := by
                        have h0 := fwdWalk_ctxWf noFaultEnv c (rp ++ [n]) (.ctxDir w1) _
                          cctx cst hcw1 hw2
                        rw [e1] at h0
                        exact h0
                      have hsrcA : srcSideA c u2c = true := by
                        refine srcSideA_assemble c u2c hw'.1.2 ?_ ?_
                        · intro m ds hm
                          obtain ⟨h1, dd, h2, h3, h4⟩ := f2 m ds hm
                          refine ⟨h1, dd, ?_, h3, h4⟩
                          rw [e2 m (no_dirEntry_of_lookup_file c m ds hw'.1.2 hm)]
                          exact h2
                        · intro m c0 hm
                          rcases e3 m c0 (levelDirs_of_lookup c m c0 hm) with
                            ⟨w2, hA, hB, _⟩ | ⟨dd, hA, _, hC⟩
                          · exact Or.inl ⟨w2, hA, hB⟩
                          · exact Or.inr ⟨dd, hA, hC⟩
                      have hrepA : repSideA c u2c = true := by
                        refine repSideA_assemble u2c c ?_
                        intro m w0 hm
                        have hlk : lookupT u2c m = some (.sdir w0) :=
                          lookup_of_levelDir u2c m w0 hWfu2c hm
                        cases hcm : lookupT c m with
                        | none => exact Or.inr rfl
                        | some sl =>
                            cases sl with
                            | sfile ds =>
                                exfalso
                                obtain ⟨h1, dd, h2, h3, h4⟩ := f2 m ds hcm
                                rw [e2 m (no_dirEntry_of_lookup_file c m ds hw'.1.2 hcm),
                                  h2] at hlk
                                cases hlk
                            | sdir c0 =>
                                rcases e3 m c0 (levelDirs_of_lookup c m c0 hcm) with
                                  ⟨w2, hA, _, hC⟩ | ⟨dd, hA, _, _⟩
                                · rw [hA] at hlk
                                  simp only [Option.some.injEq, Slot.sdir.injEq] at hlk
                                  exact Or.inl ⟨c0, rfl, by rw [← hlk]; exact hC⟩
                                · rw [hA] at hlk
                                  cases hlk
                      rw [e1] at hrun
                      simp only [ctxTree] at hrun
                      have hWfu' : WfT (setSlotT u n (.sdir u2c)) = true :=
                        WfT_set u n _ hwu (by intro c0 hc0; cases hc0; exact hWfu2c)
                      obtain ⟨u2, g1, g2, g3⟩ := ihk rest hszr (setSlotT u n (.sdir u2c))
                        rp cst ctx2 st2 hw'.2 hWfu' hrun hinfo
                      refine ⟨u2, g1, ?_, ?_⟩
                      · intro m hm
                        have hnm : ¬ n = m := by
                          intro he
                          subst he
                          exact hm ⟨c, by rw [levelDirsT]; exact List.mem_cons_self _ _⟩
                        have hm' : ¬ ∃ c0, (m, c0) ∈ levelDirsT rest := by
                          rintro ⟨c0, hc0⟩
                          exact hm ⟨c0, by rw [levelDirsT]; exact List.mem_cons_of_mem _ hc0⟩
                        rw [g2 m hm', lookup_set_ne u n m _ hnm]
                      · intro n0 c0 h0
                        rw [levelDirsT] at h0
                        rcases List.mem_cons.mp h0 with h1 | h1
                        · simp only [Prod.mk.injEq] at h1
                          rw [h1.1, h1.2]
                          refine Or.inl ⟨u2c, ?_, hsrcA, hrepA⟩
                          rw [g2 n hnrest, lookup_set_self]
                        · rcases g3 n0 c0 h1 with hinl | ⟨dd, hA, hB, hC⟩
                          · exact Or.inl hinl
                          · have hnn0 : ¬ n = n0 := by
                              intro he
                              subst he
                              exact hw'.1.1 (levelDirs_sub rest n c0 h1)
                            rw [lookup_set_ne u n n0 _ hnn0] at hB
                            exact Or.inr ⟨dd, hA, hB, hC⟩
          | none =>
              simp only [fwdWalk, hlu, noFaultEnv_mkdir, Bool.false_eq_true, if_false] at hrun
              cases hw2 : fwdWalk noFaultEnv (rp ++ [n]) c
                  (fwdFiles noFaultEnv (rp ++ [n]) c (.ctxDir .fnil)
                    ((st.push [⟨Sev.info, EvKind.dirCreated, ⟨Root.rep, rp ++ [n]⟩⟩]).addMut
                      ⟨MutKind.mkdirM, ⟨Root.rep, rp ++ [n]⟩⟩)).1
                  (fwdFiles noFaultEnv (rp ++ [n]) c (.ctxDir .fnil)
                    ((st.push [⟨Sev.info, EvKind.dirCreated, ⟨Root.rep, rp ++ [n]⟩⟩]).addMut
                      ⟨MutKind.mkdirM, ⟨Root.rep, rp ++ [n]⟩⟩)).2 with
              | error e =>
                  rw [hw2] at hrun
                  simp only [] at hrun
                  cases hrun
              | ok rr =>
                  obtain ⟨cctx, cst⟩ := rr
                  rw [hw2] at hrun
                  simp only [] at hrun
                  have hIcst : allInfo cst.events = true :=
                    allInfo_walk_pre _ _ _ _ _ _ _ hrun hinfo
                  have hIfiles : allInfo
                      (fwdFiles noFaultEnv (rp ++ [n]) c (.ctxDir .fnil)
                        ((st.push [⟨Sev.info, EvKind.dirCreated, ⟨Root.rep, rp ++ [n]⟩⟩]).addMut
                          ⟨MutKind.mkdirM, ⟨Root.rep, rp ++ [n]⟩⟩)).2.events = true :=
                    allInfo_walk_pre _ _ _ _ _ _ _ hw2 hIcst
                  obtain ⟨w1, f1, f2, f3⟩ := fwdFiles_allInfo (rp ++ [n]) c Tree.fnil
                    ((st.push [⟨Sev.info, EvKind.dirCreated, ⟨Root.rep, rp ++ [n]⟩⟩]).addMut
                      ⟨MutKind.mkdirM, ⟨Root.rep, rp ++ [n]⟩⟩) hw'.1.2 hIfiles
                  rw [f1] at hw2
                  have hcw1 : WfT w1 = true := by
                    have h0 := fwdFiles_ctxWf noFaultEnv (rp ++ [n]) c (.ctxDir .fnil)
                      ((st.push [⟨Sev.info, EvKind.dirCreated, ⟨Root.rep, rp ++ [n]⟩⟩]).addMut
                        ⟨MutKind.mkdirM, ⟨Root.rep, rp ++ [n]⟩⟩) rfl
                    rw [f1] at h0
                    exact h0
                  obtain ⟨u2c, e1, e2, e3⟩ := ihk c hszc w1 (rp ++ [n])
                    (fwdFiles noFaultEnv (rp ++ [n]) c (.ctxDir .fnil)
                      ((st.push [⟨Sev.info, EvKind.dirCreated, ⟨Root.rep, rp ++ [n]⟩⟩]).addMut
                        ⟨MutKind.mkdirM, ⟨Root.rep, rp ++ [n]⟩⟩)).2 cctx cst
                    hw'.1.2 hcw1 hw2 hIcst
                  have hWfu2c : WfT u2c = true := by
                    have h0 := fwdWalk_ctxWf noFaultEnv c (rp ++ [n]) (.ctxDir w1) _
                      cctx cst hcw1 hw2
                    rw [e1] at h0
                    exact h0
                  have hsrcA : srcSideA c u2c = true := by
                    refine srcSideA_assemble c u2c hw'.1.2 ?_ ?_
                    · intro m ds hm
                      obtain ⟨h1, dd, h2, h3, h4⟩ := f2 m ds hm
                      refine ⟨h1, dd, ?_, h3, h4⟩
                      rw [e2 m (no_dirEntry_of_lookup_file c m ds hw'.1.2 hm)]
                      exact h2
                    · intro m c0 hm
                      rcases e3 m c0 (levelDirs_of_lookup c m c0 hm) with
                        ⟨w2, hA, hB, _⟩ | ⟨dd, hA, _, hC⟩
                      · exact Or.inl ⟨w2, hA, hB⟩
                      · exact Or.inr ⟨dd, hA, hC⟩
                  have hrepA : repSideA c u2c = true := by
                    refine repSideA_assemble u2c c ?_
                    intro m w0 hm
                    have hlk : lookupT u2c m = some (.sdir w0) :=
                      lookup_of_levelDir u2c m w0 hWfu2c hm
                    cases hcm : lookupT c m with
                    | none => exact Or.inr rfl
                    | some sl =>
                        cases sl with
                        | sfile ds =>
                            exfalso
                            obtain ⟨h1, dd, h2, h3, h4⟩ := f2 m ds hcm
                            rw [e2 m (no_dirEntry_of_lookup_file c m ds hw'.1.2 hcm),
                              h2] at hlk
                            cases hlk
                        | sdir c0 =>
                            rcases e3 m c0 (levelDirs_of_lookup c m c0 hcm) with
                              ⟨w2, hA, _, hC⟩ | ⟨dd, hA, _, _⟩
                            · rw [hA] at hlk
                              simp only [Option.some.injEq, Slot.sdir.injEq] at hlk
                              exact Or.inl ⟨c0, rfl, by rw [← hlk]; exact hC⟩
                            · rw [hA] at hlk
                              cases hlk
                  rw [e1] at hrun
                  simp only [ctxTree, set_set_same] at hrun
                  have hWfu' : WfT (setSlotT u n (.sdir u2c)) = true :=
                    WfT_set u n _ hwu (by intro c0 hc0; cases hc0; exact hWfu2c)
                  obtain ⟨u2, g1, g2, g3⟩ := ihk rest hszr (setSlotT u n (.sdir u2c))
                    rp cst ctx2 st2 hw'.2 hWfu' hrun hinfo
                  refine ⟨u2, g1, ?_, ?_⟩
                  · intro m hm
                    have hnm : ¬ n = m := by
                      intro he
                      subst he
                      exact hm ⟨c, by rw [levelDirsT]; exact List.mem_cons_self _ _⟩
                    have hm' : ¬ ∃ c0, (m, c0) ∈ levelDirsT rest := by
                      rintro ⟨c0, hc0⟩
                      exact hm ⟨c0, by rw [levelDirsT]; exact List.mem_cons_of_mem _ hc0⟩
                    rw [g2 m hm', lookup_set_ne u n m _ hnm]
                  · intro n0 c0 h0
                    rw [levelDirsT] at h0
                    rcases List.mem_cons.mp h0 with h1 | h1
                    · simp only [Prod.mk.injEq] at h1
                      rw [h1.1, h1.2]
                      refine Or.inl ⟨u2c, ?_, hsrcA, hrepA⟩
                      rw [g2 n hnrest, lookup_set_self]
                    · rcases g3 n0 c0 h1 with hinl | ⟨dd, hA, hB, hC⟩
                      · exact Or.inl hinl
                      · have hnn0 : ¬ n = n0 := by
                          intro he
                          subst he
                          exact hw'.1.1 (levelDirs_sub rest n c0 h1)
                        rw [lookup_set_ne u n n0 _ hnn0] at hB
                        exact Or.inr ⟨dd, hA, hB, hC⟩

theorem fwdTop_allInfo (src rep : Tree) (ctx2 : FwdCtx) (st2 : St)
    (hws : WfT src = true) (hwr : WfT rep = true)
    (hrun : fwdWalk noFaultEnv [] src (fwdFiles noFaultEnv [] src (.ctxDir rep) St.init).1
      (fwdFiles noFaultEnv [] src (.ctxDir rep) St.init).2 = .ok (ctx2, st2))
    (hinfo : allInfo st2.events = true) :
    ∃ u2, ctx2 = .ctxDir u2 ∧ WfT u2 = true ∧ srcSideA src u2 = true ∧
      repSideA src u2 = true := by
  have hIfiles : allInfo (fwdFiles noFaultEnv [] src (.ctxDir rep) St.init).2.events = true :=
    allInfo_walk_pre _ _ _ _ _ _ _ hrun hinfo
  obtain ⟨w1, f1, f2, f3⟩ := fwdFiles_allInfo [] src rep St.init hws hIfiles
  rw [f1] at hrun
  have hcw1 : WfT w1 = true := by
    have h0 := fwdFiles_ctxWf noFaultEnv [] src (.ctxDir rep) St.init hwr
    rw [f1] at h0
    exact h0
  obtain ⟨u2, e1, e2, e3⟩ := fwdWalk_allInfo (sizeOf src) src le_rfl w1 [] _ ctx2 st2
    hws hcw1 hrun hinfo
  have hWfu2 : WfT u2 = true := by
    have h0 := fwdWalk_ctxWf noFaultEnv src [] (.ctxDir w1) _ ctx2 st2 hcw1 hrun
    rw [e1] at h0
    exact h0
  have hsrcA : srcSideA src u2 = true := by
    refine srcSideA_assemble src u2 hws ?_ ?_
    · intro m ds hm
      obtain ⟨h1, dd, h2, h3, h4⟩ := f2 m ds hm
      refine ⟨h1, dd, ?_, h3, h4⟩
      rw [e2 m (no_dirEntry_of_lookup_file src m ds hws hm)]
      exact h2
    · intro m c0 hm
      rcases e3 m c0 (levelDirs_of_lookup src m c0 hm) with
        ⟨w2, hA, hB, _⟩ | ⟨dd, hA, _, hC⟩
      · exact Or.inl ⟨w2, hA, hB⟩
      · exact Or.inr ⟨dd, hA, hC⟩
  have hrepA : repSideA src u2 = true := by
    refine repSideA_assemble u2 src ?_
    intro m w0 hm
    have hlk : lookupT u2 m = some (.sdir w0) := lookup_of_levelDir u2 m w0 hWfu2 hm
    cases hcm : lookupT src m with
    | none => exact Or.inr rfl
    | some sl =>
        cases sl with
        | sfile ds =>
            exfalso
            obtain ⟨h1, dd, h2, h3, h4⟩ := f2 m ds hcm
            rw [e2 m (no_dirEntry_of_lookup_file src m ds hws hcm), h2] at hlk
            cases hlk
        | sdir c0 =>
            rcases e3 m c0 (levelDirs_of_lookup src m c0 hcm) with
              ⟨w2, hA, _, hC⟩ | ⟨dd, hA, _, _⟩
            · rw [hA] at hlk
              simp only [Option.some.injEq, Slot.sdir.injEq] at hlk
              exact Or.inl ⟨c0, rfl, by rw [← hlk]; exact hC⟩
            · rw [hA] at hlk
              cases hlk
  exact ⟨u2, e1, hWfu2, hsrcA, hrepA⟩

theorem lookup_of_levelFile (t : Tree) (n : String) (hw : WfT t = true)
    (h : n ∈ levelFileNamesT t) : ∃ d, lookupT t n = some (.sfile d) := by
  induction t with
  | fnil => simp [levelFileNamesT] at h
  | ffile m d r ih =>
      have hw' : ¬ m ∈ namesT r ∧ WfT r = true := by simpa [WfT] using hw
      rw [levelFileNamesT] at h
      rcases List.mem_cons.mp h with h1 | h1
      · subst h1
        exact ⟨d, by rw [lookupT, if_pos rfl]⟩
      · obtain ⟨d2, hd2⟩ := ih hw'.2 h1
        refine ⟨d2, ?_⟩
        rw [lookupT]
        have hmn : ¬ m = n := by
          intro he
          subst he
          exact hw'.1 (levelFileNames_sub r m h1)
        rw [if_neg hmn]
        exact hd2
  | fdir m c r ihc ihr =>
      have hw' : (¬ m ∈ namesT r ∧ WfT c = true) ∧ WfT r = true := by simpa [WfT] using hw
      rw [levelFileNamesT] at h
      obtain ⟨d2, hd2⟩ := ihr hw'.2 h
      refine ⟨d2, ?_⟩
      rw [lookupT]
      have hmn : ¬ m = n := by
        intro he
        subst he
        exact hw'.1.1 (levelFileNames_sub r m h)
      rw [if_neg hmn]
      exact hd2

theorem bwdFiles_slot (sf : List Path) (rp : Path) :
    ∀ (v : Tree) (st : St), WfT v = true →
      WfT (bwdFiles noFaultEnv sf rp v st).1 = true ∧
      (∀ n, n ∈ namesT (bwdFiles noFaultEnv sf rp v st).1 → n ∈ namesT v) ∧
      levelDirsT (bwdFiles noFaultEnv sf rp v st).1 = levelDirsT v ∧
      (∀ n, lookupT (bwdFiles noFaultEnv sf rp v st).1 n =
        match lookupT v n with
        | some (.sfile d) => if (rp ++ [n]) ∈ sf then some (.sfile d) else none
        | x => x) := by
  intro v
  induction v with
  | fnil =>
      intro st _
      exact ⟨rfl, fun n h => h, rfl, fun n => rfl⟩
  | fdir m c rest ihc ihr =>
      intro st hw
      have hw' : (¬ m ∈ namesT rest ∧ WfT c = true) ∧ WfT rest = true := by
        simpa [WfT] using hw
      obtain ⟨iw, inm, idirs, ilook⟩ := ihr st hw'.2
      simp only [bwdFiles]
      refine ⟨?_, ?_, ?_, ?_⟩
      · have hnm : ¬ m ∈ namesT (bwdFiles noFaultEnv sf rp rest st).1 :=
          fun hmem => hw'.1.1 (inm m hmem)
        simp [WfT, hnm, hw'.1.2, iw]
      · intro n hn
        rw [namesT] at hn ⊢
        rcases List.mem_cons.mp hn with h1 | h1
        · exact List.mem_cons.mpr (Or.inl h1)
        · exact List.mem_cons.mpr (Or.inr (inm n h1))
      · rw [levelDirsT, levelDirsT, idirs]
      · intro n
        by_cases hmn : m = n
        · subst hmn
          simp [lookupT]
        · simp only [lookupT, if_neg hmn]
          exact ilook n
  | ffile m d rest ih =>
      intro st hw
      have hw' : ¬ m ∈ namesT rest ∧ WfT rest = true := by simpa [WfT] using hw
      simp only [bwdFiles, noFaultEnv_remove, Bool.false_eq_true, if_false]
      by_cases hm : (rp ++ [m]) ∈ sf
      · rw [if_pos hm]
        obtain ⟨iw, inm, idirs, ilook⟩ := ih st hw'.2
        refine ⟨?_, ?_, ?_, ?_⟩
        · have hnm : ¬ m ∈ namesT (bwdFiles noFaultEnv sf rp rest st).1 :=
            fun hmem => hw'.1 (inm m hmem)
          simp [WfT, hnm, iw]
        · intro n hn
          rw [namesT] at hn ⊢
          rcases List.mem_cons.mp hn with h1 | h1
          · exact List.mem_cons.mpr (Or.inl h1)
          · exact List.mem_cons.mpr (Or.inr (inm n h1))
        · rw [levelDirsT, levelDirsT, idirs]
        · intro n
          by_cases hmn : m = n
          · subst hmn
            simp [lookupT, hm]
          · simp only [lookupT, if_neg hmn]
            exact ilook n
      · rw [if_neg hm]
        obtain ⟨iw, inm, idirs, ilook⟩ := ih
          (((st.push [⟨Sev.info, EvKind.fileDeleted, ⟨Root.rep, rp ++ [m]⟩⟩]).mark).addMut
            ⟨MutKind.removeM, ⟨Root.rep, rp ++ [m]⟩⟩) hw'.2
        refine ⟨iw, ?_, ?_, ?_⟩
        · intro n hn
          rw [namesT]
          exact List.mem_cons.mpr (Or.inr (inm n hn))
        · rw [levelDirsT]
          exact idirs
        · intro n
          by_cases hmn : m = n
          · subst hmn
            rw [ilook m, (lookupT_eq_none_iff rest m).mpr hw'.1]
            simp [lookupT, hm]
          · simp only [lookupT, if_neg hmn]
            exact ilook n

theorem bwdDirs_wf (sf : List Path) :
    ∀ (v : Tree) (rp : Path) (sctx : Option Tree) (st : St) (v1 : Tree) (st1 : St),
      WfT v = true → bwdDirs noFaultEnv sf rp sctx v st = .ok (v1, st1) →
      WfT v1 = true ∧ (∀ n, n ∈ namesT v1 → n ∈ namesT v) := by
  intro v
  induction v with
  | fnil =>
      intro rp sctx st v1 st1 _ hrun
      cases sctx <;>
        · simp only [bwdDirs, Except.ok.injEq, Prod.mk.injEq] at hrun
          rw [← hrun.1]
          exact ⟨rfl, fun n h => h⟩
  | ffile n d rest ih =>
      intro rp sctx st v1 st1 hw hrun
      have hw' : ¬ n ∈ namesT rest ∧ WfT rest = true := by simpa [WfT] using hw
      simp only [bwdDirs] at hrun
      cases hr : bwdDirs noFaultEnv sf rp sctx rest st with
      | error e =>
          rw [hr] at hrun
          cases hrun
      | ok r2 =>
          rw [hr] at hrun
          obtain ⟨rest2, st2'⟩ := r2
          simp only [Except.ok.injEq, Prod.mk.injEq] at hrun
          obtain ⟨h1, h2⟩ := hrun
          obtain ⟨iw, inm⟩ := ih rp sctx st rest2 st2' hw'.2 hr
          rw [← h1]
          refine ⟨?_, ?_⟩
          · have hnm : ¬ n ∈ namesT rest2 := fun hmem => hw'.1 (inm n hmem)
            simp [WfT, hnm, iw]
          · intro m hm
            rw [namesT] at hm ⊢
            rcases List.mem_cons.mp hm with h3 | h3
            · exact List.mem_cons.mpr (Or.inl h3)
            · exact List.mem_cons.mpr (Or.inr (inm m h3))
  | fdir n c rest ihc ihr =>
      intro rp sctx st v1 st1 hw hrun
      have hw' : (¬ n ∈ namesT rest ∧ WfT c = true) ∧ WfT rest = true := by
        simpa [WfT] using hw
      have keep : ∀ (cc : Option Tree),
          ((match bwdDirs noFaultEnv sf (rp ++ [n]) cc c st with
            | .error e => .error e
            | .ok (c1, st1) =>
                match bwdDirs noFaultEnv sf rp sctx rest
                    (bwdFiles noFaultEnv sf (rp ++ [n]) c1 st1).2 with
                | .error e => .error e
                | .ok (rest2, st3) =>
                    .ok (.fdir n (bwdFiles noFaultEnv sf (rp ++ [n]) c1 st1).1 rest2, st3) :
            Except (Fault × St) (Tree × St)) = .ok (v1, st1)) →
          WfT v1 = true ∧ (∀ m, m ∈ namesT v1 → m ∈ namesT (Tree.fdir n c rest)) := by
        intro cc hrun2
        cases hc : bwdDirs noFaultEnv sf (rp ++ [n]) cc c st with
        | error e =>
            rw [hc] at hrun2
            cases hrun2
        | ok r1 =>
            rw [hc] at hrun2
            obtain ⟨c1, st1'⟩ := r1
            simp only [] at hrun2
            cases hr : bwdDirs noFaultEnv sf rp sctx rest
                (bwdFiles noFaultEnv sf (rp ++ [n]) c1 st1').2 with
            | error e =>
                rw [hr] at hrun2
                cases hrun2
            | ok r3 =>
                rw [hr] at hrun2
                obtain ⟨rest2, st3⟩ := r3
                simp only [Except.ok.injEq, Prod.mk.injEq] at hrun2
                obtain ⟨h1, h2⟩ := hrun2
                obtain ⟨iwc, _⟩ := ihc (rp ++ [n]) cc st c1 st1' hw'.1.2 hc
                obtain ⟨iwf, _, _, _⟩ := bwdFiles_slot sf (rp ++ [n]) c1 st1' iwc
                obtain ⟨iw, inm⟩ := ihr rp sctx _ rest2 st3 hw'.2 hr
                rw [← h1]
                refine ⟨?_, ?_⟩
                · have hnm : ¬ n ∈ namesT rest2 := fun hmem => hw'.1.1 (inm n hmem)
                  simp [WfT, hnm, iwf, iw]
                · intro m hm
                  rw [namesT] at hm ⊢
                  rcases List.mem_cons.mp hm with h3 | h3
                  · exact List.mem_cons.mpr (Or.inl h3)
                  · exact List.mem_cons.mpr (Or.inr (inm m h3))
      have drop :
          ((match bwdDirs noFaultEnv sf (rp ++ [n]) none c st with
            | .error e => .error e
            | .ok (c1, st1) =>
                if noFaultEnv.rmdirFails (rp ++ [n]) ||
                    !(isNilT (bwdFiles noFaultEnv sf (rp ++ [n]) c1 st1).1) then
                  .error (.rmdirFault (rp ++ [n]), (bwdFiles noFaultEnv sf (rp ++ [n]) c1 st1).2)
                else
                  match bwdDirs noFaultEnv sf rp sctx rest
                      ((((bwdFiles noFaultEnv sf (rp ++ [n]) c1 st1).2.push
                        [⟨Sev.info, EvKind.dirDeleted, ⟨Root.rep, rp ++ [n]⟩⟩]).mark).addMut
                        ⟨MutKind.rmdirM, ⟨Root.rep, rp ++ [n]⟩⟩) with
                  | .error e => .error e
                  | .ok (rest2, st4) => .ok (rest2, st4) :
            Except (Fault × St) (Tree × St)) = .ok (v1, st1)) →
          WfT v1 = true ∧ (∀ m, m ∈ namesT v1 → m ∈ namesT (Tree.fdir n c rest)) := by
        intro hrun2
        cases hc : bwdDirs noFaultEnv sf (rp ++ [n]) none c st with
        | error e =>
            rw [hc] at hrun2
            cases hrun2
        | ok r1 =>
            rw [hc] at hrun2
            obtain ⟨c1, st1'⟩ := r1
            simp only [] at hrun2
            split at hrun2
            · cases hrun2
            · cases hr : bwdDirs noFaultEnv sf rp sctx rest
                  ((((bwdFiles noFaultEnv sf (rp ++ [n]) c1 st1').2.push
                    [⟨Sev.info, EvKind.dirDeleted, ⟨Root.rep, rp ++ [n]⟩⟩]).mark).addMut
                    ⟨MutKind.rmdirM, ⟨Root.rep, rp ++ [n]⟩⟩) with
              | error e =>
                  rw [hr] at hrun2
                  cases hrun2
              | ok r3 =>
                  rw [hr] at hrun2
                  obtain ⟨rest2, st4⟩ := r3
                  simp only [Except.ok.injEq, Prod.mk.injEq] at hrun2
                  obtain ⟨h1, h2⟩ := hrun2
                  obtain ⟨iw, inm⟩ := ihr rp sctx _ rest2 st4 hw'.2 hr
                  rw [← h1]
                  refine ⟨iw, ?_⟩
                  intro m hm
                  rw [namesT]
                  exact List.mem_cons.mpr (Or.inr (inm m hm))
      cases sctx with
      | none =>
          simp only [bwdDirs] at hrun
          exact drop hrun
      | some sf0 =>
          cases hls : lookupT sf0 n with
          | none =>
              simp only [bwdDirs, hls] at hrun
              exact drop hrun
          | some s0 =>
              cases s0 with
              | sfile d0 =>
                  simp only [bwdDirs, hls] at hrun
                  exact keep none hrun
              | sdir sc =>
                  simp only [bwdDirs, hls] at hrun
                  exact keep (some sc) hrun

theorem bwdDirs_chase (sf : List Path) :
    ∀ (v s' : Tree) (rp : Path) (st : St) (v1 : Tree) (stF : St),
      WfT v = true →
      bwdDirs noFaultEnv sf rp (some s') v st = .ok (v1, stF) →
      (∀ n0 d, lookupT v n0 = some (.sfile d) → lookupT v1 n0 = some (.sfile d)) ∧
      (∀ n0, lookupT v n0 = none → lookupT v1 n0 = none) ∧
      (∀ n0 d, lookupT v1 n0 = some (.sfile d) → lookupT v n0 = some (.sfile d)) ∧
      (∀ n0 w2, lookupT v1 n0 = some (.sdir w2) → ∃ w, lookupT v n0 = some (.sdir w)) ∧
      (∀ n0 w sc, lookupT v n0 = some (.sdir w) → lookupT s' n0 = some (.sdir sc) →
        ∃ stx c1 sty, bwdDirs noFaultEnv sf (rp ++ [n0]) (some sc) w stx = .ok (c1, sty) ∧
          lookupT v1 n0 = some (.sdir (bwdFiles noFaultEnv sf (rp ++ [n0]) c1 sty).1)) ∧
      (∀ n0 w, lookupT v n0 = some (.sdir w) → lookupT s' n0 = none →
        lookupT v1 n0 = none) := by
  intro v
  induction v with
  | fnil =>
      intro s' rp st v1 stF _ hrun
      simp only [bwdDirs, Except.ok.injEq, Prod.mk.injEq] at hrun
      obtain ⟨h1, h2⟩ := hrun
      subst h1
      exact ⟨fun n0 d h => by simp [lookupT] at h,
        fun n0 h => h,
        fun n0 d h => h,
        fun n0 w2 h => by simp [lookupT] at h,
        fun n0 w sc h _ => by simp [lookupT] at h,
        fun n0 w h _ => by simp [lookupT] at h⟩
  | ffile m d0 rest ihr =>
      intro s' rp st v1 stF hw hrun
      have hw' : ¬ m ∈ namesT rest ∧ WfT rest = true := by simpa [WfT] using hw
      simp only [bwdDirs] at hrun
      cases hr : bwdDirs noFaultEnv sf rp (some s') rest st with
      | error e =>
          rw [hr] at hrun
          cases hrun
      | ok r2 =>
          rw [hr] at hrun
          obtain ⟨rest2, st2'⟩ := r2
          simp only [Except.ok.injEq, Prod.mk.injEq] at hrun
          obtain ⟨h1, h2⟩ := hrun
          subst h1
          obtain ⟨cA, cB, cC, cD, cE, cF⟩ := ihr s' rp st rest2 st2' hw'.2 hr
          refine ⟨?_, ?_, ?_, ?_, ?_, ?_⟩
          · intro n0 d h
            by_cases hmn : m = n0
            · rw [lookupT, if_pos hmn] at h ⊢
              exact h
            · rw [lookupT, if_neg hmn] at h ⊢
              exact cA n0 d h
          · intro n0 h
            by_cases hmn : m = n0
            · rw [lookupT, if_pos hmn] at h
              cases h
            · rw [lookupT, if_neg hmn] at h ⊢
              exact cB n0 h
          · intro n0 d h
            by_cases hmn : m = n0
            · rw [lookupT, if_pos hmn] at h ⊢
              exact h
            · rw [lookupT, if_neg hmn] at h ⊢
              exact cC n0 d h
          · intro n0 w2 h
            by_cases hmn : m = n0
            · rw [lookupT, if_pos hmn] at h
              cases h
            · rw [lookupT, if_neg hmn] at h
              obtain ⟨w, hw0⟩ := cD n0 w2 h
              exact ⟨w, by rw [lookupT, if_neg hmn]; exact hw0⟩
          · intro n0 w sc hv hs
            by_cases hmn : m = n0
            · rw [lookupT, if_pos hmn] at hv
              cases hv
            · rw [lookupT, if_neg hmn] at hv
              obtain ⟨stx, c1x, styx, ha, hb⟩ := cE n0 w sc hv hs
              exact ⟨stx, c1x, styx, ha, by rw [lookupT, if_neg hmn]; exact hb⟩
          · intro n0 w hv hs
            by_cases hmn : m = n0
            · rw [lookupT, if_pos hmn] at hv
              cases hv
            · rw [lookupT, if_neg hmn] at hv ⊢
              exact cF n0 w hv hs
  | fdir n c rest ihc ihr =>
      intro s' rp st v1 stF hw hrun
      have hw' : (¬ n ∈ namesT rest ∧ WfT c = true) ∧ WfT rest = true := by
        simpa [WfT] using hw
      have keep : ∀ (cc : Option Tree) (sl0 : Slot), lookupT s' n = some sl0 →
          (∀ sc, sl0 = .sdir sc → cc = some sc) →
          ((match bwdDirs noFaultEnv sf (rp ++ [n]) cc c st with
            | .error e => .error e
            | .ok (c1, st1) =>
                match bwdDirs noFaultEnv sf rp (some s') rest
                    (bwdFiles noFaultEnv sf (rp ++ [n]) c1 st1).2 with
                | .error e => .error e
                | .ok (rest2, st3) =>
                    .ok (.fdir n (bwdFiles noFaultEnv sf (rp ++ [n]) c1 st1).1 rest2, st3) :
            Except (Fault × St) (Tree × St)) = .ok (v1, stF)) →
          (∀ n0 d, lookupT (Tree.fdir n c rest) n0 = some (.sfile d) →
            lookupT v1 n0 = some (.sfile d)) ∧
          (∀ n0, lookupT (Tree.fdir n c rest) n0 = none → lookupT v1 n0 = none) ∧
          (∀ n0 d, lookupT v1 n0 = some (.sfile d) →
            lookupT (Tree.fdir n c rest) n0 = some (.sfile d)) ∧
          (∀ n0 w2, lookupT v1 n0 = some (.sdir w2) →
            ∃ w, lookupT (Tree.fdir n c rest) n0 = some (.sdir w)) ∧
          (∀ n0 w sc, lookupT (Tree.fdir n c rest) n0 = some (.sdir w) →
            lookupT s' n0 = some (.sdir sc) →
            ∃ stx c1 sty, bwdDirs noFaultEnv sf (rp ++ [n0]) (some sc) w stx = .ok (c1, sty) ∧
              lookupT v1 n0 = some (.sdir (bwdFiles noFaultEnv sf (rp ++ [n0]) c1 sty).1)) ∧
          (∀ n0 w, lookupT (Tree.fdir n c rest) n0 = some (.sdir w) →
            lookupT s' n0 = none → lookupT v1 n0 = none) := by
        intro cc sl0 hsl hccf hrun2
        cases hc : bwdDirs noFaultEnv sf (rp ++ [n]) cc c st with
        | error e =>
            rw [hc] at hrun2
            cases hrun2
        | ok r1 =>
            rw [hc] at hrun2
            obtain ⟨c1, st1'⟩ := r1
            simp only [] at hrun2
            cases hr : bwdDirs noFaultEnv sf rp (some s') rest
                (bwdFiles noFaultEnv sf (rp ++ [n]) c1 st1').2 with
            | error e =>
                rw [hr] at hrun2
                cases hrun2
            | ok r3 =>
                rw [hr] at hrun2
                obtain ⟨rest2, st3⟩ := r3
                simp only [Except.ok.injEq, Prod.mk.injEq] at hrun2
                obtain ⟨h1, h2⟩ := hrun2
                subst h1
                obtain ⟨cA, cB, cC, cD, cE, cF⟩ := ihr s' rp _ rest2 st3 hw'.2 hr
                refine ⟨?_, ?_, ?_, ?_, ?_, ?_⟩
                · intro n0 d h
                  by_cases hmn : n = n0
                  · rw [lookupT, if_pos hmn] at h
                    cases h
                  · rw [lookupT, if_neg hmn] at h ⊢
                    exact cA n0 d h
                · intro n0 h
                  by_cases hmn : n = n0
                  · rw [lookupT, if_pos hmn] at h
                    cases h
                  · rw [lookupT, if_neg hmn] at h ⊢
                    exact cB n0 h
                · intro n0 d h
                  by_cases hmn : n = n0
                  · rw [lookupT, if_pos hmn] at h
                    cases h
                  · rw [lookupT, if_neg hmn] at h ⊢
                    exact cC n0 d h
                · intro n0 w2 h
                  by_cases hmn : n = n0
                  · exact ⟨c, by rw [lookupT, if_pos hmn]⟩
                  · rw [lookupT, if_neg hmn] at h
                    obtain ⟨w, hw0⟩ := cD n0 w2 h
                    exact ⟨w, by rw [lookupT, if_neg hmn]; exact hw0⟩
                · intro n0 w sc hv hs
                  by_cases hmn : n = n0
                  · subst hmn
                    rw [lookupT, if_pos rfl] at hv
                    simp only [Option.some.injEq, Slot.sdir.injEq] at hv
                    rw [hsl] at hs
                    simp only [Option.some.injEq] at hs
                    have hcc := hccf sc hs
                    subst hcc
                    subst hv
                    exact ⟨st, c1, st1', hc, by rw [lookupT, if_pos rfl]⟩
                  · rw [lookupT, if_neg hmn] at hv
                    obtain ⟨stx, c1x, styx, ha, hb⟩ := cE n0 w sc hv hs
                    exact ⟨stx, c1x, styx, ha, by rw [lookupT, if_neg hmn]; exact hb⟩
                · intro n0 w hv hs
                  by_cases hmn : n = n0
                  · subst hmn
                    rw [hsl] at hs
                    cases hs
                  · rw [lookupT, if_neg hmn] at hv ⊢
                    exact cF n0 w hv hs
      have drop : lookupT s' n = none →
          ((match bwdDirs noFaultEnv sf (rp ++ [n]) none c st with
            | .error e => .error e
            | .ok (c1, st1) =>
                if noFaultEnv.rmdirFails (rp ++ [n]) ||
                    !(isNilT (bwdFiles noFaultEnv sf (rp ++ [n]) c1 st1).1) then
                  .error (.rmdirFault (rp ++ [n]), (bwdFiles noFaultEnv sf (rp ++ [n]) c1 st1).2)
                else
                  match bwdDirs noFaultEnv sf rp (some s') rest
                      ((((bwdFiles noFaultEnv sf (rp ++ [n]) c1 st1).2.push
                        [⟨Sev.info, EvKind.dirDeleted, ⟨Root.rep, rp ++ [n]⟩⟩]).mark).addMut
                        ⟨MutKind.rmdirM, ⟨Root.rep, rp ++ [n]⟩⟩) with
                  | .error e => .error e
                  | .ok (rest2, st4) => .ok (rest2, st4) :
            Except (Fault × St) (Tree × St)) = .ok (v1, stF)) →
          (∀ n0 d, lookupT (Tree.fdir n c rest) n0 = some (.sfile d) →
            lookupT v1 n0 = some (.sfile d)) ∧
          (∀ n0, lookupT (Tree.fdir n c rest) n0 = none → lookupT v1 n0 = none) ∧
          (∀ n0 d, lookupT v1 n0 = some (.sfile d) →
            lookupT (Tree.fdir n c rest) n0 = some (.sfile d)) ∧
          (∀ n0 w2, lookupT v1 n0 = some (.sdir w2) →
            ∃ w, lookupT (Tree.fdir n c rest) n0 = some (.sdir w)) ∧
          (∀ n0 w sc, lookupT (Tree.fdir n c rest) n0 = some (.sdir w) →
            lookupT s' n0 = some (.sdir sc) →
            ∃ stx c1 sty, bwdDirs noFaultEnv sf (rp ++ [n0]) (some sc) w stx = .ok (c1, sty) ∧
              lookupT v1 n0 = some (.sdir (bwdFiles noFaultEnv sf (rp ++ [n0]) c1 sty).1)) ∧
          (∀ n0 w, lookupT (Tree.fdir n c rest) n0 = some (.sdir w) →
            lookupT s' n0 = none → lookupT v1 n0 = none) := by
        intro hlsn hrun2
        cases hc : bwdDirs noFaultEnv sf (rp ++ [n]) none c st with
        | error e =>
            rw [hc] at hrun2
            cases hrun2
        | ok r1 =>
            rw [hc] at hrun2
            obtain ⟨c1, st1'⟩ := r1
            simp only [] at hrun2
            split at hrun2
            · cases hrun2
            · cases hr : bwdDirs noFaultEnv sf rp (some s') rest
                  ((((bwdFiles noFaultEnv sf (rp ++ [n]) c1 st1').2.push
                    [⟨Sev.info, EvKind.dirDeleted, ⟨Root.rep, rp ++ [n]⟩⟩]).mark).addMut
                    ⟨MutKind.rmdirM, ⟨Root.rep, rp ++ [n]⟩⟩) with
              | error e =>
                  rw [hr] at hrun2
                  cases hrun2
              | ok r3 =>
                  rw [hr] at hrun2
                  obtain ⟨rest2, st4⟩ := r3
                  simp only [Except.ok.injEq, Prod.mk.injEq] at hrun2
                  obtain ⟨h1, h2⟩ := hrun2
                  subst h1
                  obtain ⟨cA, cB, cC, cD, cE, cF⟩ := ihr s' rp _ rest2 st4 hw'.2 hr
                  refine ⟨?_, ?_, ?_, ?_, ?_, ?_⟩
                  · intro n0 d h
                    by_cases hmn : n = n0
                    · rw [lookupT, if_pos hmn] at h
                      cases h
                    · rw [lookupT, if_neg hmn] at h
                      exact cA n0 d h
                  · intro n0 h
                    by_cases hmn : n = n0
                    · rw [lookupT, if_pos hmn] at h
                      cases h
                    · rw [lookupT, if_neg hmn] at h
                      exact cB n0 h
                  · intro n0 d h
                    by_cases hmn : n = n0
                    · subst hmn
                      exfalso
                      exact hw'.1.1 (lookup_mem_names rest n _ (cC n d h))
                    · rw [lookupT, if_neg hmn]
                      exact cC n0 d h
                  · intro n0 w2 h
                    by_cases hmn : n = n0
                    · exact ⟨c, by rw [lookupT, if_pos hmn]⟩
                    · obtain ⟨w, hw0⟩ := cD n0 w2 h
                      exact ⟨w, by rw [lookupT, if_neg hmn]; exact hw0⟩
                  · intro n0 w sc hv hs
                    by_cases hmn : n = n0
                    · subst hmn
                      rw [hlsn] at hs
                      cases hs
                    · rw [lookupT, if_neg hmn] at hv
                      exact cE n0 w sc hv hs
                  · intro n0 w hv hs
                    by_cases hmn : n = n0
                    · subst hmn
                      exact cB n ((lookupT_eq_none_iff rest n).mpr hw'.1.1)
                    · rw [lookupT, if_neg hmn] at hv
                      exact cF n0 w hv hs
      cases hls : lookupT s' n with
      | none =>
          simp only [bwdDirs, hls] at hrun
          exact drop hls hrun
      | some s0 =>
          cases s0 with
          | sfile d0 =>
              simp only [bwdDirs, hls] at hrun
              exact keep none (.sfile d0) hls (fun sc hsc => by cases hsc) hrun
          | sdir sc =>
              simp only [bwdDirs, hls] at hrun
              exact keep (some sc) (.sdir sc) hls (fun sc2 hsc => by cases hsc; rfl) hrun

theorem sizeOf_lookup_dir : ∀ (v : Tree) (n : String) (w : Tree),
    lookupT v n = some (.sdir w) → sizeOf w < sizeOf v := by
  intro v
  induction v with
  | fnil => intro n w h; cases h
  | ffile m d r ih =>
      intro n w h
      rw [lookupT] at h
      split at h
      · cases h
      · have h2 := ih n w h
        have h3 : sizeOf r < sizeOf (Tree.ffile m d r) := by
          simp only [Tree.ffile.sizeOf_spec]
          omega
        omega
  | fdir m c r ihc ihr =>
      intro n w h
      rw [lookupT] at h
      split at h
      · simp only [Option.some.injEq, Slot.sdir.injEq] at h
        subst h
        simp only [Tree.fdir.sizeOf_spec]
        omega
      · have h2 := ihr n w h
        have h3 : sizeOf r < sizeOf (Tree.fdir m c r) := by
          simp only [Tree.fdir.sizeOf_spec]
          omega
        omega

theorem srcSideA_file : ∀ (s v : Tree), srcSideA s v = true →
    ∀ n ds, lookupT s n = some (.sfile ds) → ds.readable = true ∧
      ∃ dd, lookupT v n = some (.sfile dd) ∧ dd.readable = true ∧
        dd.content = ds.content := by
  intro s
  induction s with
  | fnil => intro v _ n ds h; cases h
  | ffile m d r ih =>
      intro v hA n ds h
      rw [srcSideA, Bool.and_eq_true] at hA
      rw [lookupT] at h
      split at h
      · next he =>
          subst he
          simp only [Option.some.injEq, Slot.sfile.injEq] at h
          subst h
          cases hl : lookupT v m with
          | none => rw [hl] at hA; simp at hA
          | some sl =>
              cases sl with
              | sdir c => rw [hl] at hA; simp at hA
              | sfile dd =>
                  rw [hl] at hA
                  simp only [Bool.and_eq_true, beq_iff_eq] at hA
                  exact ⟨hA.1.1.1, dd, rfl, hA.1.1.2, hA.1.2⟩
      · exact ih v hA.2 n ds h
  | fdir m c r ihc ihr =>
      intro v hA n ds h
      rw [srcSideA, Bool.and_eq_true] at hA
      rw [lookupT] at h
      split at h
      · cases h
      · exact ihr v hA.2 n ds h

theorem srcSideA_dir : ∀ (s v : Tree), srcSideA s v = true →
    ∀ n c, lookupT s n = some (.sdir c) →
      (∃ w, lookupT v n = some (.sdir w) ∧ srcSideA c w = true) ∨
      (∃ dd, lookupT v n = some (.sfile dd) ∧ isNilT c = true) := by
  intro s
  induction s with
  | fnil => intro v _ n c h; cases h
  | ffile m d r ih =>
      intro v hA n c h
      rw [srcSideA, Bool.and_eq_true] at hA
      rw [lookupT] at h
      split at h
      · cases h
      · exact ih v hA.2 n c h
  | fdir m c0 r ihc ihr =>
      intro v hA n c h
      rw [srcSideA, Bool.and_eq_true] at hA
      rw [lookupT] at h
      split at h
      · next he =>
          subst he
          simp only [Option.some.injEq, Slot.sdir.injEq] at h
          subst h
          cases hl : lookupT v m with
          | none => rw [hl] at hA; simp at hA
          | some sl =>
              cases sl with
              | sfile dd =>
                  rw [hl] at hA
                  exact Or.inr ⟨dd, rfl, by simpa using hA.1⟩
              | sdir w =>
                  rw [hl] at hA
                  exact Or.inl ⟨w, rfl, by simpa using hA.1⟩
      · exact ihr v hA.2 n c h

theorem repSideA_dirEntry : ∀ (v s : Tree), repSideA s v = true →
    ∀ n w, (n, w) ∈ levelDirsT v →
      (∃ c, lookupT s n = some (.sdir c) ∧ repSideA c w = true) ∨
        lookupT s n = none := by
  intro v
  induction v with
  | fnil => intro s _ n w h; simp [levelDirsT] at h
  | ffile m d r ih =>
      intro s hA n w h
      rw [repSideA] at hA
      rw [levelDirsT] at h
      exact ih s hA n w h
  | fdir m w0 r ihc ihr =>
      intro s hA n w h
      rw [repSideA, Bool.and_eq_true] at hA
      rw [levelDirsT] at h
      rcases List.mem_cons.mp h with h1 | h1
      · simp only [Prod.mk.injEq] at h1
        obtain ⟨hn, hw⟩ := h1
        subst hn
        subst hw
        cases hl : lookupT s n with
        | none => exact Or.inr rfl
        | some sl =>
            cases sl with
            | sfile dd => rw [hl] at hA; simp at hA
            | sdir c =>
                rw [hl] at hA
                exact Or.inl ⟨c, rfl, hA.1⟩
      · exact ihr s hA.2 n w h1

theorem srcSideB_assemble :
    ∀ (s F : Tree), WfT s = true →
      (∀ n ds, lookupT s n = some (.sfile ds) → ds.readable = true ∧
        ∃ dd, lookupT F n = some (.sfile dd) ∧ dd.readable = true ∧
          ds.content = dd.content) →
      (∀ n c, lookupT s n = some (.sdir c) →
        (∃ w2, lookupT F n = some (.sdir w2) ∧ srcSideB c w2 = true) ∨
        (lookupT F n = none ∧ noFilesT c = true)) →
      srcSideB s F = true := by
  intro s
  induction s with
  | fnil => intro F _ _ _; rfl
  | ffile n ds r ih =>
      intro F hw hf hd
      have hw' : ¬ n ∈ namesT r ∧ WfT r = true := by simpa [WfT] using hw
      rw [srcSideB, Bool.and_eq_true]
      constructor
      · obtain ⟨h1, dd, h2, h3, h4⟩ := hf n ds (by rw [lookupT, if_pos rfl])
        rw [h2]
        simp [h1, h3, h4]
      · refine ih F hw'.2 ?_ ?_
        · intro m ds0 hm
          refine hf m ds0 ?_
          rw [lookupT]
          have hnm : ¬ n = m := by
            intro he
            subst he
            exact hw'.1 (lookup_mem_names r n _ hm)
          rw [if_neg hnm]
          exact hm
        · intro m c0 hm
          refine hd m c0 ?_
          rw [lookupT]
          have hnm : ¬ n = m := by
            intro he
            subst he
            exact hw'.1 (lookup_mem_names r n _ hm)
          rw [if_neg hnm]
          exact hm
  | fdir n c r ihc ihr =>
      intro F hw hf hd
      have hw' : (¬ n ∈ namesT r ∧ WfT c = true) ∧ WfT r = true := by simpa [WfT] using hw
      rw [srcSideB, Bool.and_eq_true]
      constructor
      · rcases hd n c (by rw [lookupT, if_pos rfl]) with ⟨w2, h1, h2⟩ | ⟨h1, h2⟩
        · rw [h1]
          exact h2
        · rw [h1]
          exact h2
      · refine ihr F hw'.2 ?_ ?_
        · intro m ds0 hm
          refine hf m ds0 ?_
          rw [lookupT]
          have hnm : ¬ n = m := by
            intro he
            subst he
            exact hw'.1.1 (lookup_mem_names r n _ hm)
          rw [if_neg hnm]
          exact hm
        · intro m c0 hm
          refine hd m c0 ?_
          rw [lookupT]
          have hnm : ¬ n = m := by
            intro he
            subst he
            exact hw'.1.1 (lookup_mem_names r n _ hm)
          rw [if_neg hnm]
          exact hm

theorem repSideB_assemble :
    ∀ (F s : Tree),
      (∀ n, n ∈ levelFileNamesT F → ∃ ds, lookupT s n = some (.sfile ds)) →
      (∀ n w2, (n, w2) ∈ levelDirsT F →
        ∃ c, lookupT s n = some (.sdir c) ∧ repSideB c w2 = true) →
      repSideB s F = true := by
  intro F
  induction F with
  | fnil => intro s _ _; rfl
  | ffile n d r ih =>
      intro s hf hd
      rw [repSideB, Bool.and_eq_true]
      constructor
      · obtain ⟨ds, hds⟩ := hf n (by rw [levelFileNamesT]; exact List.mem_cons_self _ _)
        rw [hds]
      · refine ih s ?_ ?_
        · intro m hm
          exact hf m (by rw [levelFileNamesT]; exact List.mem_cons_of_mem _ hm)
        · intro m w2 hm
          exact hd m w2 (by rw [levelDirsT]; exact hm)
  | fdir n w r ihc ihr =>
      intro s hf hd
      rw [repSideB, Bool.and_eq_true]
      constructor
      · obtain ⟨c, hc, hr2⟩ := hd n w (by rw [levelDirsT]; exact List.mem_cons_self _ _)
        rw [hc]
        exact hr2
      · refine ihr s ?_ ?_
        · intro m hm
          exact hf m (by rw [levelFileNamesT]; exact hm)
        · intro m w2 hm
          exact hd m w2 (by rw [levelDirsT]; exact List.mem_cons_of_mem _ hm)

theorem bwdPhase_good (sf : List Path) :
    ∀ (k : Nat) (v : Tree), sizeOf v ≤ k →
      ∀ (s' : Tree) (rp : Path) (st : St) (v1 : Tree) (stF : St),
        WfT v = true → WfT s' = true →
        srcSideA s' v = true → repSideA s' v = true →
        (∀ q, ((rp ++ q) ∈ sf ↔ (fileAt s' q).isSome = true)) →
        bwdDirs noFaultEnv sf rp (some s') v st = .ok (v1, stF) →
        srcSideB s' (bwdFiles noFaultEnv sf rp v1 stF).1 = true ∧
        repSideB s' (bwdFiles noFaultEnv sf rp v1 stF).1 = true := by
  intro k
  induction k with
  | zero =>
      intro v hsz
      exact absurd (Nat.lt_of_lt_of_le (sizeOf_tree_pos v) hsz) (lt_irrefl 0)
  | succ k ihk =>
      intro v hsz s' rp st v1 stF hwv hws hsrcA hrepA hsf hrun
      obtain ⟨cA, cB, cC, cD, cE, cF⟩ := bwdDirs_chase sf v s' rp st v1 stF hwv hrun
      obtain ⟨hWfv1, _⟩ := bwdDirs_wf sf v rp (some s') st v1 stF hwv hrun
      obtain ⟨hWfF, _, hdirsF, hlookF⟩ := bwdFiles_slot sf rp v1 stF hWfv1
      have hsf1 : ∀ n, ((rp ++ [n]) ∈ sf ↔ ∃ d, lookupT s' n = some (.sfile d)) := by
        intro n
        rw [hsf [n]]
        cases hl : lookupT s' n with
        | none => simp [fileAt_cons_none s' n [] hl]
        | some sl =>
            cases sl with
            | sfile d => simp [fileAt_cons_file s' n [] d hl]
            | sdir c => simp [fileAt_cons_dir s' n [] c hl]
      have childStep : ∀ (n : String) (w c : Tree) (stx : St) (c1 : Tree) (sty : St),
          lookupT v n = some (.sdir w) → lookupT s' n = some (.sdir c) →
          srcSideA c w = true →
          bwdDirs noFaultEnv sf (rp ++ [n]) (some c) w stx = .ok (c1, sty) →
          srcSideB c (bwdFiles noFaultEnv sf (rp ++ [n]) c1 sty).1 = true ∧
          repSideB c (bwdFiles noFaultEnv sf (rp ++ [n]) c1 sty).1 = true := by
        intro n w c stx c1 sty hvw hsc hsw hcrun
        have hWfw : WfT w = true := WfT_lookup_dir v n w hwv hvw
        have hWfc : WfT c = true := WfT_lookup_dir s' n c hws hsc
        have hrepw : repSideA c w = true := by
          rcases repSideA_dirEntry v s' hrepA n w (levelDirs_of_lookup v n w hvw) with
            ⟨c2, hc2, hr2⟩ | hc2
          · rw [hsc] at hc2
            simp only [Option.some.injEq, Slot.sdir.injEq] at hc2
            rw [← hc2] at hr2
            exact hr2
          · rw [hsc] at hc2
            cases hc2
        have hsfc : ∀ q, (((rp ++ [n]) ++ q) ∈ sf ↔ (fileAt c q).isSome = true) := by
          intro q
          have h0 := hsf (n :: q)
          rw [show rp ++ [n] ++ q = rp ++ n :: q by simp]
          rw [h0]
          cases q with
          | nil =>
              rw [fileAt_cons_dir s' n [] c hsc]
              simp [fileAt, findT]
          | cons m q2 =>
              rw [fileAt_cons_dir s' n (m :: q2) c hsc]
              simp
        have hszw : sizeOf w ≤ k := by
          have h1 := sizeOf_lookup_dir v n w hvw
          omega
        exact ihk w hszw c (rp ++ [n]) stx c1 sty hWfw hWfc hsw hrepw hsfc hcrun
      refine ⟨?_, ?_⟩
      · refine srcSideB_assemble s' _ hws ?_ ?_
        · intro n ds hn
          obtain ⟨hr1, dd, hvd, hr2, hr3⟩ := srcSideA_file s' v hsrcA n ds hn
          have hv1 : lookupT v1 n = some (.sfile dd) := cA n dd hvd
          have hmem : (rp ++ [n]) ∈ sf := (hsf1 n).mpr ⟨ds, hn⟩
          refine ⟨hr1, dd, ?_, hr2, hr3.symm⟩
          rw [hlookF n, hv1]
          simp [hmem]
        · intro n c hn
          rcases srcSideA_dir s' v hsrcA n c hn with ⟨w, hvw, hsw⟩ | ⟨dd, hvf, hnilc⟩
          · obtain ⟨stx, c1, sty, hcrun, hl1⟩ := cE n w c hvw hn
            obtain ⟨hsb, hrb⟩ := childStep n w c stx c1 sty hvw hn hsw hcrun
            refine Or.inl ⟨(bwdFiles noFaultEnv sf (rp ++ [n]) c1 sty).1, ?_, hsb⟩
            rw [hlookF n, hl1]
          · have hv1 : lookupT v1 n = some (.sfile dd) := cA n dd hvf
            have hnmem : ¬ (rp ++ [n]) ∈ sf := by
              intro hmem
              obtain ⟨d2, hd2⟩ := (hsf1 n).mp hmem
              rw [hn] at hd2
              cases hd2
            refine Or.inr ⟨?_, ?_⟩
            · rw [hlookF n, hv1]
              simp [hnmem]
            · rw [eq_fnil_of_isNil c hnilc]
              rfl
      · refine repSideB_assemble _ s' ?_ ?_
        · intro n hnF
          obtain ⟨d, hFd⟩ := lookup_of_levelFile _ n hWfF hnF
          have h0 := hlookF n
          rw [hFd] at h0
          cases hv1 : lookupT v1 n with
          | none =>
              rw [hv1] at h0
              simp at h0
          | some sl =>
              cases sl with
              | sdir w =>
                  rw [hv1] at h0
                  simp at h0
              | sfile d2 =>
                  rw [hv1] at h0
                  by_cases hmem : (rp ++ [n]) ∈ sf
                  · exact (hsf1 n).mp hmem
                  · exfalso
                    simp [hmem] at h0
        · intro n w2 hnF
          have hdd : (n, w2) ∈ levelDirsT v1 := by rw [← hdirsF]; exact hnF
          have hv1 : lookupT v1 n = some (.sdir w2) := lookup_of_levelDir v1 n w2 hWfv1 hdd
          obtain ⟨w, hvw⟩ := cD n w2 hv1
          rcases repSideA_dirEntry v s' hrepA n w (levelDirs_of_lookup v n w hvw) with
            ⟨c, hc, hrcw⟩ | hc
          · obtain ⟨stx, c1, sty, hcrun, hl1⟩ := cE n w c hvw hc
            rw [hv1] at hl1
            simp only [Option.some.injEq, Slot.sdir.injEq] at hl1
            have hsw : srcSideA c w = true := by
              rcases srcSideA_dir s' v hsrcA n c hc with ⟨w3, hvw3, hsw3⟩ | ⟨dd, hvf, _⟩
              · rw [hvw] at hvw3
                simp only [Option.some.injEq, Slot.sdir.injEq] at hvw3
                rw [hvw3]
                exact hsw3
              · rw [hvw] at hvf
                cases hvf
            obtain ⟨hsb, hrb⟩ := childStep n w c stx c1 sty hvw hc hsw hcrun
            refine ⟨c, hc, ?_⟩
            rw [hl1]
            exact hrb
          · have h0 := cF n w hvw hc
            rw [h0] at hv1
            cases hv1

theorem fwdPhase_goodInfo (src rep t1 : Tree) (st2 : St)
    (hws : WfT src = true) (hwr : WfT rep = true)
    (hph : fwdPhase noFaultEnv [] src rep St.init = .ok (t1, st2))
    (hinfo : allInfo st2.events = true) :
    WfT t1 = true ∧ srcSideA src t1 = true ∧ repSideA src t1 = true := by
  simp only [fwdPhase] at hph
  cases hwalk : fwdWalk noFaultEnv [] src (fwdFiles noFaultEnv [] src (.ctxDir rep) St.init).1
      (fwdFiles noFaultEnv [] src (.ctxDir rep) St.init).2 with
  | error e =>
      rw [hwalk] at hph
      cases hph
  | ok r2 =>
      obtain ⟨ctx2, st2'⟩ := r2
      rw [hwalk] at hph
      simp only [Except.ok.injEq, Prod.mk.injEq] at hph
      obtain ⟨h1, h2⟩ := hph
      subst h2
      obtain ⟨u2, hctx, hWfu2, hsA, hrA⟩ := fwdTop_allInfo src rep ctx2 st2' hws hwr
        hwalk hinfo
      rw [← h1, hctx]
      exact ⟨hWfu2, hsA, hrA⟩

theorem firstRun_good (src rep rep1 : Tree) (b1 : Bool) (st1 : St)
    (hws : WfT src = true) (hwr : WfT rep = true)
    (hrun : perform_sync noFaultEnv src rep = .ok (rep1, b1, st1))
    (hinfo : allInfo st1.events = true) :
    srcSideB src rep1 = true ∧ repSideB src rep1 = true := by
  rw [perform_sync_decomp] at hrun
  cases hph : fwdPhase noFaultEnv [] src rep St.init with
  | error e =>
      rw [hph] at hrun
      cases hrun
  | ok r2 =>
      obtain ⟨t1, st2⟩ := r2
      rw [hph] at hrun
      simp only [] at hrun
      cases hbd : bwdDirs noFaultEnv st2.srcFiles [] (some src) t1 st2 with
      | error e =>
          rw [hbd] at hrun
          cases hrun
      | ok r3 =>
          obtain ⟨rep2, st3⟩ := r3
          rw [hbd] at hrun
          simp only [Except.ok.injEq, Prod.mk.injEq] at hrun
          obtain ⟨h1, h2, h3⟩ := hrun
          have hst3sf : st3.srcFiles = st2.srcFiles := by
            have h0 := bwdDirs_srcFiles noFaultEnv st2.srcFiles t1 [] (some src) st2
            rw [hbd] at h0
            exact h0
          have hIst3 : allInfo st3.events = true := by
            obtain ⟨l, hev, _⟩ := bwdFiles_evKinds noFaultEnv st3.srcFiles [] rep2 st3
            rw [h3] at hev
            rw [hev] at hinfo
            exact allInfo_append_left _ _ hinfo
          have hIst2 : allInfo st2.events = true := by
            obtain ⟨l, hev, _⟩ := bwdDirs_evKinds noFaultEnv st2.srcFiles t1 [] (some src) st2
            rw [hbd] at hev
            simp only [resSt] at hev
            rw [hev] at hIst3
            exact allInfo_append_left _ _ hIst3
          obtain ⟨hWft1, hsrcA, hrepA⟩ := fwdPhase_goodInfo src rep t1 st2 hws hwr hph hIst2
          have hsfeq : st2.srcFiles = walkPathsR src :=
            fwdPhase_srcFiles noFaultEnv src rep t1 st2 hph
          have hsf : ∀ q, ((([] : Path) ++ q) ∈ st2.srcFiles ↔
              (fileAt src q).isSome = true) := by
            intro q
            rw [hsfeq]
            simpa using mem_walkPathsR src hws q
          obtain ⟨hsb, hrb⟩ := bwdPhase_good st2.srcFiles (sizeOf t1) t1 le_rfl src [] st2
            rep2 st3 hWft1 hws hsrcA hrepA hsf hbd
          rw [hst3sf] at h1
          rw [← h1]
          exact ⟨hsb, hrb⟩

/-- C7 counterexample to the claim as stated: with a replica regular file
"d" where the source has a directory "d" containing file "f", the first
no-fault run completes (the blocked copy of "d/f" fails with warnings and
an error, and the stale file "d" is deleted), yet the second run — with the
source unchanged — returns changed=true and performs a copy (a fileCreated
event), because the first run never converged.  So "running twice in a row
yields changed=false and zero copy/delete events on the second run" is
false for these trees. -/
theorem C7_counterexample :
    perform_sync noFaultEnv exSrcC7 exRepC7 =
      .ok (.fnil, true,
        ⟨true, [⟨.warning, .copyAttemptFailed 1, ⟨.rep, ["d", "f"]⟩⟩,
          ⟨.warning, .copyAttemptFailed 2, ⟨.rep, ["d", "f"]⟩⟩,
          ⟨.warning, .copyAttemptFailed 3, ⟨.rep, ["d", "f"]⟩⟩,
          ⟨.error, .copyFailed, ⟨.rep, ["d", "f"]⟩⟩,
          ⟨.info, .fileDeleted, ⟨.rep, ["d"]⟩⟩], [["d", "f"]],
          [⟨.removeM, ⟨.rep, ["d"]⟩⟩]⟩) ∧
    perform_sync noFaultEnv exSrcC7 .fnil =
      .ok (exSrcC7, true,
        ⟨true, [⟨.info, .dirCreated, ⟨.rep, ["d"]⟩⟩,
          ⟨.info, .fileCreated, ⟨.rep, ["d", "f"]⟩⟩], [["d", "f"]],
          [⟨.mkdirM, ⟨.rep, ["d"]⟩⟩, ⟨.writeM, ⟨.rep, ["d", "f"]⟩⟩]⟩) ∧
    ([⟨.info, .dirCreated, ⟨.rep, ["d"]⟩⟩,
      ⟨.info, .fileCreated, ⟨.rep, ["d", "f"]⟩⟩] : List Event).any
        (fun e => e.kind == EvKind.fileCreated) = true := by
  refine ⟨rfl, rfl, by decide⟩

/-- C7 (amended): for well-formed source and replica trees and no injected
I/O failures, if one engine run completes with only informational events
(every copy and delete it attempted succeeded and no digest failed), then
an immediately following run with the source unchanged returns
changed=false and performs zero copy and zero delete operations: every
event of the second run is an informational directory-creation report.
The all-informational hypothesis is needed: a first run that logged
warnings or errors need not have converged, and the second run may still
copy or delete (see the counterexample). -/
theorem C7_idempotent_after_clean_run (src rep rep1 : Tree) (b1 : Bool) (st1 : St)
    (hws : WfT src = true) (hwr : WfT rep = true)
    (hrun : perform_sync noFaultEnv src rep = .ok (rep1, b1, st1))
    (hinfo : allInfo st1.events = true) :
    ∃ rep2 st2, perform_sync noFaultEnv src rep1 = .ok (rep2, false, st2) ∧
      st2.events.all (fun e => e.kind == EvKind.dirCreated) = true := by
  obtain ⟨hsb, hrb⟩ := firstRun_good src rep rep1 b1 st1 hws hwr hrun hinfo
  exact secondRun_clean src rep1 hws hsb hrb

/-- Witness for C7 at concrete trees: source = empty directory "d", replica
= stale regular file "d".  The first run deletes the stale file with a
single informational event, and the theorem yields a second run with
changed=false and only directory-creation events. -/
theorem C7_witness :
    WfT exSrcC7w = true ∧ WfT exRepC7 = true ∧
    perform_sync noFaultEnv exSrcC7w exRepC7 =
      .ok (.fnil, true, ⟨true, [⟨.info, .fileDeleted, ⟨.rep, ["d"]⟩⟩], [],
        [⟨.removeM, ⟨.rep, ["d"]⟩⟩]⟩) ∧
    allInfo [⟨.info, .fileDeleted, ⟨.rep, ["d"]⟩⟩] = true ∧
    (∃ rep2 st2, perform_sync noFaultEnv exSrcC7w .fnil = .ok (rep2, false, st2) ∧
      st2.events.all (fun e => e.kind == EvKind.dirCreated) = true) :=
  ⟨by decide, by decide, rfl, by decide,
    C7_idempotent_after_clean_run exSrcC7w exRepC7 .fnil true
      ⟨true, [⟨.info, .fileDeleted, ⟨.rep, ["d"]⟩⟩], [], [⟨.removeM, ⟨.rep, ["d"]⟩⟩]⟩
      (by decide) (by decide) rfl (by decide)⟩

end SyncDir

